import Mathlib

/-!
# Overlap layout algorithm (`src/utils/layout-algorithms/overlap.js`)

A shallow embedding of the `Event` proxy class, `sortByRender` and
`getStyledEvents`, followed by theorems about them.

Conventions of the embedding.

* JavaScript numbers that carry times (`start`, `end`, `startMs`, `endMs`,
  `minimumStartDifference`) are integers (`Int`); percentages (`width`,
  `xOffset`, `top`, `height`) are rationals.  The getters `_width`, `xOffset`
  and `width` compute in exact rational arithmetic, with `1.7 = 17/10`; their
  variants `_widthWith`, `xOffsetWith` and `widthWith` round the result of
  every arithmetic operation with a given function, and with `roundDouble`
  they compute what the JavaScript computes in IEEE 754 doubles.
* Proxy objects are mutable and compared by identity.  A proxy is identified
  by its position in `eventsInRenderOrder`; the mutable fields `parent` and
  `children` live in a `Links` table indexed by that position.
* Loops and recursive getters take a fuel argument (for a getter, the height
  of its call stack: up the parent chain, then down the children).  A result `none` means
  that the run produced no value: the fuel ran out, or the JavaScript would
  have thrown a `TypeError` (reading `.filter` of `undefined`).  The theorems
  show that the fuel handed over by `sortByRender` and `getStyledEvents` is
  always enough.
-/

namespace Overlap

/-! ## Interval proxy -/

/-- What `slotMetrics.getRange` returns; `startDate` and `endDate` are given
by their numeric value (`+startDate`, `+endDate`). -/
structure Range where
  start : Int
  «end» : Int
  startDate : Int
  endDate : Int
  top : ℚ
  height : ℚ

/-- The accessor pair of the caller. -/
structure Accessors (δ τ : Type) where
  start : δ → τ
  «end» : δ → τ

/-- The slot metrics service of the caller. -/
structure SlotMetrics (τ : Type) where
  getRange : τ → τ → Range

/-- Immutable fields of the class `Event`. -/
structure Event (δ : Type) where
  start : Int
  «end» : Int
  startMs : Int
  endMs : Int
  top : ℚ
  height : ℚ
  data : δ

/-- The constructor of `Event`. -/
def Event.new {δ τ : Type} (data : δ) (accessors : Accessors δ τ)
    (slotMetrics : SlotMetrics τ) : Event δ :=
  let r := slotMetrics.getRange (accessors.start data) (accessors.end data)
  { start := r.start, «end» := r.end, startMs := r.startDate, endMs := r.endDate,
    top := r.top, height := r.height, data := data }

/-- The mutable fields `parent` and `children` of all proxies; `none` is
`undefined`. -/
structure Links where
  parent : Nat → Option Nat
  children : Nat → Option (List Nat)

/-- No proxy has a parent or a children list. -/
def Links.empty : Links := { parent := fun _ => none, children := fun _ => none }

/-- Assignment `this.parent = p` on proxy `i`. -/
def Links.setParent (L : Links) (i : Nat) (p : Nat) : Links :=
  { L with parent := fun j => if j = i then some p else L.parent j }

/-- Assignment `this.children = cs` on proxy `i`. -/
def Links.setChildren (L : Links) (i : Nat) (cs : List Nat) : Links :=
  { L with children := fun j => if j = i then some cs else L.children j }

/-- Values of the getter `depth`: a natural number, or `-Infinity`, which is
what `Math.max()` of no arguments returns. -/
inductive DepthVal where
  | negInfinity : DepthVal
  | finite (n : Nat) : DepthVal
  deriving DecidableEq, Repr

/-- Binary `Math.max` on depth values. -/
def DepthVal.max : DepthVal → DepthVal → DepthVal
  | .negInfinity, d => d
  | d, .negInfinity => d
  | .finite a, .finite b => .finite (Nat.max a b)

/-- Adding one: `-Infinity + 1` is `-Infinity`. -/
def DepthVal.succ : DepthVal → DepthVal
  | .negInfinity => .negInfinity
  | .finite n => .finite (n + 1)

/-- Division `availableWidth / depth` of a finite width; a finite number
divided by `-Infinity` is zero. -/
def DepthVal.divides (availableWidth : ℚ) : DepthVal → ℚ
  | .negInfinity => 0
  | .finite n => availableWidth / (n : ℚ)

/-- The getter `depth`. -/
def depth (L : Links) : Nat → Nat → Option DepthVal
  | 0, _ => none
  | fuel + 1, this =>
    match L.children this with
    | some children =>
      (children.mapM (depth L fuel)).map
        (fun ds => (ds.foldl DepthVal.max DepthVal.negInfinity).succ)
    | none => some (DepthVal.finite 1)

mutual

/-- The getter `_width`, in exact rational arithmetic. -/
def _width (L : Links) : Nat → Nat → Option ℚ
  | 0, _ => none
  | fuel + 1, this =>
    (match L.parent this with
      | some parent =>
        (_width L fuel parent).bind fun w => (xOffset L fuel parent).map fun x => w + x
      | none => some 0).bind fun parentEdge =>
    let availableWidth := 100 - parentEdge
    match L.children this with
    | some _ => (depth L (fuel + 1) this).map fun d => DepthVal.divides availableWidth d
    | none => some availableWidth

/-- The getter `xOffset`, in exact rational arithmetic. -/
def xOffset (L : Links) : Nat → Nat → Option ℚ
  | 0, _ => none
  | fuel + 1, this =>
    match L.parent this with
    | some parent =>
      (_width L fuel parent).bind fun w => (xOffset L fuel parent).map fun x => w + x
    | none => some 0

end

/-- The getter `width`, in exact rational arithmetic with `1.7 = 17/10`. -/
def width (L : Links) (fuel this : Nat) : Option ℚ := do
  let noOverlap ← _width L fuel this
  let overlap := min 100 (noOverlap * (17 / 10))
  match L.children this with
  | some _ => pure overlap
  | none => pure noOverlap

/-! ## Render order -/

/-- The order of `sortBy(events, ['startMs', (e) => -e.endMs])`. -/
def renderKeyLE {δ : Type} (a b : Event δ) : Prop :=
  a.startMs < b.startMs ∨ (a.startMs = b.startMs ∧ -a.endMs ≤ -b.endMs)

instance {δ : Type} : DecidableRel (@renderKeyLE δ) :=
  fun a b => by unfold renderKeyLE; infer_instance

/-- Modelled from the spec: `lodash/sortBy`, the stable sort utility, is an
external collaborator that is not part of the sources.  It sorts ascending by
the listed keys, compared one after the other, and keeps elements with equal
keys in their input order.  A stable sort by a total preorder has only one
possible result, so the choice of a stable insertion sort loses nothing. -/
def sortBy {δ : Type} (events : List (Event δ)) : List (Event δ) :=
  events.insertionSort renderKeyLE

/-- The `for` loop of `sortByRender` for the event just shifted: `before` is
`sortedByTime[0..i)` and the list argument is `sortedByTime[i..]`.  Returns the
event spliced out, if any, and `sortedByTime` after the loop. -/
def relocate {δ : Type} (event : Event δ) :
    List (Event δ) → List (Event δ) → Option (Event δ) × List (Event δ)
  | before, [] => (none, before)
  | before, test :: rest =>
    if event.endMs > test.startMs then relocate event (before ++ [test]) rest
    else if before.length > 0 then (some test, before ++ rest)
    else (none, before ++ test :: rest)

/-- The `while` loop of `sortByRender`. -/
def whileLoop {δ : Type} : Nat → List (Event δ) → List (Event δ) → Option (List (Event δ))
  | _, sorted, [] => some sorted
  | 0, _, _ :: _ => none
  | fuel + 1, sorted, event :: sortedByTime =>
    match relocate event [] sortedByTime with
    | (some moved, sortedByTime') => whileLoop fuel (sorted ++ [event] ++ [moved]) sortedByTime'
    | (none, sortedByTime') => whileLoop fuel (sorted ++ [event]) sortedByTime'

/-- The function `sortByRender`. -/
def sortByRender {δ : Type} (events : List (Event δ)) : Option (List (Event δ)) :=
  whileLoop events.length [] (sortBy events)

/-! ## Tree building -/

/-- The function `Math.abs` on integers. -/
def jsAbs (x : Int) : Int := if x < 0 then -x else x

/-- The predicate of `parentEvents.find` for the proxy `event`. -/
def canNest {δ : Type} (minimumStartDifference : Int) (event c : Event δ) : Bool :=
  decide (c.end > event.start) ||
    decide (jsAbs (event.start - c.start) < minimumStartDifference)

/-- Lines 127 to 138 of `getStyledEvents`: the proxy `event` is put under the
`parent` found for it. -/
def attach (L : Links) (event parent : Nat) : Option Links :=
  let L1 := L.setParent event parent
  (match L1.parent parent with
    | some grand =>
      match L1.children grand with
      | some cs => some (L1.setChildren grand (cs.filter (fun e => e ≠ event)))
      | none => none
    | none => some L1).bind fun L2 =>
  let L3 :=
    match L2.children parent with
    | some _ => L2
    | none => L2.setChildren parent []
  match L3.children parent with
  | some cs => some (L3.setChildren parent (cs ++ [event]))
  | none => none

/-- The `for` loop of `getStyledEvents`, run over the rest of `eventsCopy`.
A proxy is a pair of its identity and its fields. -/
def forLoop {δ : Type} (minimumStartDifference : Int) :
    List (Nat × Event δ) → List (Nat × Event δ) → Links →
      Option (List (Nat × Event δ) × Links)
  | [], parentEvents, L => some (parentEvents, L)
  | event :: rest, parentEvents, L =>
    match parentEvents.find? (fun c => canNest minimumStartDifference event.2 c.2) with
    | none => forLoop minimumStartDifference rest (parentEvents ++ [event]) L
    | some parent =>
      match attach L event.1 parent.1 with
      | some L' => forLoop minimumStartDifference rest parentEvents L'
      | none => none

/-- The filter at the head of the `do ... while` body:
`!parentEvents.includes(event)`. -/
def notSettled {δ : Type} (parentEvents : List (Nat × Event δ)) (event : Nat × Event δ) : Bool :=
  !(parentEvents.any (fun p => p.1 == event.1))

/-- The `do ... while` loop of `getStyledEvents`. -/
def doWhile {δ : Type} (minimumStartDifference : Int) :
    Nat → List (Nat × Event δ) → List (Nat × Event δ) → Links → Option Links
  | 0, _, _, _ => none
  | fuel + 1, eventsCopy, parentEvents, L =>
    let eventsCopy' := eventsCopy.filter (notSettled parentEvents)
    match forLoop minimumStartDifference eventsCopy' [] L with
    | none => none
    | some (parentEvents', L') =>
      if parentEvents'.length > 0 then
        doWhile minimumStartDifference fuel eventsCopy' parentEvents' L'
      else some L'

/-- The `style` object of an output record. -/
structure Style where
  top : ℚ
  height : ℚ
  width : ℚ
  xOffset : ℚ
  deriving DecidableEq

/-- An output record. -/
structure StyledEvent (δ : Type) where
  event : δ
  style : Style

/-- The forest built by `getStyledEvents` over proxies in render order. -/
def buildTree {δ : Type} (minimumStartDifference : Int)
    (eventsInRenderOrder : List (Event δ)) : Option Links :=
  doWhile minimumStartDifference (eventsInRenderOrder.length + 1)
    eventsInRenderOrder.enum [] Links.empty

/-- The final `map` of `getStyledEvents`, with the exact getters. -/
def styleOf {δ : Type} (L : Links) (fuel : Nat) (event : Nat × Event δ) :
    Option (StyledEvent δ) := do
  let w ← width L fuel event.1
  let x ← xOffset L fuel event.1
  pure { event := event.2.data,
         style := { top := event.2.top, height := event.2.height, width := w,
                    xOffset := max 0 x } }

/-- The function `getStyledEvents`, with the exact getters. -/
def getStyledEvents {δ τ : Type} (events : List δ) (minimumStartDifference : Int)
    (slotMetrics : SlotMetrics τ) (accessors : Accessors δ τ) :
    Option (List (StyledEvent δ)) := do
  let proxies := events.map (fun event => Event.new event accessors slotMetrics)
  let eventsInRenderOrder ← sortByRender proxies
  let L ← buildTree minimumStartDifference eventsInRenderOrder
  eventsInRenderOrder.enum.mapM (styleOf L (2 * eventsInRenderOrder.length + 2))

/-! ## The getters in double arithmetic -/

/-- The number of binary digits of `n`, computed with `fuel` halvings at most;
`bitLength n n` is the number of binary digits of `n`. -/
def bitLength : Nat → Nat → Nat
  | 0, _ => 0
  | fuel + 1, n => if n = 0 then 0 else bitLength fuel (n / 2) + 1

/-- The IEEE 754 double nearest to the rational `x`: round to nearest, ties to
even, with 53 significant binary digits and gradual underflow below `2^-1022`.
With `p / q` the absolute value of `x`, `e` is the exponent with
`2^e <= p/q < 2^(e+1)`, the doubles near `p / q` are the multiples of `2^-k`
with `k = min (52 - e) 1074`, and `m` or `m + 1` is the multiple chosen.
Overflow to `Infinity` is not modelled, and `-0` is `0`. -/
def roundDouble (x : ℚ) : ℚ :=
  if x = 0 then 0 else
    let p := x.num.natAbs
    let q := x.den
    let e0 : Int := (bitLength p p : Int) - (bitLength q q : Int)
    let e : Int := if q * 2 ^ e0.toNat ≤ p * 2 ^ (-e0).toNat then e0 else e0 - 1
    let k : Int := min (52 - e) 1074
    let n := p * 2 ^ k.toNat
    let d := q * 2 ^ (-k).toNat
    let m := n / d
    let r := n % d
    let m' := if 2 * r < d ∨ (2 * r = d ∧ m % 2 = 0) then m else m + 1
    let y : ℚ := ((m' * 2 ^ (-k).toNat : Nat) : ℚ) / ((2 ^ k.toNat : Nat) : ℚ)
    if x < 0 then -y else y

mutual

/-- The getter `_width`, the result of every arithmetic operation rounded by
`fl`: the sum `this.parent._width + this.parent.xOffset`, the difference
`100 - ...` and the quotient `availableWidth / this.depth`. -/
def _widthWith (fl : ℚ → ℚ) (L : Links) : Nat → Nat → Option ℚ
  | 0, _ => none
  | fuel + 1, this =>
    (match L.parent this with
      | some parent =>
        (_widthWith fl L fuel parent).bind fun w =>
          (xOffsetWith fl L fuel parent).map fun x => fl (w + x)
      | none => some 0).bind fun parentEdge =>
    let availableWidth := fl (100 - parentEdge)
    match L.children this with
    | some _ => (depth L (fuel + 1) this).map fun d => fl (DepthVal.divides availableWidth d)
    | none => some availableWidth

/-- The getter `xOffset`, the sum rounded by `fl`. -/
def xOffsetWith (fl : ℚ → ℚ) (L : Links) : Nat → Nat → Option ℚ
  | 0, _ => none
  | fuel + 1, this =>
    match L.parent this with
    | some parent =>
      (_widthWith fl L fuel parent).bind fun w =>
        (xOffsetWith fl L fuel parent).map fun x => fl (w + x)
    | none => some 0

end

/-- The getter `width`, with the literal `1.7` and the product
`noOverlap * 1.7` rounded by `fl`. -/
def widthWith (fl : ℚ → ℚ) (L : Links) (fuel this : Nat) : Option ℚ := do
  let noOverlap ← _widthWith fl L fuel this
  let overlap := min 100 (fl (noOverlap * fl (17 / 10)))
  match L.children this with
  | some _ => pure overlap
  | none => pure noOverlap

/-- The final `map` of `getStyledEvents`, with the getters rounded by `fl`. -/
def styleOfWith {δ : Type} (fl : ℚ → ℚ) (L : Links) (fuel : Nat) (event : Nat × Event δ) :
    Option (StyledEvent δ) := do
  let w ← widthWith fl L fuel event.1
  let x ← xOffsetWith fl L fuel event.1
  pure { event := event.2.data,
         style := { top := event.2.top, height := event.2.height, width := w,
                    xOffset := max 0 x } }

/-- The function `getStyledEvents`, with the getters rounded by `fl`; with
`fl = roundDouble` the percentages are those of the JavaScript. -/
def getStyledEventsWith {δ τ : Type} (fl : ℚ → ℚ) (events : List δ)
    (minimumStartDifference : Int) (slotMetrics : SlotMetrics τ) (accessors : Accessors δ τ) :
    Option (List (StyledEvent δ)) := do
  let proxies := events.map (fun event => Event.new event accessors slotMetrics)
  let eventsInRenderOrder ← sortByRender proxies
  let L ← buildTree minimumStartDifference eventsInRenderOrder
  eventsInRenderOrder.enum.mapM (styleOfWith fl L (2 * eventsInRenderOrder.length + 2))

/-! ## A concrete caller -/

/-- Accessors for an event given as the pair of its start and its end. -/
def pairAccessors : Accessors (Int × Int) Int :=
  { start := fun d => d.1, «end» := fun d => d.2 }

/-- Slot metrics whose slot positions are the timestamps themselves; `top`
and `height` are left at zero. -/
def plainMetrics : SlotMetrics Int :=
  { getRange := fun a b =>
      { start := a, «end» := b, startDate := a, endDate := b, top := 0, height := 0 } }

/-- Accessors for an event given as a pair of its start value and its end
value, each a pair of a slot position and a timestamp. -/
def quadAccessors : Accessors ((Int × Int) × (Int × Int)) (Int × Int) :=
  { start := fun d => d.1, «end» := fun d => d.2 }

/-- Slot metrics that take the slot position and the timestamp of a value from
its two components; `top` and `height` are left at zero. -/
def quadMetrics : SlotMetrics (Int × Int) :=
  { getRange := fun a b =>
      { start := a.1, «end» := b.1, startDate := a.2, endDate := b.2, top := 0, height := 0 } }

/-- The pairs `(width, xOffset)` of an output, in output order. -/
def geometry {δ : Type} (out : Option (List (StyledEvent δ))) : Option (List (ℚ × ℚ)) :=
  out.map (fun records => records.map (fun r => (r.style.width, r.style.xOffset)))

/-! ## Predicates used by the theorems -/

/-- The proxy has the time span `startMs = s`, `endMs = e`. -/
def sameSpan {δ : Type} (s e : Int) (x : Event δ) : Bool :=
  decide (x.startMs = s ∧ x.endMs = e)


/-- Well-formedness of the links over `n` proxies numbered in render order:
a parent comes before its child, a listed child comes after the proxy that
lists it, a proxy is listed by its parent, no children list is empty, and a
listed child has a parent. -/
structure Links.WF (L : Links) (n : Nat) : Prop where
  parent_lt : ∀ i p, L.parent i = some p → p < i ∧ i < n
  children_gt : ∀ i cs, L.children i = some cs → ∀ c ∈ cs, i < c ∧ c < n
  parent_mem : ∀ i p, L.parent i = some p → ∃ cs, L.children p = some cs ∧ i ∈ cs
  children_ne : ∀ i cs, L.children i = some cs → cs ≠ []
  children_parent : ∀ i cs, L.children i = some cs → ∀ c ∈ cs, (L.parent c).isSome

/-- The shape of a render order.  Every event of the list either comes, in the
order of `sortBy`, before all events after it, or directly follows an event
`p` that ends at or before its start and comes before all later events that
start at or after the end of `p`.  `prev` is the event right before the list. -/
def RenderOrdered {δ : Type} : Option (Event δ) → List (Event δ) → Prop
  | _, [] => True
  | prev, x :: rest =>
    ((∀ y ∈ rest, renderKeyLE x y) ∨
      (∃ p, prev = some p ∧ p.endMs ≤ x.startMs ∧
        ∀ y ∈ rest, p.endMs ≤ y.startMs → renderKeyLE x y)) ∧
    RenderOrdered (some x) rest

/-- Two proxies overlap in time: each starts before the other ends. -/
def Overlaps {δ : Type} (a b : Event δ) : Prop :=
  a.startMs < b.endMs ∧ b.startMs < a.endMs

instance {δ : Type} (a b : Event δ) : Decidable (Overlaps a b) := by
  unfold Overlaps; infer_instance

/-- Two proxies are in the same temporally-connected overlap cluster of
`events`: they are linked by a chain of proxies of `events` in which each
overlaps the next. -/
def SameCluster {δ : Type} (events : List (Event δ)) : Event δ → Event δ → Prop :=
  Relation.ReflTransGen (fun p q => p ∈ events ∧ q ∈ events ∧ Overlaps p q)

/-- The relocation rule of `sortByRender` as a relation between the working
list and the output.  The first element `e` of the working list is emitted.
When the first element `t` of the rest with `e.endMs <= t.startMs` exists and
is not at the front of the rest, `t` is taken out and emitted directly behind
`e` (`move`); otherwise nothing is moved (`next`).  The rest is handled the
same way. -/
inductive RenderSteps {δ : Type} : List (Event δ) → List (Event δ) → Prop
  | done : RenderSteps [] []
  | next (e : Event δ) (work out : List (Event δ)) :
      (∀ inside t after, work = inside ++ t :: after →
        (∀ u ∈ inside, e.endMs > u.startMs) → e.endMs ≤ t.startMs → inside = []) →
      RenderSteps work out → RenderSteps (e :: work) (e :: out)
  | move (e t : Event δ) (inside after out : List (Event δ)) :
      inside ≠ [] → (∀ u ∈ inside, e.endMs > u.startMs) → e.endMs ≤ t.startMs →
      RenderSteps (inside ++ after) out →
      RenderSteps (e :: (inside ++ t :: after)) (e :: t :: out)

/-- Two proxies with the same identity and the same slot positions. -/
def SameSlots {δ : Type} (a b : Nat × Event δ) : Prop :=
  a.1 = b.1 ∧ a.2.start = b.2.start ∧ a.2.end = b.2.end

/-- The number of passes of the `do ... while` loop of `getStyledEvents`: the
loop of `doWhile` with a counter in place of the links it returns. -/
def passes {δ : Type} (minimumStartDifference : Int) :
    Nat → List (Nat × Event δ) → List (Nat × Event δ) → Links → Option Nat
  | 0, _, _, _ => none
  | fuel + 1, eventsCopy, parentEvents, L =>
    let eventsCopy' := eventsCopy.filter (notSettled parentEvents)
    match forLoop minimumStartDifference eventsCopy' [] L with
    | none => none
    | some (parentEvents', L') =>
      if parentEvents'.length > 0 then
        (passes minimumStartDifference fuel eventsCopy' parentEvents' L').map (fun k => k + 1)
      else some 1

/-- The `k`-th ancestor of a proxy along the `parent` fields. -/
def ancestor (L : Links) : Nat → Nat → Option Nat
  | 0, i => some i
  | k + 1, i => (L.parent i).bind (ancestor L k)

/-! ## Render order: the result exists and is a rearrangement -/

theorem relocate_perm {δ : Type} (event : Event δ) :
    ∀ (l before : List (Event δ)),
      List.Perm ((relocate event before l).1.toList ++ (relocate event before l).2)
        (before ++ l)
  | [], before => by simp [relocate]
  | test :: rest, before => by
    unfold relocate
    split_ifs with h1 h2
    · simpa using relocate_perm event rest (before ++ [test])
    · simp only [Option.toList, List.singleton_append]
      exact (List.perm_middle).symm
    · simp

theorem relocate_length {δ : Type} (event : Event δ) (l before : List (Event δ)) :
    (relocate event before l).1.toList.length + (relocate event before l).2.length
      = before.length + l.length := by
  have h := (relocate_perm event l before).length_eq
  simpa using h

theorem whileLoop_perm {δ : Type} :
    ∀ (fuel : Nat) (sorted sortedByTime : List (Event δ)),
      sortedByTime.length ≤ fuel →
      ∃ out, whileLoop fuel sorted sortedByTime = some out ∧
        List.Perm out (sorted ++ sortedByTime)
  | fuel, sorted, [], _ => ⟨sorted, by cases fuel <;> simp [whileLoop], by simp⟩
  | 0, _, _ :: _, h => by simp at h
  | fuel + 1, sorted, event :: rest, h => by
    have hp := relocate_perm event rest []
    have hl := relocate_length event rest []
    unfold whileLoop
    rcases hr : relocate event [] rest with ⟨m, rest'⟩
    rw [hr] at hp hl
    simp only [List.length_cons] at h
    cases m with
    | none =>
      simp only [Option.toList, List.nil_append, List.length_nil, Nat.zero_add] at hp hl
      obtain ⟨out, ho, hperm⟩ := whileLoop_perm fuel (sorted ++ [event]) rest' (by omega)
      refine ⟨out, ho, hperm.trans ?_⟩
      simp only [List.append_assoc, List.singleton_append]
      exact (List.Perm.cons event hp).append_left sorted
    | some moved =>
      simp only [Option.toList, List.singleton_append, List.length_cons, List.nil_append,
        List.length_nil] at hp hl
      obtain ⟨out, ho, hperm⟩ :=
        whileLoop_perm fuel (sorted ++ [event] ++ [moved]) rest' (by omega)
      refine ⟨out, ho, hperm.trans ?_⟩
      simp only [List.append_assoc, List.singleton_append]
      exact (List.Perm.cons event hp).append_left sorted

theorem sortByRender_perm {δ : Type} (events : List (Event δ)) :
    ∃ out, sortByRender events = some out ∧ List.Perm out events := by
  obtain ⟨out, ho, hp⟩ := whileLoop_perm events.length [] (sortBy events)
    (by simp [sortBy, List.length_insertionSort])
  exact ⟨out, ho, hp.trans (by simpa [sortBy] using List.perm_insertionSort _ events)⟩

/-! ## Tree building: the links stay well formed -/

theorem Links.empty_wf (n : Nat) : Links.empty.WF n :=
  ⟨by simp [Links.empty], by simp [Links.empty], by simp [Links.empty], by simp [Links.empty],
    by simp [Links.empty]⟩

/-- Appending `event` to the children list of `parent` keeps well-formedness,
once the parent field of `event` is `parent`. -/
theorem push_wf {L : Links} {n event parent : Nat} {cs : List Nat}
    (hlt : parent < event) (hn : event < n)
    (hpl : ∀ i p, L.parent i = some p → p < i ∧ i < n)
    (hcg : ∀ i l, L.children i = some l → ∀ c ∈ l, i < c ∧ c < n)
    (hpm : ∀ i p, L.parent i = some p → i ≠ event → ∃ l, L.children p = some l ∧ i ∈ l)
    (hne : ∀ i l, L.children i = some l → i ≠ parent → l ≠ [])
    (hcp : ∀ i l, L.children i = some l → ∀ c ∈ l, (L.parent c).isSome)
    (hpe : L.parent event = some parent)
    (hcs : L.children parent = some cs) :
    (L.setChildren parent (cs ++ [event])).WF n := by
  refine ⟨hpl, ?_, ?_, ?_, ?_⟩
  · intro i l hl c hc
    simp only [Links.setChildren] at hl
    split_ifs at hl with h
    · subst h
      cases hl
      rcases List.mem_append.1 hc with h | h
      · exact hcg _ _ hcs c h
      · simp only [List.mem_singleton] at h
        subst h
        exact ⟨hlt, hn⟩
    · exact hcg i l hl c hc
  rotate_left
  rotate_left
  · intro i l hl c hc
    show (L.parent c).isSome
    simp only [Links.setChildren] at hl
    split_ifs at hl with h
    · cases hl
      rcases List.mem_append.1 hc with h' | h'
      · exact hcp _ _ hcs c h'
      · simp only [List.mem_singleton] at h'
        subst h'
        simp [hpe]
    · exact hcp i l hl c hc
  · intro i p hp
    simp only [Links.setChildren]
    by_cases hie : i = event
    · have hp' : L.parent i = some p := hp
      rw [hie, hpe] at hp'
      cases hp'
      exact ⟨cs ++ [event], by simp, by simp [hie]⟩
    · obtain ⟨l, hl, hil⟩ := hpm i p hp hie
      by_cases h : p = parent
      · subst h
        rw [hcs] at hl
        cases hl
        exact ⟨cs ++ [event], by simp, by simp [hil]⟩
      · exact ⟨l, by simp [h, hl], hil⟩
  · intro i l hl
    simp only [Links.setChildren] at hl
    split_ifs at hl with h
    · cases hl
      simp
    · exact hne i l hl h

theorem attach_wf {L : Links} {n event parent : Nat} (hL : L.WF n)
    (hlt : parent < event) (hn : event < n) :
    ∃ L', attach L event parent = some L' ∧ L'.WF n := by
  have hpe : parent ≠ event := Nat.ne_of_lt hlt
  -- the links after `event.parent = parent`
  have h1pl : ∀ i p, (L.setParent event parent).parent i = some p → p < i ∧ i < n := by
    intro i p hp
    simp only [Links.setParent] at hp
    split_ifs at hp with h
    · cases hp
      subst h
      exact ⟨hlt, hn⟩
    · exact hL.parent_lt i p hp
  have h1pm : ∀ i p, (L.setParent event parent).parent i = some p → i ≠ event →
      ∃ l, L.children p = some l ∧ i ∈ l := by
    intro i p hp hi
    simp only [Links.setParent, hi, if_false] at hp
    exact hL.parent_mem i p hp
  have h1cp : ∀ i l, L.children i = some l →
      ∀ c ∈ l, ((L.setParent event parent).parent c).isSome := by
    intro i l hl c hc
    have := hL.children_parent i l hl c hc
    simp only [Links.setParent]
    split_ifs
    · rfl
    · exact this
  unfold attach
  have hpp : (L.setParent event parent).parent parent = L.parent parent := by
    simp [Links.setParent, hpe]
  simp only [hpp, Option.bind_eq_bind]
  cases hg : L.parent parent with
  | none =>
    simp only [Option.some_bind]
    cases hc : L.children parent with
    | none =>
      have hc1 : (L.setParent event parent).children parent = none := hc
      simp only [hc1, Links.setChildren, if_true]
      refine ⟨_, rfl, ?_⟩
      have := @push_wf ((L.setParent event parent).setChildren parent []) n
        event parent [] hlt hn h1pl ?_ ?_ ?_ ?_ ?_ ?_
      · simpa [Links.setChildren] using this
      · intro i l hl c hcl
        simp only [Links.setChildren, Links.setParent] at hl
        split_ifs at hl with h
        · cases hl
          simp at hcl
        · exact hL.children_gt i l hl c hcl
      · intro i p hp hi
        obtain ⟨l, hl, hil⟩ := h1pm i p hp hi
        have : p ≠ parent := by
          rintro rfl
          rw [hc] at hl
          cases hl
        exact ⟨l, by simp [Links.setChildren, Links.setParent, this, hl], hil⟩
      · intro i l hl hi
        simp only [Links.setChildren, Links.setParent, hi, if_false] at hl
        exact hL.children_ne i l hl
      · intro i l hl c hcl
        simp only [Links.setChildren, Links.setParent] at hl
        split_ifs at hl with h
        · cases hl
          simp at hcl
        · exact h1cp i l hl c hcl
      · simp [Links.setChildren, Links.setParent]
      · simp [Links.setChildren]
    | some cs =>
      have hc1 : (L.setParent event parent).children parent = some cs := hc
      simp only [hc1]
      refine ⟨_, rfl, ?_⟩
      refine push_wf hlt hn h1pl ?_ ?_ ?_ h1cp ?_ hc1
      · exact fun i l hl => hL.children_gt i l hl
      · intro i p hp hi
        exact h1pm i p hp hi
      · exact fun i l hl _ => hL.children_ne i l hl
      · simp [Links.setParent]
  | some grand =>
    obtain ⟨gcs, hgcs, hmem⟩ := hL.parent_mem parent grand hg
    have hgp : grand ≠ parent := Nat.ne_of_lt (hL.parent_lt parent grand hg).1
    have hgc1 : (L.setParent event parent).children grand = some gcs := hgcs
    simp only [hgc1, Option.some_bind]
    -- the links after the filter on the grandparent
    have h2cg : ∀ i l, ((L.setParent event parent).setChildren grand
        (gcs.filter (fun e => decide (e ≠ event)))).children i = some l →
        ∀ c ∈ l, i < c ∧ c < n := by
      intro i l hl c hcl
      simp only [Links.setChildren, Links.setParent] at hl
      split_ifs at hl with h
      · cases hl
        subst h
        exact hL.children_gt i gcs hgcs c (List.mem_of_mem_filter hcl)
      · exact hL.children_gt i l hl c hcl
    have h2pm : ∀ i p, L.parent i = some p → i ≠ event →
        ∃ l, ((L.setParent event parent).setChildren grand
          (gcs.filter (fun e => decide (e ≠ event)))).children p = some l ∧ i ∈ l := by
      intro i p hp hi
      obtain ⟨l, hl, hil⟩ := hL.parent_mem i p hp
      by_cases h : p = grand
      · subst h
        rw [hgcs] at hl
        cases hl
        exact ⟨gcs.filter (fun e => decide (e ≠ event)), by simp [Links.setChildren],
          by simp [List.mem_filter, hil, hi]⟩
      · exact ⟨l, by simp [Links.setChildren, Links.setParent, h, hl], hil⟩
    have h2ne : ∀ i l, ((L.setParent event parent).setChildren grand
        (gcs.filter (fun e => decide (e ≠ event)))).children i = some l → l ≠ [] := by
      intro i l hl
      simp only [Links.setChildren, Links.setParent] at hl
      split_ifs at hl with h
      · cases hl
        apply List.ne_nil_of_mem (a := parent)
        simp [List.mem_filter, hmem, hpe]
      · exact hL.children_ne i l hl
    have h2pl : ∀ i p, ((L.setParent event parent).setChildren grand
        (gcs.filter (fun e => decide (e ≠ event)))).parent i = some p → p < i ∧ i < n := h1pl
    have h2c : ((L.setParent event parent).setChildren grand
        (gcs.filter (fun e => decide (e ≠ event)))).children parent = L.children parent := by
      simp [Links.setChildren, Links.setParent, hgp.symm]
    have h2pm' : ∀ i p, ((L.setParent event parent).setChildren grand
        (gcs.filter (fun e => decide (e ≠ event)))).parent i = some p → i ≠ event →
        ∃ l, ((L.setParent event parent).setChildren grand
          (gcs.filter (fun e => decide (e ≠ event)))).children p = some l ∧ i ∈ l := by
      intro i p hp hi
      have hp' : L.parent i = some p := by
        simpa [Links.setChildren, Links.setParent, hi] using hp
      exact h2pm i p hp' hi
    have h2cp : ∀ i l, ((L.setParent event parent).setChildren grand
        (gcs.filter (fun e => decide (e ≠ event)))).children i = some l →
        ∀ c ∈ l, (((L.setParent event parent).setChildren grand
          (gcs.filter (fun e => decide (e ≠ event)))).parent c).isSome := by
      intro i l hl c hcl
      simp only [Links.setChildren, Links.setParent] at hl
      split_ifs at hl with h
      · cases hl
        exact h1cp grand gcs hgcs c (List.mem_of_mem_filter hcl)
      · exact h1cp i l hl c hcl
    generalize hL2 : (L.setParent event parent).setChildren grand
        (gcs.filter (fun e => decide (e ≠ event))) = L2 at h2cg h2ne h2pl h2c h2pm' h2cp
    have h2e : L2.parent event = some parent := by
      subst hL2
      simp [Links.setChildren, Links.setParent]
    cases hc : L.children parent with
    | none =>
      rw [hc] at h2c
      simp only [h2c, Links.setChildren, if_true]
      refine ⟨_, rfl, ?_⟩
      have := @push_wf (L2.setChildren parent []) n
        event parent [] hlt hn h2pl ?_ ?_ ?_ ?_ ?_ ?_
      · simpa [Links.setChildren] using this
      · intro i l hl c hcl
        simp only [Links.setChildren] at hl
        split_ifs at hl with h
        · cases hl
          simp at hcl
        · exact h2cg i l hl c hcl
      · intro i p hp hi
        obtain ⟨l, hl, hil⟩ := h2pm' i p hp hi
        have : p ≠ parent := by
          rintro rfl
          rw [h2c] at hl
          cases hl
        exact ⟨l, by simp [Links.setChildren, this, hl], hil⟩
      · intro i l hl hi
        simp only [Links.setChildren, hi, if_false] at hl
        exact h2ne i l hl
      · intro i l hl c hcl
        simp only [Links.setChildren] at hl
        split_ifs at hl with h
        · cases hl
          simp at hcl
        · exact h2cp i l hl c hcl
      · simpa [Links.setChildren] using h2e
      · simp [Links.setChildren]
    | some cs =>
      rw [hc] at h2c
      simp only [h2c]
      refine ⟨_, rfl, ?_⟩
      exact push_wf hlt hn h2pl h2cg h2pm' (fun i l hl _ => h2ne i l hl) h2cp h2e h2c

theorem forLoop_wf {δ : Type} (msd : Int) (n : Nat) :
    ∀ (rest parentEvents : List (Nat × Event δ)) (L : Links),
      L.WF n →
      rest.Pairwise (fun a b => a.1 < b.1) →
      (∀ e ∈ rest, e.1 < n) →
      (∀ p ∈ parentEvents, ∀ e ∈ rest, p.1 < e.1) →
      ∃ P' L', forLoop msd rest parentEvents L = some (P', L') ∧ L'.WF n ∧
        parentEvents <+: P' ∧ ∀ p ∈ P', p ∈ parentEvents ∨ p ∈ rest
  | [], parentEvents, L, hL, _, _, _ =>
    ⟨parentEvents, L, by simp [forLoop], hL, List.prefix_refl _, fun p hp => Or.inl hp⟩
  | event :: rest, parentEvents, L, hL, hpw, hn, hlt => by
    rw [List.pairwise_cons] at hpw
    have hn' : ∀ e ∈ rest, e.1 < n := fun e he => hn e (List.mem_cons_of_mem _ he)
    unfold forLoop
    cases hf : parentEvents.find? (fun c => canNest msd event.2 c.2) with
    | none =>
      simp only
      obtain ⟨P', L', h1, h2, h3, h4⟩ :=
        forLoop_wf msd n rest (parentEvents ++ [event]) L hL hpw.2 hn' (by
          intro p hp e he
          rcases List.mem_append.1 hp with h | h
          · exact hlt p h e (List.mem_cons_of_mem _ he)
          · simp only [List.mem_singleton] at h
            subst h
            exact hpw.1 e he)
      refine ⟨P', L', h1, h2, (List.prefix_append _ _).trans h3, ?_⟩
      intro p hp
      rcases h4 p hp with h | h
      · rcases List.mem_append.1 h with h | h
        · exact Or.inl h
        · simp only [List.mem_singleton] at h
          subst h
          exact Or.inr (List.mem_cons_self _ _)
      · exact Or.inr (List.mem_cons_of_mem _ h)
    | some parent =>
      simp only
      have hmem : parent ∈ parentEvents := List.mem_of_find?_eq_some hf
      obtain ⟨La, ha, hwa⟩ := attach_wf hL (hlt parent hmem event (List.mem_cons_self _ _))
        (hn event (List.mem_cons_self _ _))
      rw [ha]
      simp only
      obtain ⟨P', L', h1, h2, h3, h4⟩ :=
        forLoop_wf msd n rest parentEvents La hwa hpw.2 hn'
          (fun p hp e he => hlt p hp e (List.mem_cons_of_mem _ he))
      refine ⟨P', L', h1, h2, h3, ?_⟩
      intro p hp
      rcases h4 p hp with h | h
      · exact Or.inl h
      · exact Or.inr (List.mem_cons_of_mem _ h)

theorem doWhile_wf {δ : Type} (msd : Int) (n : Nat) :
    ∀ (fuel : Nat) (eventsCopy parentEvents : List (Nat × Event δ)) (L : Links),
      L.WF n →
      eventsCopy.Pairwise (fun a b => a.1 < b.1) →
      (∀ e ∈ eventsCopy, e.1 < n) →
      (eventsCopy.filter (notSettled parentEvents)).length < fuel →
      ∃ L', doWhile msd fuel eventsCopy parentEvents L = some L' ∧ L'.WF n
  | 0, _, _, _, _, _, _, h => by simp at h
  | fuel + 1, eventsCopy, parentEvents, L, hL, hpw, hn, hf => by
    unfold doWhile
    simp only
    generalize hE : eventsCopy.filter (notSettled parentEvents) = E at hf
    have hpwE : E.Pairwise (fun a b => a.1 < b.1) := by
      rw [← hE]; exact hpw.filter _
    have hnE : ∀ e ∈ E, e.1 < n := by
      intro e he
      rw [← hE] at he
      exact hn e (List.mem_of_mem_filter he)
    obtain ⟨P', L', h1, h2, h3, h4⟩ := forLoop_wf msd n E [] L hL hpwE hnE (by simp)
    rw [h1]
    simp only
    split_ifs with hlen
    · cases E with
      | nil =>
        simp only [forLoop, Option.some.injEq, Prod.mk.injEq] at h1
        rw [← h1.1] at hlen
        simp at hlen
      | cons hd tl =>
        have hpre : [hd] <+: P' := by
          have hstep : forLoop msd (hd :: tl) [] L = forLoop msd tl [hd] L := by
            simp [forLoop]
          rw [hstep] at h1
          rw [List.pairwise_cons] at hpwE
          obtain ⟨P'', L'', g1, _, g3, _⟩ := forLoop_wf msd n tl [hd] L hL hpwE.2
            (fun e he => hnE e (List.mem_cons_of_mem _ he)) (by
              intro p hp e he
              simp only [List.mem_singleton] at hp
              subst hp
              exact hpwE.1 e he)
          rw [g1] at h1
          cases h1
          exact g3
        have hhd : hd ∈ P' := hpre.subset (List.mem_singleton_self hd)
        apply doWhile_wf msd n fuel (hd :: tl) P' L' h2 hpwE hnE
        have hdrop : notSettled P' hd = false := by
          simp only [notSettled, Bool.not_eq_false', List.any_eq_true]
          exact ⟨hd, hhd, by simp⟩
        rw [List.filter_cons_of_neg (by simp [hdrop])]
        have := List.length_filter_le (notSettled P') tl
        simp only [List.length_cons] at hf
        omega
    · exact ⟨L', rfl, h2⟩

theorem buildTree_wf {δ : Type} (msd : Int) (eventsInRenderOrder : List (Event δ)) :
    ∃ L, buildTree msd eventsInRenderOrder = some L ∧ L.WF eventsInRenderOrder.length := by
  unfold buildTree
  apply doWhile_wf msd
  · exact Links.empty_wf _
  · have h := List.pairwise_lt_range eventsInRenderOrder.length
    rw [← List.enum_map_fst eventsInRenderOrder, List.pairwise_map] at h
    exact h
  · intro e he
    exact List.fst_lt_of_mem_enum he
  · have := List.length_filter_le (notSettled ([] : List (Nat × Event δ)))
      eventsInRenderOrder.enum
    simp only [List.enum_length] at this
    omega

/-! ## Getters: they return, and their values are bounded -/

theorem mapM_some_of_forall {α β : Type} (f : α → Option β) (P : β → Prop) :
    ∀ (l : List α), (∀ a ∈ l, ∃ b, f a = some b ∧ P b) →
      ∃ bs, l.mapM f = some bs ∧ bs.length = l.length ∧ ∀ b ∈ bs, P b
  | [], _ => ⟨[], by rw [List.mapM_nil]; rfl, rfl, by simp⟩
  | a :: l, h => by
    obtain ⟨b, hb, hP⟩ := h a (List.mem_cons_self _ _)
    obtain ⟨bs, hbs, hlen, hall⟩ :=
      mapM_some_of_forall f P l (fun x hx => h x (List.mem_cons_of_mem _ hx))
    refine ⟨b :: bs, by rw [List.mapM_cons, hb, hbs]; rfl, by simp [hlen], ?_⟩
    intro x hx
    rcases List.mem_cons.1 hx with h | h
    · exact h ▸ hP
    · exact hall x h

theorem mapM_mono {α β : Type} (f g : α → Option β) :
    ∀ (l : List α) (bs : List β), (∀ a ∈ l, ∀ b, f a = some b → g a = some b) →
      l.mapM f = some bs → l.mapM g = some bs
  | [], bs, _, h => by simpa using h
  | a :: l, bs, hfg, h => by
    simp only [List.mapM_cons, Option.pure_def, Option.bind_eq_bind, Option.bind_eq_some,
      Option.some.injEq] at h ⊢
    obtain ⟨b, hb, bs', hbs', rfl⟩ := h
    exact ⟨b, hfg a (List.mem_cons_self _ _) b hb, bs',
      mapM_mono f g l bs' (fun x hx => hfg x (List.mem_cons_of_mem _ hx)) hbs', rfl⟩

theorem foldl_max_finite :
    ∀ (ds : List DepthVal) (acc : DepthVal),
      (∀ d ∈ ds, ∃ k, d = DepthVal.finite k ∧ 1 ≤ k) →
      ((acc = DepthVal.negInfinity ∧ ds ≠ []) ∨ ∃ a, acc = DepthVal.finite a ∧ 1 ≤ a) →
      ∃ k, ds.foldl DepthVal.max acc = DepthVal.finite k ∧ 1 ≤ k
  | [], acc, _, hacc => by
    rcases hacc with ⟨_, h⟩ | h
    · exact absurd rfl h
    · simpa using h
  | d :: ds, acc, hds, hacc => by
    obtain ⟨k, rfl, hk⟩ := hds d (List.mem_cons_self _ _)
    simp only [List.foldl_cons]
    apply foldl_max_finite ds _ (fun x hx => hds x (List.mem_cons_of_mem _ hx))
    right
    rcases hacc with ⟨rfl, _⟩ | ⟨a, rfl, ha⟩
    · exact ⟨k, rfl, hk⟩
    · exact ⟨Nat.max a k, rfl, le_trans ha (Nat.le_max_left a k)⟩

/-- On well-formed links the getter `depth` returns a natural number: at
least 1, and at least 2 on a proxy with a children list. -/
theorem depth_finite {L : Links} {n : Nat} (hL : L.WF n) :
    ∀ (fuel this : Nat), n + 1 ≤ fuel + this → 1 ≤ fuel →
      ∃ d, depth L fuel this = some (DepthVal.finite d) ∧ 1 ≤ d ∧
        ((L.children this).isSome → 2 ≤ d)
  | 0, _, _, h => by simp at h
  | fuel + 1, this, hf, _ => by
    unfold depth
    cases hc : L.children this with
    | none => exact ⟨1, rfl, le_refl _, by simp⟩
    | some cs =>
      simp only
      have hall : ∀ c ∈ cs, ∃ b, depth L fuel c = some b ∧ ∃ k, b = DepthVal.finite k ∧ 1 ≤ k := by
        intro c hcm
        have hlt := hL.children_gt this cs hc c hcm
        obtain ⟨d, hd, h1, _⟩ := depth_finite hL fuel c (by omega) (by omega)
        exact ⟨_, hd, d, rfl, h1⟩
      obtain ⟨ds, hds, hlen, hfin⟩ := mapM_some_of_forall (depth L fuel) _ cs hall
      have hne : ds ≠ [] := by
        intro h
        rw [h] at hlen
        exact hL.children_ne this cs hc (List.length_eq_zero.1 hlen.symm)
      obtain ⟨k, hk, hk1⟩ := foldl_max_finite ds DepthVal.negInfinity hfin (Or.inl ⟨rfl, hne⟩)
      refine ⟨k + 1, by rw [hds]; simp [hk, DepthVal.succ], by omega, fun _ => by omega⟩

theorem depth_mono (L : Links) :
    ∀ (fuel this : Nat) (d : DepthVal), depth L fuel this = some d →
      depth L (fuel + 1) this = some d
  | 0, _, _, h => by simp [depth] at h
  | fuel + 1, this, d, h => by
    rw [depth] at h ⊢
    cases hc : L.children this with
    | none => simpa [hc] using h
    | some cs =>
      simp only [hc, Option.map_eq_some'] at h ⊢
      obtain ⟨ds, hds, rfl⟩ := h
      exact ⟨ds, mapM_mono _ _ cs ds (fun c _ b hb => depth_mono L fuel c b hb) hds, rfl⟩

theorem getters_mono (L : Links) :
    ∀ (fuel : Nat),
      (∀ this v, _width L fuel this = some v → _width L (fuel + 1) this = some v) ∧
      (∀ this v, xOffset L fuel this = some v → xOffset L (fuel + 1) this = some v)
  | 0 => ⟨fun _ _ h => by simp [_width] at h, fun _ _ h => by simp [xOffset] at h⟩
  | fuel + 1 => by
    obtain ⟨ihw, ihx⟩ := getters_mono L fuel
    have hedge : ∀ this e,
        (match L.parent this with
          | some parent =>
            (_width L fuel parent).bind fun w => (xOffset L fuel parent).map fun x => w + x
          | none => some 0) = some e →
        (match L.parent this with
          | some parent =>
            (_width L (fuel + 1) parent).bind fun w =>
              (xOffset L (fuel + 1) parent).map fun x => w + x
          | none => some 0) = some e := by
      intro this e he
      cases hp : L.parent this with
      | none => simpa [hp] using he
      | some p =>
        simp only [hp, Option.bind_eq_some, Option.map_eq_some'] at he ⊢
        obtain ⟨w, hw, x, hx, rfl⟩ := he
        exact ⟨w, ihw p w hw, x, ihx p x hx, rfl⟩
    refine ⟨?_, ?_⟩
    · intro this v h
      rw [_width] at h ⊢
      simp only [Option.bind_eq_some] at h ⊢
      obtain ⟨e, he, h⟩ := h
      refine ⟨e, hedge this e he, ?_⟩
      cases hc : L.children this with
      | none => simpa [hc] using h
      | some cs =>
        simp only [hc, Option.map_eq_some'] at h ⊢
        obtain ⟨d, hd, rfl⟩ := h
        exact ⟨d, depth_mono L _ _ d hd, rfl⟩
    · intro this v h
      rw [xOffset] at h ⊢
      exact hedge this v h

/-- On well-formed links the getters `_width` and `xOffset` return; the values
are those of the recursive definition and stay inside the column. -/
theorem getters_spec {L : Links} {n : Nat} (hL : L.WF n) :
    ∀ (fuel this : Nat), n + this + 2 ≤ fuel →
      ∃ w x, _width L fuel this = some w ∧ xOffset L fuel this = some x ∧
        0 ≤ x ∧ x < 100 ∧ 0 < w ∧ w + x ≤ 100 ∧
        (L.parent this = none → x = 0) ∧
        (∀ p, L.parent this = some p →
          ∃ wp xp, _width L fuel p = some wp ∧ xOffset L fuel p = some xp ∧
            x = wp + xp ∧ xp < x) ∧
        (L.children this = none → w = 100 - x) ∧
        ((L.children this).isSome →
          ∃ d : Nat, 2 ≤ d ∧ depth L fuel this = some (DepthVal.finite d) ∧ w = (100 - x) / d)
  | 0, _, h => by omega
  | fuel + 1, this, hf => by
    -- the edge handed down by the parent
    have hedge : ∃ e : ℚ, (match L.parent this with
          | some parent =>
            (_width L fuel parent).bind fun w => (xOffset L fuel parent).map fun x => w + x
          | none => some 0) = some e ∧ 0 ≤ e ∧ e < 100 ∧
        (L.parent this = none → e = 0) ∧
        (∀ p, L.parent this = some p →
          ∃ wp xp, _width L (fuel + 1) p = some wp ∧ xOffset L (fuel + 1) p = some xp ∧
            e = wp + xp ∧ xp < e) := by
      cases hp : L.parent this with
      | none => exact ⟨0, rfl, le_refl _, by norm_num, fun _ => rfl, by simp⟩
      | some p =>
        have hlt := (hL.parent_lt this p hp).1
        obtain ⟨wp, xp, h1w, h1x, h2, h3, h4, h5, _, _, hleaf, hint⟩ :=
          getters_spec hL fuel p (by omega)
        obtain ⟨cs, hcs, _⟩ := hL.parent_mem this p hp
        obtain ⟨d, hd2, _, hw⟩ := hint (by simp [hcs])
        have hd : (2 : ℚ) ≤ d := by exact_mod_cast hd2
        have hpos : 0 < 100 - xp := by linarith
        have hhalf : wp ≤ (100 - xp) / 2 := by
          rw [hw]
          exact div_le_div_of_nonneg_left hpos.le (by norm_num) hd
        refine ⟨wp + xp, by simp [h1w, h1x], by linarith, by linarith, by simp, ?_⟩
        intro q hq
        cases hq
        exact ⟨wp, xp, (getters_mono L fuel).1 p _ h1w, (getters_mono L fuel).2 p _ h1x, rfl,
          by linarith⟩
    obtain ⟨e, he, he0, he100, heroot, hepar⟩ := hedge
    have hx : xOffset L (fuel + 1) this = some e := by
      rw [xOffset]; exact he
    rw [_width, he]
    simp only [Option.some_bind]
    cases hc : L.children this with
    | none =>
      exact ⟨100 - e, e, rfl, hx, he0, he100, by linarith, by linarith, heroot, hepar,
        fun _ => rfl, by simp⟩
    | some cs =>
      have hlt : this < n := by
        obtain ⟨c, hcm⟩ := List.exists_mem_of_ne_nil cs (hL.children_ne this cs hc)
        have := hL.children_gt this cs hc c hcm
        omega
      obtain ⟨d, hd, _, hd2⟩ := depth_finite hL (fuel + 1) this (by omega) (by omega)
      have hd2 := hd2 (by simp [hc])
      have hdq : (2 : ℚ) ≤ d := by exact_mod_cast hd2
      have hpos : 0 < 100 - e := by linarith
      simp only [hd, Option.map_some', DepthVal.divides]
      refine ⟨(100 - e) / d, e, rfl, hx, he0, he100, div_pos hpos (by linarith), ?_, heroot,
        hepar, by simp, fun _ => ⟨d, hd2, rfl, rfl⟩⟩
      have : (100 - e) / d ≤ 100 - e := div_le_self hpos.le (by linarith)
      linarith

/-! ## Proxies that nothing can adopt stay roots -/

theorem attach_parent_other {L L' : Links} {event parent : Nat}
    (h : attach L event parent = some L') (i : Nat) (hi : i ≠ event) :
    L'.parent i = L.parent i := by
  unfold attach at h
  simp only [Option.bind_eq_some] at h
  obtain ⟨L2, h2, h3⟩ := h
  have e2 : L2.parent i = L.parent i := by
    cases hg : (L.setParent event parent).parent parent with
    | none =>
      rw [hg] at h2
      cases h2
      simp [Links.setParent, hi]
    | some grand =>
      rw [hg] at h2
      simp only at h2
      cases hc : (L.setParent event parent).children grand with
      | none => rw [hc] at h2; cases h2
      | some cs =>
        rw [hc] at h2
        cases h2
        simp [Links.setParent, Links.setChildren, hi]
  cases hc2 : L2.children parent with
  | none =>
    rw [hc2] at h3
    simp only [Links.setChildren, if_true, Option.some.injEq] at h3
    rw [← h3]
    exact e2
  | some cs =>
    rw [hc2] at h3
    simp only [hc2, Option.some.injEq] at h3
    rw [← h3]
    exact e2

/-- A proxy `k` that no proxy before it in render order can adopt keeps its
`parent` field through a run of the `for` loop. -/
theorem forLoop_parent_keep {δ : Type} (msd : Int) (k : Nat) (E : List (Nat × Event δ))
    (hno : ∀ e ∈ E, ∀ c ∈ E, e.1 = k → c.1 < k → canNest msd e.2 c.2 = false) :
    ∀ (rest parentEvents : List (Nat × Event δ)) (L : Links) P' L',
      rest.Pairwise (fun a b => a.1 < b.1) →
      (∀ e ∈ rest, e ∈ E) → (∀ p ∈ parentEvents, p ∈ E) →
      (∀ p ∈ parentEvents, ∀ e ∈ rest, p.1 < e.1) →
      forLoop msd rest parentEvents L = some (P', L') →
      L'.parent k = L.parent k ∧ ∀ p ∈ P', p ∈ E
  | [], parentEvents, L, P', L', _, _, hP, _, h => by
    simp only [forLoop, Option.some.injEq, Prod.mk.injEq] at h
    obtain ⟨rfl, rfl⟩ := h
    exact ⟨rfl, hP⟩
  | event :: rest, parentEvents, L, P', L', hpw, hE, hP, hlt, h => by
    rw [List.pairwise_cons] at hpw
    have hE' : ∀ e ∈ rest, e ∈ E := fun e he => hE e (List.mem_cons_of_mem _ he)
    have hev : event ∈ E := hE event (List.mem_cons_self _ _)
    unfold forLoop at h
    cases hf : parentEvents.find? (fun c => canNest msd event.2 c.2) with
    | none =>
      rw [hf] at h
      exact forLoop_parent_keep msd k E hno rest (parentEvents ++ [event]) L P' L' hpw.2 hE'
        (by
          intro p hp
          rcases List.mem_append.1 hp with h' | h'
          · exact hP p h'
          · simp only [List.mem_singleton] at h'
            exact h' ▸ hev)
        (by
          intro p hp e he
          rcases List.mem_append.1 hp with h' | h'
          · exact hlt p h' e (List.mem_cons_of_mem _ he)
          · simp only [List.mem_singleton] at h'
            subst h'
            exact hpw.1 e he) h
    | some parent =>
      rw [hf] at h
      have hmem : parent ∈ parentEvents := List.mem_of_find?_eq_some hf
      have hcan : canNest msd event.2 parent.2 = true := by
        have := List.find?_some hf
        simpa using this
      have hne : k ≠ event.1 := by
        intro hk
        have hltp : parent.1 < event.1 := hlt parent hmem event (List.mem_cons_self _ _)
        have := hno event hev parent (hP parent hmem) hk.symm (by omega)
        rw [this] at hcan
        cases hcan
      simp only at h
      cases ha : attach L event.1 parent.1 with
      | none => rw [ha] at h; cases h
      | some La =>
        rw [ha] at h
        obtain ⟨h1, h2⟩ := forLoop_parent_keep msd k E hno rest parentEvents La P' L' hpw.2 hE' hP
          (fun p hp e he => hlt p hp e (List.mem_cons_of_mem _ he)) h
        exact ⟨h1.trans (attach_parent_other ha k hne), h2⟩

theorem doWhile_parent_keep {δ : Type} (msd : Int) (k : Nat) (E : List (Nat × Event δ))
    (hno : ∀ e ∈ E, ∀ c ∈ E, e.1 = k → c.1 < k → canNest msd e.2 c.2 = false) :
    ∀ (fuel : Nat) (eventsCopy parentEvents : List (Nat × Event δ)) (L L' : Links),
      eventsCopy.Pairwise (fun a b => a.1 < b.1) →
      (∀ e ∈ eventsCopy, e ∈ E) →
      doWhile msd fuel eventsCopy parentEvents L = some L' →
      L'.parent k = L.parent k
  | 0, _, _, _, _, _, _, h => by simp [doWhile] at h
  | fuel + 1, eventsCopy, parentEvents, L, L', hpw, hE, h => by
    unfold doWhile at h
    simp only at h
    have hpwE := hpw.filter (notSettled parentEvents)
    have hEE : ∀ e ∈ eventsCopy.filter (notSettled parentEvents), e ∈ E :=
      fun e he => hE e (List.mem_of_mem_filter he)
    cases hf : forLoop msd (eventsCopy.filter (notSettled parentEvents)) [] L with
    | none => rw [hf] at h; cases h
    | some r =>
      obtain ⟨P1, L1⟩ := r
      rw [hf] at h
      simp only at h
      obtain ⟨h1, _⟩ := forLoop_parent_keep msd k E hno _ [] L P1 L1 hpwE hEE (by simp)
        (by simp) hf
      split_ifs at h with hlen
      · exact (doWhile_parent_keep msd k E hno fuel _ P1 L1 L' hpwE hEE h).trans h1
      · cases h
        exact h1

/-- A proxy that no proxy before it in render order can adopt has no parent
in the finished forest. -/
theorem buildTree_parent_none {δ : Type} (msd : Int) (order : List (Event δ)) (L : Links)
    (k : Nat) (hL : buildTree msd order = some L)
    (hno : ∀ j e c, j < k → order[k]? = some e → order[j]? = some c →
      canNest msd e c = false) :
    L.parent k = none := by
  unfold buildTree at hL
  have hpw : order.enum.Pairwise (fun a b => a.1 < b.1) := by
    have h := List.pairwise_lt_range order.length
    rw [← List.enum_map_fst order, List.pairwise_map] at h
    exact h
  have := doWhile_parent_keep msd k order.enum (by
    intro e he c hc hk hck
    rw [List.mem_enum_iff_getElem?] at he hc
    exact hno c.1 e.2 c.2 hck (hk ▸ he) hc) _ _ [] Links.empty L hpw (fun e he => he) hL
  simpa [Links.empty] using this

/-- On well-formed links where no proxy has a parent, no proxy has a children
list either. -/
theorem children_none_of_parent_none {L : Links} {n : Nat} (hL : L.WF n)
    (h : ∀ i, L.parent i = none) (i : Nat) : L.children i = none := by
  cases hc : L.children i with
  | none => rfl
  | some cs =>
    obtain ⟨c, hcm⟩ := List.exists_mem_of_ne_nil cs (hL.children_ne i cs hc)
    have := hL.children_parent i cs hc c hcm
    rw [h c] at this
    cases this

/-! ## The orchestrator returns -/

theorem mapM_forall₂ {α β : Type} (f : α → Option β) :
    ∀ (l : List α), (∀ a ∈ l, ∃ b, f a = some b) →
      ∃ bs, l.mapM f = some bs ∧ List.Forall₂ (fun a b => f a = some b) l bs
  | [], _ => ⟨[], by rw [List.mapM_nil]; rfl, List.Forall₂.nil⟩
  | a :: l, h => by
    obtain ⟨b, hb⟩ := h a (List.mem_cons_self _ _)
    obtain ⟨bs, hbs, hall⟩ := mapM_forall₂ f l (fun x hx => h x (List.mem_cons_of_mem _ hx))
    exact ⟨b :: bs, by rw [List.mapM_cons, hb, hbs]; rfl, List.Forall₂.cons hb hall⟩

/-- The record made for a proxy on well-formed links. -/
theorem styleOf_spec {δ : Type} {L : Links} {n : Nat} (hL : L.WF n) (event : Nat × Event δ)
    (hlt : event.1 < n) :
    ∃ w x, _width L (2 * n + 2) event.1 = some w ∧ xOffset L (2 * n + 2) event.1 = some x ∧
      0 ≤ x ∧
      styleOf L (2 * n + 2) event = some
        { event := event.2.data,
          style := { top := event.2.top, height := event.2.height,
                     width := if (L.children event.1).isSome then min 100 (w * (17 / 10)) else w,
                     xOffset := x } } := by
  obtain ⟨w, x, hw, hx, hx0, _⟩ := getters_spec hL (2 * n + 2) event.1 (by omega)
  refine ⟨w, x, hw, hx, hx0, ?_⟩
  unfold styleOf width
  simp only [hw, hx, Option.bind_eq_bind, Option.some_bind, Option.pure_def, max_eq_right hx0]
  cases L.children event.1 <;> simp

/-- The run of `getStyledEvents`: render order, forest, and one record per
proxy, in render order. -/
theorem getStyledEvents_run {δ τ : Type} (events : List δ) (msd : Int)
    (slotMetrics : SlotMetrics τ) (accessors : Accessors δ τ) :
    ∃ order L out,
      sortByRender (events.map (fun event => Event.new event accessors slotMetrics))
        = some order ∧
      buildTree msd order = some L ∧ L.WF order.length ∧
      getStyledEvents events msd slotMetrics accessors = some out ∧
      List.Forall₂ (fun a b => styleOf L (2 * order.length + 2) a = some b) order.enum out := by
  obtain ⟨order, ho, _⟩ :=
    sortByRender_perm (events.map (fun event => Event.new event accessors slotMetrics))
  obtain ⟨L, hb, hL⟩ := buildTree_wf msd order
  obtain ⟨out, hout, hall⟩ := mapM_forall₂ (styleOf L (2 * order.length + 2)) order.enum
    (fun a ha => by
      obtain ⟨w, x, _, _, _, h⟩ := styleOf_spec hL a (List.fst_lt_of_mem_enum ha)
      exact ⟨_, h⟩)
  refine ⟨order, L, out, ho, hb, hL, ?_, hall⟩
  unfold getStyledEvents
  simp only [ho, hb, Option.bind_eq_bind, Option.some_bind, hout]

theorem forall₂_map_eq {α β γ : Type} (R : α → β → Prop) (f : α → γ) (g : β → γ)
    (h : ∀ a b, R a b → g b = f a) :
    ∀ (l : List α) (bs : List β), List.Forall₂ R l bs → bs.map g = l.map f
  | _, _, List.Forall₂.nil => rfl
  | _, _, List.Forall₂.cons hab hrest => by
    simp [h _ _ hab, forall₂_map_eq R f g h _ _ hrest]

theorem forall₂_mem_right {α β : Type} (R : α → β → Prop) :
    ∀ (l : List α) (bs : List β), List.Forall₂ R l bs → ∀ b ∈ bs, ∃ a ∈ l, R a b
  | _, _, List.Forall₂.nil, b, hb => by simp at hb
  | _, _, List.Forall₂.cons hab hrest, b, hb => by
    rcases List.mem_cons.1 hb with h | h
    · subst h
      exact ⟨_, List.mem_cons_self _ _, hab⟩
    · obtain ⟨a, ha, hr⟩ := forall₂_mem_right R _ _ hrest b h
      exact ⟨a, List.mem_cons_of_mem _ ha, hr⟩

theorem forall₂_mem_left {α β : Type} (R : α → β → Prop) :
    ∀ (l : List α) (bs : List β), List.Forall₂ R l bs → ∀ a ∈ l, ∃ b ∈ bs, R a b
  | _, _, List.Forall₂.nil, a, ha => by simp at ha
  | _, _, List.Forall₂.cons hab hrest, a, ha => by
    rcases List.mem_cons.1 ha with h | h
    · subst h
      exact ⟨_, List.mem_cons_self _ _, hab⟩
    · obtain ⟨b, hb, hr⟩ := forall₂_mem_left R _ _ hrest a h
      exact ⟨b, List.mem_cons_of_mem _ hb, hr⟩

/-! ## Claims -/

/-- C1: for every list of events and every `minimumStartDifference`,
`getStyledEvents` returns a list of the same length whose `event` fields are a
rearrangement of the input events: each input event is in exactly one output
record. -/
theorem getStyledEvents_complete {δ τ : Type} (events : List δ) (minimumStartDifference : Int)
    (slotMetrics : SlotMetrics τ) (accessors : Accessors δ τ) :
    ∃ out, getStyledEvents events minimumStartDifference slotMetrics accessors = some out ∧
      out.length = events.length ∧
      List.Perm (out.map (fun r => r.event)) events := by
  obtain ⟨order, L, out, ho, _, _, hout, hall⟩ :=
    getStyledEvents_run events minimumStartDifference slotMetrics accessors
  obtain ⟨order', ho', hperm⟩ :=
    sortByRender_perm (events.map (fun event => Event.new event accessors slotMetrics))
  rw [ho] at ho'
  cases ho'
  have hmap : out.map (fun r => r.event) = order.enum.map (fun a => a.2.data) := by
    apply forall₂_map_eq _ _ _ _ _ _ hall
    intro a b hab
    simp only [styleOf, Option.bind_eq_bind, Option.bind_eq_some, Option.pure_def,
      Option.some.injEq] at hab
    obtain ⟨w, _, x, _, rfl⟩ := hab
    rfl
  have hdata : order.enum.map (fun a => a.2.data) = order.map (fun e => e.data) := by
    rw [← List.enum_map_snd order, List.map_map]
    simp [List.enum_map_snd]
  have hperm' : List.Perm (order.map (fun e => e.data)) events := by
    have := hperm.map (fun e => e.data)
    simpa [List.map_map, Event.new, Function.comp_def] using this
  refine ⟨out, hout, ?_, ?_⟩
  · have := congrArg List.length hmap
    simp only [List.length_map, List.enum_length] at this
    rw [this, hperm.length_eq]
    simp
  · rw [hmap, hdata]
    exact hperm'

/-- C2: for every list of events and every `minimumStartDifference`, every
output record has `0 <= xOffset <= 100` and `0 <= width <= 100`, over exact
rationals with the overgrow factor `17/10`. -/
theorem getStyledEvents_percentages {δ τ : Type} (events : List δ)
    (minimumStartDifference : Int) (slotMetrics : SlotMetrics τ) (accessors : Accessors δ τ) :
    ∃ out, getStyledEvents events minimumStartDifference slotMetrics accessors = some out ∧
      ∀ r ∈ out, 0 ≤ r.style.xOffset ∧ r.style.xOffset ≤ 100 ∧
        0 ≤ r.style.width ∧ r.style.width ≤ 100 := by
  obtain ⟨order, L, out, _, _, hL, hout, hall⟩ :=
    getStyledEvents_run events minimumStartDifference slotMetrics accessors
  refine ⟨out, hout, ?_⟩
  intro r hr
  obtain ⟨a, ha, hab⟩ := forall₂_mem_right _ _ _ hall r hr
  have hlt : a.1 < order.length := List.fst_lt_of_mem_enum ha
  obtain ⟨w, x, hw, hx, hx0, hs⟩ := styleOf_spec hL a hlt
  obtain ⟨w', x', hw', hx', _, hx100, hw0, hwx, _⟩ :=
    getters_spec hL (2 * order.length + 2) a.1 (by omega)
  rw [hw] at hw'
  rw [hx] at hx'
  cases hw'
  cases hx'
  rw [hs] at hab
  cases hab
  refine ⟨hx0, hx100.le, ?_, ?_⟩
  · show 0 ≤ (if (L.children a.1).isSome then min 100 (w * (17 / 10)) else w)
    split_ifs
    · exact le_min (by norm_num) (by positivity)
    · exact hw0.le
  · show (if (L.children a.1).isSome then min 100 (w * (17 / 10)) else w) ≤ 100
    split_ifs
    · exact min_le_left _ _
    · linarith

/-! ## One and two proxies -/

theorem sortByRender_single {δ : Type} (a : Event δ) : sortByRender [a] = some [a] := by
  simp [sortByRender, sortBy, whileLoop, relocate]

theorem buildTree_single {δ : Type} (msd : Int) (a : Event δ) :
    buildTree msd [a] = some Links.empty := by
  simp [buildTree, doWhile, forLoop, notSettled, List.enum, List.enumFrom]

theorem sortByRender_pair {δ : Type} (a b : Event δ) :
    sortByRender [a, b] = some (if renderKeyLE a b then [a, b] else [b, a]) := by
  by_cases h : renderKeyLE a b
  · by_cases h2 : a.endMs > b.startMs <;>
      simp [sortByRender, sortBy, whileLoop, relocate, h, h2]
  · by_cases h2 : b.endMs > a.startMs <;>
      simp [sortByRender, sortBy, whileLoop, relocate, h, h2]

theorem buildTree_pair_flat {δ : Type} (msd : Int) (a b : Event δ)
    (h : canNest msd b a = false) : buildTree msd [a, b] = some Links.empty := by
  simp [buildTree, doWhile, forLoop, notSettled, List.enum, List.enumFrom, h]

theorem buildTree_pair_nested {δ : Type} (msd : Int) (a b : Event δ)
    (h : canNest msd b a = true) :
    ∃ L, buildTree msd [a, b] = some L ∧ L.parent 0 = none ∧ L.parent 1 = some 0 ∧
      L.children 0 = some [1] ∧ L.children 1 = none := by
  simp [buildTree, doWhile, forLoop, notSettled, List.enum, List.enumFrom, h, attach,
    Links.setParent, Links.setChildren, Links.empty]

/-- The getters on links without any parent or children list. -/
theorem style_flat {δ : Type} (L : Links) (hp : ∀ i, L.parent i = none)
    (hc : ∀ i, L.children i = none) (fuel : Nat) (event : Nat × Event δ) :
    styleOf L (fuel + 1) event = some
      { event := event.2.data,
        style := { top := event.2.top, height := event.2.height, width := 100, xOffset := 0 } } := by
  simp [styleOf, width, _width, xOffset, hp, hc]

/-- The getters on the two-proxy chain `0 -> 1`. -/
theorem style_chain2 {δ : Type} (L : Links) (h0 : L.parent 0 = none) (h1 : L.parent 1 = some 0)
    (c0 : L.children 0 = some [1]) (c1 : L.children 1 = none) (fuel : Nat) (a b : Event δ) :
    depth L (fuel + 2) 0 = some (DepthVal.finite 2) ∧
    styleOf L (fuel + 3) (0, a) = some
      { event := a.data,
        style := { top := a.top, height := a.height, width := 85, xOffset := 0 } } ∧
    styleOf L (fuel + 3) (1, b) = some
      { event := b.data,
        style := { top := b.top, height := b.height, width := 50, xOffset := 50 } } := by
  have hd1 : ∀ f, depth L (f + 1) 1 = some (DepthVal.finite 1) := by
    intro f; simp [depth, c1]
  have hd0 : ∀ f, depth L (f + 2) 0 = some (DepthVal.finite 2) := by
    intro f
    rw [depth]
    simp only [c0]
    rw [List.mapM_cons, List.mapM_nil, hd1]
    simp [DepthVal.max, DepthVal.succ]
  have hw0 : ∀ f, _width L (f + 2) 0 = some 50 := by
    intro f
    rw [_width]
    simp only [h0, c0, hd0, Option.some_bind, Option.map_some', DepthVal.divides]
    norm_num
  have hx0 : ∀ f, xOffset L (f + 1) 0 = some 0 := by
    intro f; simp [xOffset, h0]
  have hx1 : ∀ f, xOffset L (f + 3) 1 = some 50 := by
    intro f
    rw [xOffset]
    simp only [h1, hw0, hx0, Option.some_bind, Option.map_some']
    norm_num
  have hw1 : ∀ f, _width L (f + 3) 1 = some 50 := by
    intro f
    rw [_width]
    simp only [h1, c1, hw0, hx0, Option.some_bind, Option.map_some']
    norm_num
  refine ⟨hd0 fuel, ?_, ?_⟩
  · simp only [styleOf, width, hw0, hx0, c0, Option.bind_eq_bind, Option.some_bind,
      Option.pure_def]
    norm_num
  · simp only [styleOf, width, hw1, hx1, c1, Option.bind_eq_bind, Option.some_bind,
      Option.pure_def]
    norm_num

/-- The run of `getStyledEvents` on two events whose proxies sort as `a`, `b`
and nest. -/
theorem getStyledEvents_pair_nested {δ : Type} (msd : Int) (a b : Event δ) (order : List (Event δ))
    (ho : order = [a, b]) (h : canNest msd b a = true) :
    (buildTree msd order).bind (fun L =>
        order.enum.mapM (styleOf L (2 * order.length + 2))) = some
      [{ event := a.data,
         style := { top := a.top, height := a.height, width := 85, xOffset := 0 } },
       { event := b.data,
         style := { top := b.top, height := b.height, width := 50, xOffset := 50 } }] := by
  subst ho
  obtain ⟨L, hL, h0, h1, c0, c1⟩ := buildTree_pair_nested msd a b h
  obtain ⟨_, s0, s1⟩ := style_chain2 L h0 h1 c0 c1 3 a b
  rw [hL]
  simp only [Option.some_bind, List.enum, List.enumFrom, List.length_cons, List.length_nil]
  rw [List.mapM_cons, List.mapM_cons, List.mapM_nil, s0, s1]
  rfl

/-- The run of `getStyledEvents` on two events whose proxies sort as `a`, `b`
and do not nest. -/
theorem getStyledEvents_pair_flat {δ : Type} (msd : Int) (a b : Event δ) (order : List (Event δ))
    (ho : order = [a, b]) (h : canNest msd b a = false) :
    (buildTree msd order).bind (fun L =>
        order.enum.mapM (styleOf L (2 * order.length + 2))) = some
      [{ event := a.data,
         style := { top := a.top, height := a.height, width := 100, xOffset := 0 } },
       { event := b.data,
         style := { top := b.top, height := b.height, width := 100, xOffset := 0 } }] := by
  subst ho
  rw [buildTree_pair_flat msd a b h]
  have s := fun e => @style_flat δ Links.empty (fun _ => rfl) (fun _ => rfl) 5 e
  simp only [Option.some_bind, List.enum, List.enumFrom, List.length_cons, List.length_nil]
  rw [List.mapM_cons, List.mapM_cons, List.mapM_nil, s, s]
  rfl


theorem getStyledEvents_of_order {δ τ : Type} (events : List δ) (msd : Int)
    (slotMetrics : SlotMetrics τ) (accessors : Accessors δ τ) (order : List (Event δ))
    (ho : sortByRender (events.map (fun event => Event.new event accessors slotMetrics))
      = some order) :
    getStyledEvents events msd slotMetrics accessors =
      (buildTree msd order).bind (fun L =>
        order.enum.mapM (styleOf L (2 * order.length + 2))) := by
  unfold getStyledEvents
  simp only [ho, Option.bind_eq_bind, Option.some_bind]

/-- C7: for an input of exactly one event the output is a single record with
`width = 100` and `xOffset = 0`, and the proxy of the event has no parent, no
children list and depth 1. -/
theorem single_event {δ τ : Type} (event : δ) (minimumStartDifference : Int)
    (slotMetrics : SlotMetrics τ) (accessors : Accessors δ τ) :
    getStyledEvents [event] minimumStartDifference slotMetrics accessors = some
      [{ event := event,
         style := { top := (Event.new event accessors slotMetrics).top,
                    height := (Event.new event accessors slotMetrics).height,
                    width := 100, xOffset := 0 } }] ∧
    sortByRender [Event.new event accessors slotMetrics]
      = some [Event.new event accessors slotMetrics] ∧
    ∃ L, buildTree minimumStartDifference [Event.new event accessors slotMetrics] = some L ∧
      L.parent 0 = none ∧ L.children 0 = none ∧
      ∀ fuel, depth L (fuel + 1) 0 = some (DepthVal.finite 1) := by
  refine ⟨?_, sortByRender_single _, Links.empty, buildTree_single _ _, rfl, rfl, ?_⟩
  · rw [getStyledEvents_of_order [event] minimumStartDifference slotMetrics accessors
      [Event.new event accessors slotMetrics] (sortByRender_single _), buildTree_single]
    have s := @style_flat δ Links.empty (fun _ => rfl) (fun _ => rfl) 3
      (0, Event.new event accessors slotMetrics)
    simp only [Option.some_bind, List.enum, List.enumFrom, List.length_cons, List.length_nil]
    rw [List.mapM_cons, List.mapM_nil, s]
    rfl
  · intro fuel
    simp [depth, Links.empty]

/-- C3, as the code has it: two events with identical `startMs` and identical
`endMs`, slot positions equal to them, and either `startMs < endMs` or
`0 < minimumStartDifference`, come out in input order; the first is the parent
with depth 2, width 85 and xOffset 0, the second its child with width 50 and
xOffset 50. -/
theorem identical_pair {δ τ : Type} (A B : δ) (minimumStartDifference : Int)
    (slotMetrics : SlotMetrics τ) (accessors : Accessors δ τ)
    (hs : (Event.new A accessors slotMetrics).startMs = (Event.new B accessors slotMetrics).startMs)
    (he : (Event.new A accessors slotMetrics).endMs = (Event.new B accessors slotMetrics).endMs)
    (hA1 : (Event.new A accessors slotMetrics).start = (Event.new A accessors slotMetrics).startMs)
    (hA2 : (Event.new A accessors slotMetrics).end = (Event.new A accessors slotMetrics).endMs)
    (hB1 : (Event.new B accessors slotMetrics).start = (Event.new B accessors slotMetrics).startMs)
    (hpos : (Event.new A accessors slotMetrics).startMs < (Event.new A accessors slotMetrics).endMs
      ∨ 0 < minimumStartDifference) :
    getStyledEvents [A, B] minimumStartDifference slotMetrics accessors = some
      [{ event := A,
         style := { top := (Event.new A accessors slotMetrics).top,
                    height := (Event.new A accessors slotMetrics).height,
                    width := 85, xOffset := 0 } },
       { event := B,
         style := { top := (Event.new B accessors slotMetrics).top,
                    height := (Event.new B accessors slotMetrics).height,
                    width := 50, xOffset := 50 } }] ∧
    ∃ L, buildTree minimumStartDifference
        [Event.new A accessors slotMetrics, Event.new B accessors slotMetrics] = some L ∧
      L.parent 0 = none ∧ L.parent 1 = some 0 ∧
      ∀ fuel, depth L (fuel + 2) 0 = some (DepthVal.finite 2) := by
  have hle : renderKeyLE (Event.new A accessors slotMetrics) (Event.new B accessors slotMetrics) :=
    Or.inr ⟨hs, by rw [he]⟩
  have hcan : canNest minimumStartDifference (Event.new B accessors slotMetrics)
      (Event.new A accessors slotMetrics) = true := by
    simp only [canNest, Bool.or_eq_true, decide_eq_true_eq, hA1, hA2, hB1, hs, sub_self, jsAbs]
    rcases hpos with h | h
    · left
      rw [← hs]
      exact h
    · right
      simpa using h
  have ho : sortByRender ([A, B].map (fun event => Event.new event accessors slotMetrics))
      = some [Event.new A accessors slotMetrics, Event.new B accessors slotMetrics] := by
    simp only [List.map, sortByRender_pair, hle, if_true]
  refine ⟨?_, ?_⟩
  · rw [getStyledEvents_of_order _ _ _ _ _ ho]
    exact getStyledEvents_pair_nested _ _ _ _ rfl hcan
  · obtain ⟨L, hL, h0, h1, c0, c1⟩ := buildTree_pair_nested minimumStartDifference _ _ hcan
    exact ⟨L, hL, h0, h1, fun fuel =>
      (style_chain2 L h0 h1 c0 c1 fuel (Event.new A accessors slotMetrics)
        (Event.new B accessors slotMetrics)).1⟩

/-- Witness of C3: the events `(0,10)` and `(0,10)` with
`minimumStartDifference = 0`. -/
theorem identical_pair_witness :
    ((Event.new ((0 : Int), (10 : Int)) pairAccessors plainMetrics).startMs
        < (Event.new ((0 : Int), (10 : Int)) pairAccessors plainMetrics).endMs ∨ (0 : Int) < 0) ∧
    geometry (getStyledEvents [((0 : Int), (10 : Int)), (0, 10)] 0 plainMetrics pairAccessors)
      = some [(85, 0), (50, 50)] := by
  refine ⟨Or.inl (by decide), ?_⟩
  rw [(identical_pair ((0 : Int), (10 : Int)) (0, 10) 0 plainMetrics pairAccessors
    rfl rfl rfl rfl rfl (Or.inl (by decide))).1]
  rfl

/-- Counterexample to C3 as stated: two identical events of zero length
with `minimumStartDifference = 0` do not nest; both records have width 100
and xOffset 0. -/
theorem identical_pair_counterexample :
    geometry (getStyledEvents [((5 : Int), (5 : Int)), (5, 5)] 0 plainMetrics pairAccessors)
      = some [(100, 0), (100, 0)] := by
  have ho : sortByRender ([((5 : Int), (5 : Int)), (5, 5)].map
      (fun event => Event.new event pairAccessors plainMetrics))
      = some [Event.new (5, 5) pairAccessors plainMetrics,
          Event.new (5, 5) pairAccessors plainMetrics] := by
    simp only [List.map, sortByRender_pair, ite_self]
  rw [getStyledEvents_of_order _ _ _ _ _ ho,
    getStyledEvents_pair_flat 0 _ _ _ rfl (by decide)]
  rfl

/-- C4: for two events `A`, `B` with slot positions equal to the timestamps,
`A.start < B.start` and `A.end <= B.start`, given in either order, the
output is `A` then `B`; `B` is a child of `A` (widths 85 and 50, offsets 0 and
50) if and only if `B.start - A.start < minimumStartDifference`, and otherwise
both are roots with width 100 and xOffset 0. -/
theorem near_start_pair {δ τ : Type} (A B : δ) (minimumStartDifference : Int)
    (slotMetrics : SlotMetrics τ) (accessors : Accessors δ τ) (input : List δ)
    (hin : input = [A, B] ∨ input = [B, A])
    (hA1 : (Event.new A accessors slotMetrics).start = (Event.new A accessors slotMetrics).startMs)
    (hA2 : (Event.new A accessors slotMetrics).end = (Event.new A accessors slotMetrics).endMs)
    (hB1 : (Event.new B accessors slotMetrics).start = (Event.new B accessors slotMetrics).startMs)
    (hlt : (Event.new A accessors slotMetrics).start < (Event.new B accessors slotMetrics).start)
    (hend : (Event.new A accessors slotMetrics).end ≤ (Event.new B accessors slotMetrics).start) :
    sortByRender (input.map (fun event => Event.new event accessors slotMetrics))
      = some [Event.new A accessors slotMetrics, Event.new B accessors slotMetrics] ∧
    (∃ L, buildTree minimumStartDifference
        [Event.new A accessors slotMetrics, Event.new B accessors slotMetrics] = some L ∧
      L.parent 0 = none ∧
      (L.parent 1 = some 0 ↔
        (Event.new B accessors slotMetrics).start - (Event.new A accessors slotMetrics).start
          < minimumStartDifference)) ∧
    getStyledEvents input minimumStartDifference slotMetrics accessors = some
      (if (Event.new B accessors slotMetrics).start - (Event.new A accessors slotMetrics).start
          < minimumStartDifference then
        [{ event := A,
           style := { top := (Event.new A accessors slotMetrics).top,
                      height := (Event.new A accessors slotMetrics).height,
                      width := 85, xOffset := 0 } },
         { event := B,
           style := { top := (Event.new B accessors slotMetrics).top,
                      height := (Event.new B accessors slotMetrics).height,
                      width := 50, xOffset := 50 } }]
      else
        [{ event := A,
           style := { top := (Event.new A accessors slotMetrics).top,
                      height := (Event.new A accessors slotMetrics).height,
                      width := 100, xOffset := 0 } },
         { event := B,
           style := { top := (Event.new B accessors slotMetrics).top,
                      height := (Event.new B accessors slotMetrics).height,
                      width := 100, xOffset := 0 } }]) := by
  have hms : (Event.new A accessors slotMetrics).startMs
      < (Event.new B accessors slotMetrics).startMs := by
    rw [← hA1, ← hB1]; exact hlt
  have hle : renderKeyLE (Event.new A accessors slotMetrics) (Event.new B accessors slotMetrics) :=
    Or.inl hms
  have hnle : ¬ renderKeyLE (Event.new B accessors slotMetrics)
      (Event.new A accessors slotMetrics) := by
    rintro (h | ⟨h, _⟩) <;> omega
  have hcan : canNest minimumStartDifference (Event.new B accessors slotMetrics)
      (Event.new A accessors slotMetrics) = decide
        ((Event.new B accessors slotMetrics).start - (Event.new A accessors slotMetrics).start
          < minimumStartDifference) := by
    have h1 : ¬ (Event.new A accessors slotMetrics).end
        > (Event.new B accessors slotMetrics).start := by omega
    have h2 : ¬ ((Event.new B accessors slotMetrics).start
        - (Event.new A accessors slotMetrics).start < 0) := by omega
    simp only [canNest, h1, decide_False, Bool.false_or, jsAbs, h2, if_false]
  have ho : sortByRender (input.map (fun event => Event.new event accessors slotMetrics))
      = some [Event.new A accessors slotMetrics, Event.new B accessors slotMetrics] := by
    rcases hin with rfl | rfl
    · simp only [List.map, sortByRender_pair, hle, if_true]
    · simp only [List.map, sortByRender_pair, hnle, if_false]
  refine ⟨ho, ?_, ?_⟩
  · by_cases hc : (Event.new B accessors slotMetrics).start
        - (Event.new A accessors slotMetrics).start < minimumStartDifference
    · obtain ⟨L, hL, h0, h1, _, _⟩ := buildTree_pair_nested minimumStartDifference _ _
        (hcan.trans (decide_eq_true hc))
      exact ⟨L, hL, h0, by simp [h1, hc]⟩
    · exact ⟨Links.empty, buildTree_pair_flat minimumStartDifference _ _
        (hcan.trans (decide_eq_false hc)), rfl, by simp [Links.empty, hc]⟩
  · rw [getStyledEvents_of_order _ _ _ _ _ ho]
    split_ifs with hc
    · exact getStyledEvents_pair_nested _ _ _ _ rfl (hcan.trans (decide_eq_true hc))
    · exact getStyledEvents_pair_flat _ _ _ _ rfl (hcan.trans (decide_eq_false hc))

/-- Witness of C4: `A = (0,3)` and `B = (5,20)` nest with
`minimumStartDifference = 10` and do not nest with `minimumStartDifference = 2`. -/
theorem near_start_pair_witness :
    ((0 : Int) < 5 ∧ (3 : Int) ≤ 5) ∧
    geometry (getStyledEvents [((0 : Int), (3 : Int)), (5, 20)] 10 plainMetrics pairAccessors)
      = some [(85, 0), (50, 50)] ∧
    geometry (getStyledEvents [((0 : Int), (3 : Int)), (5, 20)] 2 plainMetrics pairAccessors)
      = some [(100, 0), (100, 0)] := by
  refine ⟨by decide, ?_, ?_⟩
  · rw [(near_start_pair ((0 : Int), (3 : Int)) (5, 20) 10 plainMetrics pairAccessors _
      (Or.inl rfl) rfl rfl rfl (by decide) (by decide)).2.2]
    rfl
  · rw [(near_start_pair ((0 : Int), (3 : Int)) (5, 20) 2 plainMetrics pairAccessors _
      (Or.inl rfl) rfl rfl rfl (by decide) (by decide)).2.2]
    rfl

/-! ## Three proxies, one of them apart -/

theorem perm_two {α : Type} {y z : α} {l : List α} (h : l.Perm [y, z]) :
    l = [y, z] ∨ l = [z, y] := by
  have hlen := h.length_eq
  match l, hlen with
  | [b, c], _ =>
    have hb : b ∈ [y, z] := h.subset (List.mem_cons_self _ _)
    simp only [List.mem_cons, List.mem_singleton, List.not_mem_nil, or_false] at hb
    rcases hb with rfl | rfl
    · have := (List.perm_cons b).1 h
      rw [List.perm_singleton] at this
      left; rw [List.cons.injEq] at this; simp [this.1]
    · have h' : [b, c].Perm [b, y] := h.trans (List.Perm.swap b y [])
      have := (List.perm_cons b).1 h'
      rw [List.perm_singleton] at this
      right; rw [List.cons.injEq] at this; simp [this.1]

theorem perm_three {α : Type} {x y z : α} {l : List α} (h : l.Perm [x, y, z]) :
    l = [x, y, z] ∨ l = [x, z, y] ∨ l = [y, x, z] ∨ l = [y, z, x] ∨ l = [z, x, y] ∨
      l = [z, y, x] := by
  have hlen := h.length_eq
  match l, hlen with
  | [a, b, c], _ =>
    have ha : a ∈ [x, y, z] := h.subset (List.mem_cons_self _ _)
    simp only [List.mem_cons, List.mem_singleton, List.not_mem_nil, or_false] at ha
    rcases ha with rfl | rfl | rfl
    · rcases perm_two ((List.perm_cons a).1 h) with e | e <;> simp [e]
    · have h' : [a, b, c].Perm [a, x, z] := h.trans (List.Perm.swap a x [z])
      rcases perm_two ((List.perm_cons a).1 h') with e | e <;> simp [e]
    · have h' : [a, b, c].Perm [a, x, y] :=
        h.trans (List.perm_append_singleton a [x, y])
      rcases perm_two ((List.perm_cons a).1 h') with e | e <;> simp [e]

/-- In a forest over a rearrangement of `x`, `y`, `z`, where neither `x` nor
`y` can adopt `z`, the proxy `z` has no parent. -/
theorem third_root {δ : Type} (msd : Int) (x y z : Event δ) (order : List (Event δ))
    (L : Links) (hperm : order.Perm [x, y, z]) (hL : buildTree msd order = some L)
    (hx : canNest msd z x = false) (hy : canNest msd z y = false)
    (hxz : x ≠ z) (hyz : y ≠ z) :
    ∀ k, order[k]? = some z → L.parent k = none := by
  intro k hk
  apply buildTree_parent_none msd order L k hL
  intro j e c hj he hc
  rw [hk] at he
  cases he
  rcases perm_three hperm with rfl | rfl | rfl | rfl | rfl | rfl <;>
    rcases k with _ | _ | _ | k <;>
    rcases j with _ | _ | j <;>
    simp_all <;> omega

/-- C5: three events `X`, `Y`, `Z`, with proxies `x`, `y`, `z`, where `X` and
`Y` overlap each other, `Z` starts at or after both ends and at least
`minimumStartDifference` after both starts, given in any of the six orders:
the proxy of `Z` gets no parent and every record of `Z` has `xOffset = 0`. -/
theorem apart_third_is_root {δ τ : Type} (X Y Z : δ) (minimumStartDifference : Int)
    (slotMetrics : SlotMetrics τ) (accessors : Accessors δ τ) (input : List δ)
    (x y z : Event δ)
    (hx : x = Event.new X accessors slotMetrics) (hy : y = Event.new Y accessors slotMetrics)
    (hz : z = Event.new Z accessors slotMetrics)
    (hin : input.Perm [X, Y, Z])
    (hxy : x.start < y.end) (hyx : y.start < x.end)
    (hzx : x.end ≤ z.start) (hzy : y.end ≤ z.start)
    (hmx : minimumStartDifference ≤ z.start - x.start)
    (hmy : minimumStartDifference ≤ z.start - y.start) :
    ∃ order L out,
      sortByRender (input.map (fun event => Event.new event accessors slotMetrics))
        = some order ∧
      buildTree minimumStartDifference order = some L ∧
      getStyledEvents input minimumStartDifference slotMetrics accessors = some out ∧
      z ∈ order ∧
      (∀ k, order[k]? = some z → L.parent k = none) ∧
      (∃ r ∈ out, r.event = Z) ∧
      ∀ r ∈ out, r.event = Z → r.style.xOffset = 0 := by
  obtain ⟨order, L, out, ho, hb, hL, hout, hall⟩ :=
    getStyledEvents_run input minimumStartDifference slotMetrics accessors
  obtain ⟨order', ho', hperm⟩ :=
    sortByRender_perm (input.map (fun event => Event.new event accessors slotMetrics))
  rw [ho] at ho'
  cases ho'
  have hperm3 : order.Perm [x, y, z] := by
    have := hperm.trans (hin.map (fun event => Event.new event accessors slotMetrics))
    simpa [hx, hy, hz] using this
  have hcx : canNest minimumStartDifference z x = false := by
    have h1 : ¬ x.end > z.start := by omega
    have h2 : ¬ z.start - x.start < 0 := by omega
    have h3 : ¬ z.start - x.start < minimumStartDifference := by omega
    simp [canNest, jsAbs, h1, h2, h3]
  have hcy : canNest minimumStartDifference z y = false := by
    have h1 : ¬ y.end > z.start := by omega
    have h2 : ¬ z.start - y.start < 0 := by omega
    have h3 : ¬ z.start - y.start < minimumStartDifference := by omega
    simp [canNest, jsAbs, h1, h2, h3]
  have hxz : x ≠ z := by
    intro h; rw [h] at hxy hzx; omega
  have hyz : y ≠ z := by
    intro h; rw [h] at hyx hzy; omega
  have hXZ : X ≠ Z := by
    intro h; rw [hx, hz, h] at hxz; exact hxz rfl
  have hYZ : Y ≠ Z := by
    intro h; rw [hy, hz, h] at hyz; exact hyz rfl
  have hroot := third_root minimumStartDifference x y z order L hperm3 hb hcx hcy hxz hyz
  have hzmem : z ∈ order := hperm3.symm.subset (by simp)
  have hstyle : ∀ a ∈ order.enum, ∀ r, styleOf L (2 * order.length + 2) a = some r →
      r.event = Z → a.2 = z ∧ r.style.xOffset = 0 := by
    intro a ha r hr hrZ
    obtain ⟨w, x', hw, hx', hx0, hs⟩ := styleOf_spec hL a (List.fst_lt_of_mem_enum ha)
    rw [hs] at hr
    cases hr
    have hmem : a.2 ∈ [x, y, z] := hperm3.subset (List.snd_mem_of_mem_enum ha)
    simp only [List.mem_cons, List.mem_singleton, List.not_mem_nil, or_false] at hmem
    have haz : a.2 = z := by
      rcases hmem with h | h | h
      · exact absurd (by rw [h, hx] at hrZ; exact hrZ) hXZ
      · exact absurd (by rw [h, hy] at hrZ; exact hrZ) hYZ
      · exact h
    refine ⟨haz, ?_⟩
    have hk : order[a.1]? = some z := by
      rw [← haz]
      exact List.mem_enum_iff_getElem?.1 ha
    have hp := hroot a.1 hk
    have : xOffset L (2 * order.length + 2) a.1 = some 0 := by
      simp [xOffset, hp]
    rw [hx'] at this
    cases this
    rfl
  refine ⟨order, L, out, ho, hb, hout, hzmem, hroot, ?_, ?_⟩
  · obtain ⟨k, hk, hkz⟩ := List.getElem_of_mem hzmem
    have hmem : (k, z) ∈ order.enum := by
      rw [List.mk_mem_enum_iff_getElem?, List.getElem?_eq_getElem hk, hkz]
    obtain ⟨w, x', _, _, _, hs⟩ := styleOf_spec hL (k, z) (by simpa using hk)
    obtain ⟨r, hr, hab⟩ := forall₂_mem_left _ _ _ hall (k, z) hmem
    refine ⟨r, hr, ?_⟩
    rw [hs] at hab
    cases hab
    rw [hz]
    rfl
  · intro r hr hrZ
    obtain ⟨a, ha, hab⟩ := forall₂_mem_right _ _ _ hall r hr
    exact (hstyle a ha r hab hrZ).2

/-- Witness of C5: `X = (0,10)`, `Y = (5,15)`, `Z = (20,30)` with
`minimumStartDifference = 3`, `Z` given first. -/
theorem apart_third_is_root_witness :
    ((0 : Int) < 15 ∧ (5 : Int) < 10 ∧ (10 : Int) ≤ 20 ∧ (15 : Int) ≤ 20) ∧
    ∃ order L out,
      sortByRender ([((20 : Int), (30 : Int)), (0, 10), (5, 15)].map
        (fun event => Event.new event pairAccessors plainMetrics)) = some order ∧
      buildTree 3 order = some L ∧
      getStyledEvents [((20 : Int), (30 : Int)), (0, 10), (5, 15)] 3 plainMetrics pairAccessors
        = some out ∧
      Event.new ((20 : Int), (30 : Int)) pairAccessors plainMetrics ∈ order ∧
      (∀ k, order[k]? = some (Event.new ((20 : Int), (30 : Int)) pairAccessors plainMetrics) →
        L.parent k = none) ∧
      (∃ r ∈ out, r.event = ((20 : Int), (30 : Int))) ∧
      ∀ r ∈ out, r.event = ((20 : Int), (30 : Int)) → r.style.xOffset = 0 :=
  ⟨by decide,
    apart_third_is_root ((0 : Int), (10 : Int)) (5, 15) (20, 30) 3 plainMetrics pairAccessors
      [(20, 30), (0, 10), (5, 15)] _ _ _ rfl rfl rfl
      (List.perm_append_singleton ((20 : Int), (30 : Int)) [(0, 10), (5, 15)]).symm
      (by decide) (by decide) (by decide) (by decide) (by decide) (by decide)⟩

/-! ## Events that are apart from each other -/

theorem sortBy_sorted {δ : Type} (events : List (Event δ)) :
    (sortBy events).Pairwise renderKeyLE := by
  have htotal : IsTotal (Event δ) renderKeyLE :=
    ⟨fun a b => by unfold renderKeyLE; omega⟩
  have htrans : IsTrans (Event δ) renderKeyLE :=
    ⟨fun a b c => by unfold renderKeyLE; omega⟩
  exact @List.sorted_insertionSort _ renderKeyLE _ htotal htrans events

theorem sortBy_perm {δ : Type} (events : List (Event δ)) : (sortBy events).Perm events :=
  List.perm_insertionSort _ events

/-- When no event of the working list ends after a later one starts, the
`while` loop relocates nothing. -/
theorem whileLoop_no_relocate {δ : Type} :
    ∀ (fuel : Nat) (sorted l : List (Event δ)), l.length ≤ fuel →
      l.Pairwise (fun a b => a.endMs ≤ b.startMs) →
      whileLoop fuel sorted l = some (sorted ++ l)
  | fuel, sorted, [], _, _ => by cases fuel <;> simp [whileLoop]
  | 0, _, _ :: _, h, _ => by simp at h
  | fuel + 1, sorted, event :: rest, h, hpw => by
    rw [List.pairwise_cons] at hpw
    have hrel : relocate event [] rest = (none, rest) := by
      cases rest with
      | nil => simp [relocate]
      | cons t ts =>
        have : ¬ event.endMs > t.startMs := by
          have := hpw.1 t (List.mem_cons_self _ _)
          omega
        simp [relocate, this]
    unfold whileLoop
    rw [hrel]
    simp only
    rw [whileLoop_no_relocate fuel (sorted ++ [event]) rest
      (by simp only [List.length_cons] at h; omega) hpw.2]
    simp

/-- C6, as the code has it: when every proxy has `start <= end` and slot
positions equal to the timestamps, and the events are pairwise non-overlapping
with starts that are distinct and at least `minimumStartDifference` apart
(distinct they are whenever `0 < minimumStartDifference`), no proxy gets a
parent or a children list and every output record has `width = 100` and
`xOffset = 0`. -/
theorem apart_events_full_width {δ τ : Type} (events : List δ) (minimumStartDifference : Int)
    (slotMetrics : SlotMetrics τ) (accessors : Accessors δ τ)
    (hslot : ∀ e ∈ events,
      (Event.new e accessors slotMetrics).start = (Event.new e accessors slotMetrics).startMs ∧
      (Event.new e accessors slotMetrics).end = (Event.new e accessors slotMetrics).endMs)
    (hle : ∀ e ∈ events,
      (Event.new e accessors slotMetrics).start ≤ (Event.new e accessors slotMetrics).end)
    (hsep : events.Pairwise (fun a b =>
      ((Event.new a accessors slotMetrics).end ≤ (Event.new b accessors slotMetrics).start ∨
        (Event.new b accessors slotMetrics).end ≤ (Event.new a accessors slotMetrics).start) ∧
      (Event.new a accessors slotMetrics).start ≠ (Event.new b accessors slotMetrics).start ∧
      minimumStartDifference ≤ jsAbs
        ((Event.new a accessors slotMetrics).start - (Event.new b accessors slotMetrics).start))) :
    ∃ L out,
      (sortByRender (events.map (fun event => Event.new event accessors slotMetrics))).bind
        (buildTree minimumStartDifference) = some L ∧
      (∀ i, L.parent i = none) ∧ (∀ i, L.children i = none) ∧
      getStyledEvents events minimumStartDifference slotMetrics accessors = some out ∧
      ∀ r ∈ out, r.style.width = 100 ∧ r.style.xOffset = 0 := by
  obtain ⟨order, L, out, ho, hb, hL, hout, hall⟩ :=
    getStyledEvents_run events minimumStartDifference slotMetrics accessors
  -- the facts on the proxies
  have hslot' : ∀ p ∈ events.map (fun event => Event.new event accessors slotMetrics),
      p.start = p.startMs ∧ p.end = p.endMs ∧ p.start ≤ p.end := by
    intro p hp
    obtain ⟨e, he, rfl⟩ := List.mem_map.1 hp
    exact ⟨(hslot e he).1, (hslot e he).2, hle e he⟩
  have hsep' : (events.map (fun event => Event.new event accessors slotMetrics)).Pairwise
      (fun a b => (a.end ≤ b.start ∨ b.end ≤ a.start) ∧ a.start ≠ b.start ∧
        minimumStartDifference ≤ jsAbs (a.start - b.start)) := by
    rw [List.pairwise_map]
    exact hsep
  -- the list sorted by time keeps them
  have hsym : ∀ {a b : Event δ},
      ((a.end ≤ b.start ∨ b.end ≤ a.start) ∧ a.start ≠ b.start ∧
        minimumStartDifference ≤ jsAbs (a.start - b.start)) →
      ((b.end ≤ a.start ∨ a.end ≤ b.start) ∧ b.start ≠ a.start ∧
        minimumStartDifference ≤ jsAbs (b.start - a.start)) := by
    intro a b h
    refine ⟨h.1.symm, h.2.1.symm, ?_⟩
    have := h.2.2
    unfold jsAbs at this ⊢
    split_ifs at this ⊢ <;> omega
  have hsepS := (List.Perm.pairwise_iff hsym (sortBy_perm _)).2 hsep'
  have hmemS : ∀ p ∈ sortBy (events.map (fun event => Event.new event accessors slotMetrics)),
      p.start = p.startMs ∧ p.end = p.endMs ∧ p.start ≤ p.end :=
    fun p hp => hslot' p ((sortBy_perm _).subset hp)
  have hkey : (sortBy (events.map (fun event => Event.new event accessors slotMetrics))).Pairwise
      (fun a b => a.end ≤ b.start ∧ a.endMs ≤ b.startMs ∧
        canNest minimumStartDifference b a = false) := by
    have h3 := (hsepS.and (sortBy_sorted _)).and
      (List.pairwise_of_forall_mem_list (r := fun a b =>
        (a.start = a.startMs ∧ a.end = a.endMs ∧ a.start ≤ a.end) ∧
        (b.start = b.startMs ∧ b.end = b.endMs ∧ b.start ≤ b.end))
        (fun a ha b hb => ⟨hmemS a ha, hmemS b hb⟩))
    refine h3.imp ?_
    rintro a b ⟨⟨⟨hov, hne, hd⟩, hkey⟩, ⟨ha1, ha2, ha3⟩, ⟨hb1, hb2, hb3⟩⟩
    have hab : a.end ≤ b.start := by
      unfold renderKeyLE at hkey
      omega
    refine ⟨hab, by omega, ?_⟩
    have h1 : ¬ a.end > b.start := by omega
    have h2 : ¬ jsAbs (b.start - a.start) < minimumStartDifference := by
      have := (hsym ⟨hov, hne, hd⟩).2.2
      omega
    simp [canNest, h1, h2]
  -- so the render order is the order by time
  have hord : order = sortBy (events.map (fun event => Event.new event accessors slotMetrics)) := by
    have := whileLoop_no_relocate
      (events.map (fun event => Event.new event accessors slotMetrics)).length []
      (sortBy (events.map (fun event => Event.new event accessors slotMetrics)))
      (by rw [(sortBy_perm _).length_eq]) (hkey.imp (fun h => h.2.1))
    unfold sortByRender at ho
    rw [this] at ho
    simpa using ho.symm
  have hpar : ∀ i, L.parent i = none := by
    intro i
    apply buildTree_parent_none minimumStartDifference order L i hb
    intro j e c hj he hc
    rw [hord] at he hc
    have hi := (List.getElem?_eq_some.1 he)
    have hj' := (List.getElem?_eq_some.1 hc)
    obtain ⟨hi1, hi2⟩ := hi
    obtain ⟨hj1, hj2⟩ := hj'
    have := (List.pairwise_iff_getElem.1 hkey) j i hj1 hi1 hj
    rw [hi2, hj2] at this
    exact this.2.2
  have hchild := children_none_of_parent_none hL hpar
  refine ⟨L, out, by rw [ho]; exact hb, hpar, hchild, hout, ?_⟩
  intro r hr
  obtain ⟨a, _, hab⟩ := forall₂_mem_right _ _ _ hall r hr
  have hs : styleOf L (2 * order.length + 1 + 1) a = _ := style_flat L hpar hchild _ a
  rw [hs] at hab
  cases hab
  exact ⟨rfl, rfl⟩

/-- Witness of C6: the events `(0,3)` and `(5,20)` with
`minimumStartDifference = 2`. -/
theorem apart_events_full_width_witness :
    (((3 : Int) ≤ 5 ∨ (20 : Int) ≤ 0) ∧ (0 : Int) ≠ 5 ∧ (2 : Int) ≤ jsAbs (0 - 5)) ∧
    ∃ L out,
      (sortByRender ([((0 : Int), (3 : Int)), (5, 20)].map
        (fun event => Event.new event pairAccessors plainMetrics))).bind (buildTree 2) = some L ∧
      (∀ i, L.parent i = none) ∧ (∀ i, L.children i = none) ∧
      getStyledEvents [((0 : Int), (3 : Int)), (5, 20)] 2 plainMetrics pairAccessors = some out ∧
      ∀ r ∈ out, r.style.width = 100 ∧ r.style.xOffset = 0 :=
  ⟨by decide,
    apart_events_full_width [((0 : Int), (3 : Int)), (5, 20)] 2 plainMetrics pairAccessors
      (by decide) (by decide)
      (List.Pairwise.cons (by
          intro b hb
          simp only [List.mem_singleton] at hb
          subst hb
          decide) (List.pairwise_singleton _ _))⟩

/-- Counterexample to C6 as stated.  First input: `(5,10)` and `(5,5)` with
`minimumStartDifference = 0` are non-overlapping in the sense of the claim
(the second ends at or before the first starts) and their starts differ by at
least `minimumStartDifference`, yet the second is nested under the first:
widths 85 and 50, offsets 0 and 50.  Second input: the same happens for
`(0,10)` and `(5,0)`, an event with `end < start`, with
`minimumStartDifference = 1`. -/
theorem apart_events_counterexample :
    ((((5 : Int) ≤ 5 ∨ (10 : Int) ≤ 5) ∧ (0 : Int) ≤ jsAbs (5 - 5)) ∧
      geometry (getStyledEvents [((5 : Int), (10 : Int)), (5, 5)] 0 plainMetrics pairAccessors)
        = some [(85, 0), (50, 50)]) ∧
    ((((10 : Int) ≤ 5 ∨ (0 : Int) ≤ 0) ∧ (1 : Int) ≤ jsAbs (0 - 5)) ∧
      geometry (getStyledEvents [((0 : Int), (10 : Int)), (5, 0)] 1 plainMetrics pairAccessors)
        = some [(85, 0), (50, 50)]) := by
  refine ⟨⟨by decide, ?_⟩, ⟨by decide, ?_⟩⟩
  · have ho : sortByRender ([((5 : Int), (10 : Int)), (5, 5)].map
        (fun event => Event.new event pairAccessors plainMetrics))
        = some [Event.new (5, 10) pairAccessors plainMetrics,
            Event.new (5, 5) pairAccessors plainMetrics] := by
      simp only [List.map, sortByRender_pair]
      rw [if_pos (by decide)]
    rw [getStyledEvents_of_order _ _ _ _ _ ho,
      getStyledEvents_pair_nested 0 _ _ _ rfl (by decide)]
    rfl
  · have ho : sortByRender ([((0 : Int), (10 : Int)), (5, 0)].map
        (fun event => Event.new event pairAccessors plainMetrics))
        = some [Event.new (0, 10) pairAccessors plainMetrics,
            Event.new (5, 0) pairAccessors plainMetrics] := by
      simp only [List.map, sortByRender_pair]
      rw [if_pos (by decide)]
    rw [getStyledEvents_of_order _ _ _ _ _ ho,
      getStyledEvents_pair_nested 1 _ _ _ rfl (by decide)]
    rfl

theorem forall₂_getElem? {α β : Type} (R : α → β → Prop) :
    ∀ (l : List α) (bs : List β), List.Forall₂ R l bs →
      ∀ (i : Nat) (a : α), l[i]? = some a → ∃ b, bs[i]? = some b ∧ R a b
  | _, _, List.Forall₂.nil, i, a, h => by simp at h
  | _, _, List.Forall₂.cons hab hrest, 0, a, h => by
    simp only [List.getElem?_cons_zero, Option.some.injEq] at h
    subst h
    exact ⟨_, by simp, hab⟩
  | _, _, List.Forall₂.cons _ hrest, i + 1, a, h => by
    simp only [List.getElem?_cons_succ] at h ⊢
    exact forall₂_getElem? R _ _ hrest i a h

/-- C8: in the forest built for any input, every proxy with a parent has a
record whose `xOffset` is strictly greater than the `xOffset` of the record of
its parent, hence strictly positive, and whose `width` is strictly less than
100.  Proxies are numbered by their position in the output. -/
theorem child_shifted_and_narrower {δ τ : Type} (events : List δ)
    (minimumStartDifference : Int) (slotMetrics : SlotMetrics τ) (accessors : Accessors δ τ) :
    ∃ L out,
      (sortByRender (events.map (fun event => Event.new event accessors slotMetrics))).bind
        (buildTree minimumStartDifference) = some L ∧
      getStyledEvents events minimumStartDifference slotMetrics accessors = some out ∧
      ∀ i p, L.parent i = some p →
        ∃ ri rp, out[i]? = some ri ∧ out[p]? = some rp ∧
          rp.style.xOffset < ri.style.xOffset ∧ 0 < ri.style.xOffset ∧
          ri.style.width < 100 := by
  obtain ⟨order, L, out, ho, hb, hL, hout, hall⟩ :=
    getStyledEvents_run events minimumStartDifference slotMetrics accessors
  refine ⟨L, out, by rw [ho]; exact hb, hout, ?_⟩
  intro i p hp
  obtain ⟨hpi, hin⟩ := hL.parent_lt i p hp
  have hpn : p < order.length := by omega
  have hrec : ∀ k, k < order.length → ∃ r w x, out[k]? = some r ∧
      _width L (2 * order.length + 2) k = some w ∧
      xOffset L (2 * order.length + 2) k = some x ∧ r.style.xOffset = x ∧
      r.style.width = if (L.children k).isSome then min 100 (w * (17 / 10)) else w := by
    intro k hk
    have hget : order.enum[k]? = some (k, order[k]) := by
      rw [List.getElem?_enum, List.getElem?_eq_getElem hk]
      rfl
    obtain ⟨r, hr, hs⟩ := forall₂_getElem? _ _ _ hall k _ hget
    obtain ⟨w, x, hw, hx, _, hs'⟩ := styleOf_spec hL (k, order[k]) hk
    rw [hs'] at hs
    cases hs
    exact ⟨_, w, x, hr, hw, hx, rfl, rfl⟩
  obtain ⟨ri, wi, xi, hri, hwi, hxi, hrix, hriw⟩ := hrec i hin
  obtain ⟨rp, wp, xp, hrp, hwp, hxp, hrpx, _⟩ := hrec p hpn
  obtain ⟨w, x, hw, hx, hx0, hx100, hw0, hwx, _, hpar, hleaf, hint⟩ :=
    getters_spec hL (2 * order.length + 2) i (by omega)
  obtain ⟨w', x', hw', hx', hx0', _⟩ := getters_spec hL (2 * order.length + 2) p (by omega)
  rw [hwi] at hw
  rw [hxi] at hx
  cases hw
  cases hx
  obtain ⟨wp', xp', hwp', hxp', hsum, hlt⟩ := hpar p hp
  rw [hxp] at hxp'
  cases hxp'
  rw [hxp] at hx'
  cases hx'
  refine ⟨ri, rp, hri, hrp, by rw [hrix, hrpx]; exact hlt, by rw [hrix]; linarith, ?_⟩
  rw [hriw]
  cases hc : L.children i with
  | none =>
    have := hleaf hc
    simp only [Option.isSome_none, Bool.false_eq_true, if_false]
    linarith
  | some cs =>
    obtain ⟨d, hd2, _, hwd⟩ := hint (by simp [hc])
    have hd : (2 : ℚ) ≤ d := by exact_mod_cast hd2
    have hpos : 0 < 100 - xi := by linarith
    have hhalf : wi ≤ (100 - xi) / 2 := by
      rw [hwd]
      exact div_le_div_of_nonneg_left hpos.le (by norm_num) hd
    simp only [Option.isSome_some, if_true]
    have : wi * (17 / 10) < 100 := by linarith
    exact lt_of_le_of_lt (min_le_right _ _) this

/-! ## Events with the same time span keep their order -/

theorem filter_orderedInsert {δ : Type} (s e : Int) (a : Event δ) :
    ∀ l : List (Event δ),
      (List.orderedInsert renderKeyLE a l).filter (sameSpan s e)
        = if sameSpan s e a then a :: l.filter (sameSpan s e) else l.filter (sameSpan s e)
  | [] => by
    by_cases h : sameSpan s e a = true <;> simp [h]
  | b :: l => by
    rw [List.orderedInsert]
    split_ifs with hab ha
    · simp [List.filter_cons, ha]
    · simp [List.filter_cons, ha]
    · rename_i ha
      have hb : sameSpan s e b = false := by
        by_contra hb
        simp only [Bool.not_eq_false] at hb
        simp only [sameSpan, decide_eq_true_eq] at ha hb
        exact hab (Or.inr ⟨by omega, by omega⟩)
      rw [List.filter_cons, hb, filter_orderedInsert s e a l, if_pos ha]
      simp [List.filter_cons, hb]
    · rename_i ha
      rw [List.filter_cons, filter_orderedInsert s e a l, if_neg ha, List.filter_cons]

theorem sortBy_filter {δ : Type} (s e : Int) :
    ∀ l : List (Event δ), (sortBy l).filter (sameSpan s e) = l.filter (sameSpan s e)
  | [] => rfl
  | a :: l => by
    have ih := sortBy_filter s e l
    unfold sortBy at ih ⊢
    rw [List.insertionSort, filter_orderedInsert, ih, List.filter_cons]

theorem relocate_filter {δ : Type} (s e : Int) (event : Event δ) :
    ∀ (rest before : List (Event δ)), (∀ u ∈ before, event.endMs > u.startMs) →
      ((relocate event before rest).1.toList ++ (relocate event before rest).2).filter
          (sameSpan s e)
        = (before ++ rest).filter (sameSpan s e)
  | [], before, _ => by simp [relocate]
  | test :: rest, before, hb => by
    unfold relocate
    split_ifs with h1 h2
    · have := relocate_filter s e event rest (before ++ [test]) (by
        intro u hu
        rcases List.mem_append.1 hu with h | h
        · exact hb u h
        · simp only [List.mem_singleton] at h
          subst h
          exact h1)
      simpa using this
    · simp only [Option.toList, List.singleton_append, List.filter_append, List.filter_cons]
      by_cases ht : sameSpan s e test = true
      · have hnone : before.filter (sameSpan s e) = [] := by
          rw [List.filter_eq_nil_iff]
          intro u hu hsu
          have := hb u hu
          simp only [sameSpan, decide_eq_true_eq] at ht hsu
          omega
        simp [ht, hnone]
      · simp [ht]
    · simp

theorem whileLoop_filter {δ : Type} (s e : Int) :
    ∀ (fuel : Nat) (sorted work out : List (Event δ)),
      whileLoop fuel sorted work = some out →
      out.filter (sameSpan s e) = (sorted ++ work).filter (sameSpan s e)
  | fuel, sorted, [], out, h => by
    have : whileLoop fuel sorted [] = some sorted := by cases fuel <;> simp [whileLoop]
    rw [this] at h
    cases h
    simp
  | 0, _, _ :: _, _, h => by simp [whileLoop] at h
  | fuel + 1, sorted, event :: rest, out, h => by
    have hf := relocate_filter s e event rest [] (by simp)
    unfold whileLoop at h
    rcases hr : relocate event [] rest with ⟨m, rest'⟩
    rw [hr] at h hf
    cases m with
    | none =>
      simp only at h
      rw [whileLoop_filter s e fuel _ _ out h]
      simp only [Option.toList, List.nil_append] at hf
      simp only [List.filter_append, List.append_assoc, List.singleton_append,
        List.filter_cons, hf]
    | some moved =>
      simp only at h
      rw [whileLoop_filter s e fuel _ _ out h]
      simp only [Option.toList, List.singleton_append, List.nil_append] at hf
      simp only [List.filter_append, List.append_assoc]
      congr 1
      rw [← List.filter_append, ← List.filter_append]
      simp only [List.singleton_append]
      rw [List.filter_cons, hf, ← List.filter_cons]

/-- C10: for every input list and every time span, the events (proxies) with
that `startMs` and `endMs` appear in the output of `sortByRender`, and their
records in the output of `getStyledEvents`, in the same relative order as in
the input. -/
theorem same_span_order_kept {δ τ : Type} (events : List δ) (minimumStartDifference : Int)
    (slotMetrics : SlotMetrics τ) (accessors : Accessors δ τ) (s e : Int) :
    ∃ order out,
      sortByRender (events.map (fun event => Event.new event accessors slotMetrics))
        = some order ∧
      order.filter (sameSpan s e)
        = (events.map (fun event => Event.new event accessors slotMetrics)).filter
            (sameSpan s e) ∧
      getStyledEvents events minimumStartDifference slotMetrics accessors = some out ∧
      (out.map (fun r => r.event)).filter
          (fun d => sameSpan s e (Event.new d accessors slotMetrics))
        = events.filter (fun d => sameSpan s e (Event.new d accessors slotMetrics)) := by
  obtain ⟨order, L, out, ho, _, _, hout, hall⟩ :=
    getStyledEvents_run events minimumStartDifference slotMetrics accessors
  have hfil : order.filter (sameSpan s e)
      = (events.map (fun event => Event.new event accessors slotMetrics)).filter
          (sameSpan s e) := by
    unfold sortByRender at ho
    rw [whileLoop_filter s e _ _ _ _ ho, List.nil_append, sortBy_filter]
  refine ⟨order, out, ho, hfil, hout, ?_⟩
  have hmap : out.map (fun r => r.event) = order.enum.map (fun a => a.2.data) := by
    apply forall₂_map_eq _ _ _ _ _ _ hall
    intro a b hab
    simp only [styleOf, Option.bind_eq_bind, Option.bind_eq_some, Option.pure_def,
      Option.some.injEq] at hab
    obtain ⟨w, _, x, _, rfl⟩ := hab
    rfl
  have hdata : order.enum.map (fun a => a.2.data) = order.map (fun p => p.data) := by
    rw [← List.enum_map_snd order, List.map_map]
    simp [List.enum_map_snd]
  have hnew : ∀ p ∈ order, Event.new p.data accessors slotMetrics = p := by
    intro p hp
    obtain ⟨order', ho', hperm⟩ :=
      sortByRender_perm (events.map (fun event => Event.new event accessors slotMetrics))
    rw [ho] at ho'
    cases ho'
    obtain ⟨d, _, rfl⟩ := List.mem_map.1 (hperm.subset hp)
    rfl
  rw [hmap, hdata, List.filter_map]
  have h1 : order.filter ((fun d => sameSpan s e (Event.new d accessors slotMetrics)) ∘
      (fun p => p.data)) = order.filter (sameSpan s e) := by
    apply List.filter_congr
    intro p hp
    simp only [Function.comp, hnew p hp]
  rw [h1, hfil, List.filter_map, List.map_map]
  have h2 : ((fun p : Event δ => p.data) ∘ fun event => Event.new event accessors slotMetrics)
      = id := by
    funext d; rfl
  rw [h2, List.map_id]
  rfl

/-! ## The shape of the render order -/

theorem relocate_spec {δ : Type} (event : Event δ) :
    ∀ (rest before : List (Event δ)), (∀ u ∈ before, event.endMs > u.startMs) →
      (before ++ rest).Pairwise renderKeyLE →
      List.Sublist (relocate event before rest).2 (before ++ rest) ∧
      (∀ t, (relocate event before rest).1 = some t →
        event.endMs ≤ t.startMs ∧
        ∀ y ∈ (relocate event before rest).2, event.endMs ≤ y.startMs → renderKeyLE t y) ∧
      ((relocate event before rest).1 = none → (relocate event before rest).2 = before ++ rest)
  | [], before, _, _ => by simp [relocate]
  | test :: rest, before, hb, hpw => by
    unfold relocate
    split_ifs with h1 h2
    · have := relocate_spec event rest (before ++ [test]) (by
        intro u hu
        rcases List.mem_append.1 hu with h | h
        · exact hb u h
        · simp only [List.mem_singleton] at h
          subst h
          exact h1) (by simpa using hpw)
      simpa using this
    · refine ⟨List.Sublist.append_left (List.sublist_cons_self test rest) before, ?_, by simp⟩
      intro t ht
      simp only [Option.some.injEq] at ht
      subst ht
      refine ⟨by omega, ?_⟩
      intro y hy hstart
      rcases List.mem_append.1 hy with h | h
      · have := hb y h
        omega
      · rw [List.pairwise_append] at hpw
        exact (List.pairwise_cons.1 hpw.2.1).1 y h
    · refine ⟨List.Sublist.refl _, by simp, fun _ => rfl⟩

theorem whileLoop_renderOrdered {δ : Type} :
    ∀ (fuel : Nat) (sorted work out : List (Event δ)) (prev : Option (Event δ)),
      work.Pairwise renderKeyLE → whileLoop fuel sorted work = some out →
      ∃ tail, out = sorted ++ tail ∧ tail.Perm work ∧ RenderOrdered prev tail
  | fuel, sorted, [], out, prev, _, h => by
    have : whileLoop fuel sorted [] = some sorted := by cases fuel <;> simp [whileLoop]
    rw [this] at h
    cases h
    exact ⟨[], by simp, List.Perm.refl _, trivial⟩
  | 0, _, _ :: _, _, _, _, h => by simp [whileLoop] at h
  | fuel + 1, sorted, event :: rest, out, prev, hpw, h => by
    rw [List.pairwise_cons] at hpw
    obtain ⟨hsub, hsome, hnone⟩ := relocate_spec event rest [] (by simp) (by simpa using hpw.2)
    have hperm := relocate_perm event rest []
    unfold whileLoop at h
    rcases hr : relocate event [] rest with ⟨m, rest'⟩
    rw [hr] at h hsub hsome hnone hperm
    simp only [List.nil_append] at hsub hnone hperm
    have hpw' : rest'.Pairwise renderKeyLE := hpw.2.sublist hsub
    cases m with
    | none =>
      simp only at h
      have hrest : rest' = rest := hnone rfl
      subst hrest
      obtain ⟨tail, ht, hp, hro⟩ :=
        whileLoop_renderOrdered fuel _ _ out (some event) hpw' h
      refine ⟨event :: tail, by simp [ht], hp.cons event, ?_, hro⟩
      left
      intro y hy
      exact hpw.1 y (hp.subset hy)
    | some moved =>
      simp only at h
      obtain ⟨hend, hleast⟩ := hsome moved rfl
      obtain ⟨tail, ht, hp, hro⟩ :=
        whileLoop_renderOrdered fuel _ _ out (some moved) hpw' h
      simp only [Option.toList, List.singleton_append] at hperm
      have hp2 : (moved :: tail).Perm rest := (hp.cons moved).trans hperm
      refine ⟨event :: moved :: tail, by simp [ht], hp2.cons event, ?_, ?_, hro⟩
      · left
        intro y hy
        exact hpw.1 y (hp2.subset hy)
      · right
        exact ⟨event, rfl, hend, fun y hy hs => hleast y (hp.subset hy) hs⟩

/-! ## The render order, step by step -/

theorem relocate_cases {δ : Type} (event : Event δ) :
    ∀ (rest before : List (Event δ)), (∀ u ∈ before, event.endMs > u.startMs) →
      (relocate event before rest = (none, before ++ rest) ∧
        ∀ inside t after, before ++ rest = inside ++ t :: after →
          (∀ u ∈ inside, event.endMs > u.startMs) → event.endMs ≤ t.startMs → inside = []) ∨
      ∃ inside t after, before ++ rest = inside ++ t :: after ∧ inside ≠ [] ∧
        (∀ u ∈ inside, event.endMs > u.startMs) ∧ event.endMs ≤ t.startMs ∧
        relocate event before rest = (some t, inside ++ after)
  | [], before, hb => by
    left
    refine ⟨by simp [relocate], ?_⟩
    intro inside t after h _ ht
    have : t ∈ before := by
      rw [List.append_nil] at h
      rw [h]
      simp
    have := hb t this
    omega
  | test :: rest, before, hb => by
    by_cases h1 : event.endMs > test.startMs
    · have ih := relocate_cases event rest (before ++ [test]) (by
        intro u hu
        rcases List.mem_append.1 hu with h | h
        · exact hb u h
        · simp only [List.mem_singleton] at h
          subst h
          exact h1)
      have hrel : relocate event before (test :: rest)
          = relocate event (before ++ [test]) rest := by
        rw [relocate, if_pos h1]
      rw [hrel]
      simpa using ih
    · by_cases h2 : before.length > 0
      · right
        refine ⟨before, test, rest, rfl, ?_, hb, by omega, ?_⟩
        · intro h
          rw [h] at h2
          simp at h2
        · rw [relocate, if_neg h1, if_pos h2]
      · left
        have hnil : before = [] := by
          cases before with
          | nil => rfl
          | cons a l => simp at h2
        subst hnil
        refine ⟨by rw [relocate, if_neg h1, if_neg h2], ?_⟩
        intro inside t after h hin _
        cases inside with
        | nil => rfl
        | cons u us =>
          simp only [List.nil_append, List.cons_append, List.cons.injEq] at h
          have := hin u (List.mem_cons_self _ _)
          rw [← h.1] at this
          exact absurd this h1

/-- The first element that stops the scan is the same however the list is
split around it. -/
theorem first_stop_unique {δ : Type} (P : Event δ → Prop) :
    ∀ (a a' : List (Event δ)) (t t' : Event δ) (b b' : List (Event δ)),
      a ++ t :: b = a' ++ t' :: b' → (∀ u ∈ a, P u) → ¬ P t → (∀ u ∈ a', P u) → ¬ P t' →
      a = a' ∧ t = t' ∧ b = b'
  | [], [], t, t', b, b', h, _, _, _, _ => by
    simp only [List.nil_append, List.cons.injEq] at h
    exact ⟨rfl, h.1, h.2⟩
  | [], u :: a', t, t', b, b', h, _, ht, ha', _ => by
    simp only [List.nil_append, List.cons_append, List.cons.injEq] at h
    exact absurd (h.1 ▸ ha' u (List.mem_cons_self _ _)) ht
  | u :: a, [], t, t', b, b', h, ha, _, _, ht' => by
    simp only [List.nil_append, List.cons_append, List.cons.injEq] at h
    exact absurd (h.1 ▸ ha u (List.mem_cons_self _ _)) ht'
  | u :: a, u' :: a', t, t', b, b', h, ha, ht, ha', ht' => by
    simp only [List.cons_append, List.cons.injEq] at h
    obtain ⟨h1, h2, h3⟩ := first_stop_unique P a a' t t' b b' h.2
      (fun x hx => ha x (List.mem_cons_of_mem _ hx)) ht
      (fun x hx => ha' x (List.mem_cons_of_mem _ hx)) ht'
    exact ⟨by rw [h.1, h1], h2, h3⟩

theorem whileLoop_renderSteps {δ : Type} :
    ∀ (fuel : Nat) (sorted work out : List (Event δ)),
      whileLoop fuel sorted work = some out →
      ∃ tail, out = sorted ++ tail ∧ RenderSteps work tail
  | fuel, sorted, [], out, h => by
    have : whileLoop fuel sorted [] = some sorted := by cases fuel <;> simp [whileLoop]
    rw [this] at h
    cases h
    exact ⟨[], by simp, RenderSteps.done⟩
  | 0, _, _ :: _, _, h => by simp [whileLoop] at h
  | fuel + 1, sorted, event :: rest, out, h => by
    unfold whileLoop at h
    rcases relocate_cases event rest [] (by simp) with ⟨hr, hno⟩ |
      ⟨inside, t, after, hsplit, hne, hin, ht, hr⟩
    · rw [hr] at h
      simp only [List.nil_append] at h hno
      obtain ⟨tail, ho, hs⟩ := whileLoop_renderSteps fuel _ _ out h
      exact ⟨event :: tail, by simp [ho], RenderSteps.next event rest tail hno hs⟩
    · rw [hr] at h
      simp only [List.nil_append] at h hsplit
      obtain ⟨tail, ho, hs⟩ := whileLoop_renderSteps fuel _ _ out h
      refine ⟨event :: t :: tail, by simp [ho], ?_⟩
      rw [hsplit]
      exact RenderSteps.move event t inside after tail hne hin ht hs

/-- The relocation rule leaves one output only. -/
theorem RenderSteps_unique {δ : Type} :
    ∀ (work out1 out2 : List (Event δ)),
      RenderSteps work out1 → RenderSteps work out2 → out1 = out2 := by
  intro work out1 out2 h1
  induction h1 generalizing out2 with
  | done =>
    intro h2
    cases h2
    rfl
  | next e work out hno _ ih =>
    intro h2
    cases h2 with
    | next _ _ out' _ hs' => rw [ih out' hs']
    | move _ t inside after out' hne hin ht _ =>
      exact absurd (hno inside t after rfl hin ht) hne
  | move e t inside after out hne hin ht _ ih =>
    intro h2
    generalize hw : inside ++ t :: after = w at h2
    cases h2 with
    | next _ _ out' hno' _ =>
      exact absurd (hno' inside t after hw.symm hin ht) hne
    | move _ t' inside' after' out' hne' hin' ht' hs' =>
      obtain ⟨e1, e2, e3⟩ := first_stop_unique (fun u => e.endMs > u.startMs)
        inside inside' t t' after after' hw hin (by omega) hin' (by omega)
      subst e1 e2 e3
      rw [ih out' hs']

theorem whileLoop_tail_perm {δ : Type} :
    ∀ (fuel : Nat) (sorted work out : List (Event δ)),
      whileLoop fuel sorted work = some out →
      ∃ tail, out = sorted ++ tail ∧ tail.Perm work
  | fuel, sorted, [], out, h => by
    have : whileLoop fuel sorted [] = some sorted := by cases fuel <;> simp [whileLoop]
    rw [this] at h
    cases h
    exact ⟨[], by simp, List.Perm.refl _⟩
  | 0, _, _ :: _, _, h => by simp [whileLoop] at h
  | fuel + 1, sorted, event :: rest, out, h => by
    have hp := relocate_perm event rest []
    unfold whileLoop at h
    rcases hr : relocate event [] rest with ⟨m, rest'⟩
    rw [hr] at h hp
    cases m with
    | none =>
      simp only at h
      simp only [Option.toList, List.nil_append] at hp
      obtain ⟨tail, ho, ht⟩ := whileLoop_tail_perm fuel _ _ out h
      exact ⟨event :: tail, by simp [ho], (ht.trans hp).cons event⟩
    | some moved =>
      simp only at h
      simp only [Option.toList, List.singleton_append, List.nil_append] at hp
      obtain ⟨tail, ho, ht⟩ := whileLoop_tail_perm fuel _ _ out h
      exact ⟨event :: moved :: tail, by simp [ho], ((ht.cons moved).trans hp).cons event⟩

/-- A proxy `x` of the working list such that every proxy before it ends at
or before the start of `x` is not overtaken: what is emitted before `x` was
before `x` in the working list. -/
theorem whileLoop_not_overtaken {δ : Type} (x : Event δ) :
    ∀ (fuel : Nat) (sorted wpre wpost out : List (Event δ)),
      (∀ e ∈ wpre, e.endMs ≤ x.startMs) →
      whileLoop fuel sorted (wpre ++ x :: wpost) = some out →
      ∃ pre' d post', out = sorted ++ pre' ++ x :: post' ∧
        (pre' ++ d).Perm wpre ∧ post'.Perm (d ++ wpost)
  | 0, _, [], _, _, _, h => by simp [whileLoop] at h
  | 0, _, _ :: _, _, _, _, h => by simp [whileLoop] at h
  | fuel + 1, sorted, [], wpost, out, _, h => by
    obtain ⟨tail, ho, ht⟩ := whileLoop_tail_perm (fuel + 1) sorted _ out h
    simp only [List.nil_append] at h ht
    unfold whileLoop at h
    rcases hr : relocate x [] wpost with ⟨m, rest'⟩
    have hp := relocate_perm x wpost []
    rw [hr] at h hp
    cases m with
    | none =>
      simp only at h
      simp only [Option.toList, List.nil_append] at hp
      obtain ⟨tail', ho', ht'⟩ := whileLoop_tail_perm fuel _ _ out h
      exact ⟨[], [], tail', by simp [ho'], List.Perm.refl _, by simpa using ht'.trans hp⟩
    | some moved =>
      simp only at h
      simp only [Option.toList, List.singleton_append, List.nil_append] at hp
      obtain ⟨tail', ho', ht'⟩ := whileLoop_tail_perm fuel _ _ out h
      exact ⟨[], [], moved :: tail', by simp [ho'], List.Perm.refl _,
        by simpa using (ht'.cons moved).trans hp⟩
  | fuel + 1, sorted, e :: wpre', wpost, out, hpre, h => by
    have hx : e.endMs ≤ x.startMs := hpre e (List.mem_cons_self _ _)
    have hpre' : ∀ u ∈ wpre', u.endMs ≤ x.startMs :=
      fun u hu => hpre u (List.mem_cons_of_mem _ hu)
    simp only [List.cons_append] at h
    unfold whileLoop at h
    rcases relocate_cases e (wpre' ++ x :: wpost) [] (by simp) with ⟨hr, _⟩ |
      ⟨inside, t, after, hsplit, hne, hin, ht, hr⟩
    · rw [hr] at h
      simp only [List.nil_append] at h
      obtain ⟨pre'', d, post', ho, hp1, hp2⟩ :=
        whileLoop_not_overtaken x fuel _ wpre' wpost out hpre' h
      exact ⟨e :: pre'', d, post', by simp [ho], by simpa using hp1.cons e, hp2⟩
    · rw [hr] at h
      simp only [List.nil_append] at h hsplit
      have hcases : (t = x ∧ inside = wpre' ∧ after = wpost) ∨
          ∃ c, wpre' = inside ++ t :: c ∧ after = c ++ x :: wpost := by
        rcases List.append_eq_append_iff.1 hsplit with ⟨a', h1, h2⟩ | ⟨c', h1, h2⟩
        · cases a' with
          | nil =>
            simp only [List.nil_append, List.cons.injEq] at h2
            left
            exact ⟨h2.1.symm, by simpa using h1, h2.2.symm⟩
          | cons u a'' =>
            simp only [List.cons_append, List.cons.injEq] at h2
            have : x ∈ inside := by
              rw [h1, h2.1]
              simp
            have := hin x this
            omega
        · cases c' with
          | nil =>
            simp only [List.nil_append, List.cons.injEq] at h2
            left
            exact ⟨h2.1, by simpa using h1.symm, h2.2⟩
          | cons u c'' =>
            simp only [List.cons_append, List.cons.injEq] at h2
            right
            exact ⟨c'', by rw [h1, h2.1], h2.2⟩
      rcases hcases with ⟨rfl, rfl, rfl⟩ | ⟨c, rfl, rfl⟩
      · obtain ⟨tail, ho, htl⟩ := whileLoop_tail_perm fuel _ _ out h
        exact ⟨[e], inside, tail, by simp [ho], by simp, htl⟩
      · rw [← List.append_assoc] at h
        obtain ⟨pre'', d, post', ho, hp1, hp2⟩ :=
          whileLoop_not_overtaken x fuel _ (inside ++ c) wpost out (by
            intro u hu
            apply hpre'
            rcases List.mem_append.1 hu with h' | h'
            · simp [h']
            · simp [h']) h
        refine ⟨e :: t :: pre'', d, post', by simp [ho], ?_, hp2⟩
        simp only [List.cons_append]
        exact ((hp1.cons t).trans List.perm_middle.symm).cons e

theorem sortByRender_not_overtaken {δ : Type} (events : List (Event δ))
    (pre : List (Event δ)) (x : Event δ) (post out : List (Event δ))
    (hs : sortBy events = pre ++ x :: post) (hx : x.startMs < x.endMs)
    (hpre : ∀ e ∈ pre, ¬ Overlaps e x) (ho : sortByRender events = some out) :
    ∃ pre' post', out = pre' ++ x :: post' ∧ pre'.Subperm pre ∧ post.Subperm post' := by
  have hsorted := sortBy_sorted events
  rw [hs, List.pairwise_append] at hsorted
  have hend : ∀ e ∈ pre, e.endMs ≤ x.startMs := by
    intro e he
    have hle : renderKeyLE e x := hsorted.2.2 e he x (List.mem_cons_self _ _)
    have hno := hpre e he
    unfold renderKeyLE at hle
    unfold Overlaps at hno
    omega
  unfold sortByRender at ho
  rw [hs] at ho
  obtain ⟨pre', d, post', hout, hp1, hp2⟩ :=
    whileLoop_not_overtaken x _ [] pre post out hend ho
  refine ⟨pre', post', by simpa using hout, ?_, ?_⟩
  · exact (List.sublist_append_left pre' d).subperm.trans hp1.subperm
  · exact (List.sublist_append_right d post).subperm.trans hp2.symm.subperm

theorem overlaps_sameCluster {δ : Type} (events : List (Event δ)) (a b : Event δ)
    (ha : a ∈ events) (hb : b ∈ events) (h : Overlaps a b) : SameCluster events a b :=
  Relation.ReflTransGen.single ⟨ha, hb, h⟩

/-- C9, as the code has it: `sortByRender` returns a permutation `out` of
the input, and `out` is the one list that the relocation rule yields from the
list sorted by (startMs ascending, endMs descending): the first event `e` of
the working list is emitted, and when the first remaining event `t` with
`e.endMs <= t.startMs` has events before it in the working list, `t` is taken
out and emitted directly behind `e`, ahead of the events that overlap `e`.  So
the events of an overlap cluster need not be consecutive.  Every event either
comes, in the sorted order, before all events after it, or directly follows an
event that ends at or before its start.  An event of positive length that
overlaps no event sorted before it, in particular the first event of an
overlap cluster in the sorted order, is not overtaken: what is emitted before
it was sorted before it, and what was sorted after it is emitted after it. -/
theorem sortByRender_renderOrdered {δ : Type} (events : List (Event δ)) :
    ∃ out, sortByRender events = some out ∧ out.Perm events ∧ RenderOrdered none out ∧
      RenderSteps (sortBy events) out ∧
      (∀ other, RenderSteps (sortBy events) other → other = out) ∧
      (∀ pre x post, sortBy events = pre ++ x :: post → x.startMs < x.endMs →
        (∀ e ∈ pre, ¬ Overlaps e x) →
        ∃ pre' post', out = pre' ++ x :: post' ∧ pre'.Subperm pre ∧ post.Subperm post') ∧
      (∀ pre x post, sortBy events = pre ++ x :: post → x.startMs < x.endMs →
        (∀ e ∈ pre, ¬ SameCluster events e x) →
        ∃ pre' post', out = pre' ++ x :: post' ∧ pre'.Subperm pre ∧ post.Subperm post') := by
  obtain ⟨out, ho, hperm⟩ := sortByRender_perm events
  have ho' := ho
  unfold sortByRender at ho'
  obtain ⟨tail, ht, _, hro⟩ :=
    whileLoop_renderOrdered _ _ _ out none (sortBy_sorted events) ho'
  obtain ⟨tail', ht', hsteps⟩ := whileLoop_renderSteps _ _ _ out ho'
  simp only [List.nil_append] at ht ht'
  subst ht
  subst ht'
  refine ⟨out, ho, hperm, hro, hsteps,
    fun other h => RenderSteps_unique _ _ _ h hsteps, ?_, ?_⟩
  · intro pre x post hs hx hpre
    exact sortByRender_not_overtaken events pre x post out hs hx hpre ho
  · intro pre x post hs hx hpre
    refine sortByRender_not_overtaken events pre x post out hs hx ?_ ho
    intro e he hov
    have hmem : ∀ y ∈ pre ++ x :: post, y ∈ events := fun y hy =>
      (sortBy_perm events).subset (hs ▸ hy)
    exact hpre e he (overlaps_sameCluster events e x (hmem e (by simp [he]))
      (hmem x (by simp)) hov)

/-- Counterexample to C9 as stated: `P = (0,10)` and `Q = (5,15)` overlap,
`Z = (20,30)` overlaps neither, and the render order is `P`, `Z`, `Q`: the
cluster of `P` and `Q` is split by `Z`. -/
theorem cluster_split_counterexample :
    (((0 : Int) < 15 ∧ (5 : Int) < 10) ∧ ¬ ((20 : Int) < 10) ∧ ¬ ((20 : Int) < 15)) ∧
    (sortByRender ([((0 : Int), (10 : Int)), (5, 15), (20, 30)].map
        (fun event => Event.new event pairAccessors plainMetrics))).map
        (fun order => order.map (fun p => p.data))
      = some [(0, 10), (20, 30), (5, 15)] := by
  decide

/-- An event of zero length can be overtaken: `m = (0,0)` overlaps neither
`e = (0,5)` nor `d = (7,9)` and is sorted before `d`, and the render order is
`e`, `d`, `m`. -/
theorem zero_length_overtaken :
    (sortBy ([((0 : Int), (5 : Int)), (0, 0), (7, 9)].map
        (fun event => Event.new event pairAccessors plainMetrics))).map (fun p => p.data)
      = [(0, 5), (0, 0), (7, 9)] ∧
    ¬ Overlaps (Event.new ((0 : Int), (5 : Int)) pairAccessors plainMetrics)
        (Event.new ((0 : Int), (0 : Int)) pairAccessors plainMetrics) ∧
    (sortByRender ([((0 : Int), (5 : Int)), (0, 0), (7, 9)].map
        (fun event => Event.new event pairAccessors plainMetrics))).map
        (fun order => order.map (fun p => p.data))
      = some [(0, 5), (7, 9), (0, 0)] := by
  decide

/-- The relocation rule tells the render order from the sorted order: for
`P = (0,10)`, `Q = (5,15)` and `Z = (20,30)` the sorted list `P`, `Q`, `Z` is
not what the rule yields from the sorted list. -/
theorem sorted_order_not_renderSteps :
    ¬ RenderSteps
      (sortBy ([((0 : Int), (10 : Int)), (5, 15), (20, 30)].map
        (fun event => Event.new event pairAccessors plainMetrics)))
      (sortBy ([((0 : Int), (10 : Int)), (5, 15), (20, 30)].map
        (fun event => Event.new event pairAccessors plainMetrics))) := by
  intro h
  obtain ⟨out, ho, _⟩ := sortByRender_perm ([((0 : Int), (10 : Int)), (5, 15), (20, 30)].map
    (fun event => Event.new event pairAccessors plainMetrics))
  have ho' := ho
  unfold sortByRender at ho'
  obtain ⟨tail, ht, hsteps⟩ := whileLoop_renderSteps _ _ _ out ho'
  simp only [List.nil_append] at ht
  subst ht
  have heq := RenderSteps_unique _ _ _ h hsteps
  have h1 : (sortByRender ([((0 : Int), (10 : Int)), (5, 15), (20, 30)].map
        (fun event => Event.new event pairAccessors plainMetrics))).map
        (fun order => order.map (fun p => p.data))
      = some ((sortBy ([((0 : Int), (10 : Int)), (5, 15), (20, 30)].map
        (fun event => Event.new event pairAccessors plainMetrics))).map (fun p => p.data)) := by
    rw [ho, ← heq]
    rfl
  revert h1
  decide

/-! ## Pass-through, leaves, right edge -/

/-- Every record of the output is made from a proxy of the render order. -/
theorem record_of_proxy {δ τ : Type} (events : List δ) (msd : Int)
    (slotMetrics : SlotMetrics τ) (accessors : Accessors δ τ) :
    ∃ order L out,
      sortByRender (events.map (fun event => Event.new event accessors slotMetrics))
        = some order ∧
      order.Perm (events.map (fun event => Event.new event accessors slotMetrics)) ∧
      buildTree msd order = some L ∧ L.WF order.length ∧
      getStyledEvents events msd slotMetrics accessors = some out ∧
      out.length = order.length ∧
      ∀ i p, order[i]? = some p → ∃ w x,
        _width L (2 * order.length + 2) i = some w ∧
        xOffset L (2 * order.length + 2) i = some x ∧
        out[i]? = some
          { event := p.data,
            style := { top := p.top, height := p.height,
                       width := if (L.children i).isSome then min 100 (w * (17 / 10)) else w,
                       xOffset := x } } := by
  obtain ⟨order, L, out, ho, hb, hL, hout, hall⟩ :=
    getStyledEvents_run events msd slotMetrics accessors
  obtain ⟨order', ho', hperm⟩ :=
    sortByRender_perm (events.map (fun event => Event.new event accessors slotMetrics))
  rw [ho] at ho'
  cases ho'
  have hlen : out.length = order.length := by
    have := hall.length_eq
    simp only [List.enum_length] at this
    exact this.symm
  refine ⟨order, L, out, ho, hperm, hb, hL, hout, hlen, ?_⟩
  intro i p hp
  have hi : i < order.length := (List.getElem?_eq_some.1 hp).1
  have hget : order.enum[i]? = some (i, p) := by
    rw [List.getElem?_enum, hp]
    rfl
  obtain ⟨r, hr, hs⟩ := forall₂_getElem? _ _ _ hall i _ hget
  obtain ⟨w, x, hw, hx, _, hs'⟩ := styleOf_spec hL (i, p) hi
  rw [hs'] at hs
  cases hs
  exact ⟨w, x, hw, hx, hr⟩

/-- C11: every output record carries an input event as its `event` field,
with `top` and `height` as returned by `slotMetrics.getRange` for that event,
and every input event has such a record. -/
theorem top_height_pass_through {δ τ : Type} (events : List δ) (minimumStartDifference : Int)
    (slotMetrics : SlotMetrics τ) (accessors : Accessors δ τ) :
    ∃ out, getStyledEvents events minimumStartDifference slotMetrics accessors = some out ∧
      (∀ e ∈ events, ∃ r ∈ out, r.event = e) ∧
      ∀ r ∈ out, r.event ∈ events ∧
        r.style.top
          = (slotMetrics.getRange (accessors.start r.event) (accessors.end r.event)).top ∧
        r.style.height
          = (slotMetrics.getRange (accessors.start r.event) (accessors.end r.event)).height := by
  obtain ⟨order, L, out, ho, _, hL, hout, hall⟩ :=
    getStyledEvents_run events minimumStartDifference slotMetrics accessors
  obtain ⟨order', ho', hperm⟩ :=
    sortByRender_perm (events.map (fun event => Event.new event accessors slotMetrics))
  rw [ho] at ho'
  cases ho'
  refine ⟨out, hout, ?_, ?_⟩
  · intro e he
    have hmem : Event.new e accessors slotMetrics ∈ order :=
      hperm.symm.subset (List.mem_map.2 ⟨e, he, rfl⟩)
    obtain ⟨k, hk, hkz⟩ := List.getElem_of_mem hmem
    have hmem' : (k, Event.new e accessors slotMetrics) ∈ order.enum := by
      rw [List.mk_mem_enum_iff_getElem?, List.getElem?_eq_getElem hk, hkz]
    obtain ⟨w, x, _, _, _, hs⟩ := styleOf_spec hL (k, Event.new e accessors slotMetrics) hk
    obtain ⟨r, hr, hab⟩ := forall₂_mem_left _ _ _ hall _ hmem'
    rw [hs] at hab
    cases hab
    exact ⟨_, hr, rfl⟩
  · intro r hr
    obtain ⟨a, ha, hab⟩ := forall₂_mem_right _ _ _ hall r hr
    obtain ⟨w, x, _, _, _, hs⟩ := styleOf_spec hL a (List.fst_lt_of_mem_enum ha)
    rw [hs] at hab
    cases hab
    obtain ⟨d, hd, hda⟩ := List.mem_map.1 (hperm.subset (List.snd_mem_of_mem_enum ha))
    rw [← hda]
    exact ⟨hd, rfl, rfl⟩

/-- C15: in the forest built for any input, a proxy without a children list
gets the full remaining width: the `width` of its record is its `_width`,
without overgrow, and `width + xOffset = 100`. -/
theorem leaf_fills_rest {δ τ : Type} (events : List δ) (minimumStartDifference : Int)
    (slotMetrics : SlotMetrics τ) (accessors : Accessors δ τ) :
    ∃ L out,
      (sortByRender (events.map (fun event => Event.new event accessors slotMetrics))).bind
        (buildTree minimumStartDifference) = some L ∧
      getStyledEvents events minimumStartDifference slotMetrics accessors = some out ∧
      ∀ i r, out[i]? = some r → L.children i = none →
        _width L (2 * out.length + 2) i = some r.style.width ∧
        r.style.width + r.style.xOffset = 100 := by
  obtain ⟨order, L, out, ho, _, hb, hL, hout, hlen, hrec⟩ :=
    record_of_proxy events minimumStartDifference slotMetrics accessors
  refine ⟨L, out, by rw [ho]; exact hb, hout, ?_⟩
  intro i r hr hc
  have hi : i < order.length := hlen ▸ (List.getElem?_eq_some.1 hr).1
  obtain ⟨w, x, hw, hx, hri⟩ := hrec i order[i] (List.getElem?_eq_getElem hi)
  rw [hr] at hri
  cases hri
  obtain ⟨w', x', hw', hx', _, _, _, _, _, _, hleaf, _⟩ :=
    getters_spec hL (2 * order.length + 2) i (by omega)
  rw [hw] at hw'
  rw [hx] at hx'
  cases hw'
  cases hx'
  have := hleaf hc
  simp only [hc, Option.isSome_none, Bool.false_eq_true, if_false, hlen]
  exact ⟨hw, by linarith⟩

/-- C17: for every input, every output record has `xOffset + width <= 100`,
over exact rationals with the overgrow factor `17/10`. -/
theorem right_edge_kept {δ τ : Type} (events : List δ) (minimumStartDifference : Int)
    (slotMetrics : SlotMetrics τ) (accessors : Accessors δ τ) :
    ∃ out, getStyledEvents events minimumStartDifference slotMetrics accessors = some out ∧
      ∀ r ∈ out, r.style.xOffset + r.style.width ≤ 100 := by
  obtain ⟨order, L, out, ho, _, hb, hL, hout, hlen, hrec⟩ :=
    record_of_proxy events minimumStartDifference slotMetrics accessors
  refine ⟨out, hout, ?_⟩
  intro r hr
  obtain ⟨i, hi, hir⟩ := List.getElem_of_mem hr
  have hi' : i < order.length := hlen ▸ hi
  obtain ⟨w, x, hw, hx, hri⟩ := hrec i order[i] (List.getElem?_eq_getElem hi')
  rw [List.getElem?_eq_getElem hi, hir] at hri
  cases hri
  obtain ⟨w', x', hw', hx', hx0, hx100, hw0, hwx, _, _, hleaf, hint⟩ :=
    getters_spec hL (2 * order.length + 2) i (by omega)
  rw [hw] at hw'
  rw [hx] at hx'
  cases hw'
  cases hx'
  show x + (if (L.children i).isSome then min 100 (w * (17 / 10)) else w) ≤ 100
  cases hc : L.children i with
  | none =>
    simp only [Option.isSome_none, Bool.false_eq_true, if_false]
    linarith
  | some cs =>
    obtain ⟨d, hd2, _, hwd⟩ := hint (by simp [hc])
    have hd : (2 : ℚ) ≤ d := by exact_mod_cast hd2
    have hpos : 0 < 100 - x := by linarith
    have hhalf : w ≤ (100 - x) / 2 := by
      rw [hwd]
      exact div_le_div_of_nonneg_left hpos.le (by norm_num) hd
    simp only [Option.isSome_some, if_true]
    have : min 100 (w * (17 / 10)) ≤ w * (17 / 10) := min_le_right _ _
    linarith

theorem ancestor_lt {L : Links} {n : Nat} (hL : L.WF n) :
    ∀ (k i a : Nat), ancestor L (k + 1) i = some a → a < i
  | 0, i, a, h => by
    cases hp : L.parent i with
    | none => simp [ancestor, hp] at h
    | some p =>
      simp only [ancestor, hp, Option.some_bind, Option.some.injEq] at h
      subst h
      exact (hL.parent_lt i p hp).1
  | k + 1, i, a, h => by
    rw [ancestor] at h
    simp only [Option.bind_eq_some] at h
    obtain ⟨p, hp, hpa⟩ := h
    have := ancestor_lt hL k p a hpa
    have := (hL.parent_lt i p hp).1
    omega

/-- C18: in the forest built for any input, the parent of a proxy comes
strictly earlier in the render order, which is the order of the output
records; so no proxy is its own ancestor, and the getters `depth`, `_width`
and `xOffset` return on every proxy. -/
theorem parent_comes_earlier {δ τ : Type} (events : List δ) (minimumStartDifference : Int)
    (slotMetrics : SlotMetrics τ) (accessors : Accessors δ τ) :
    ∃ order L out,
      sortByRender (events.map (fun event => Event.new event accessors slotMetrics))
        = some order ∧
      buildTree minimumStartDifference order = some L ∧
      getStyledEvents events minimumStartDifference slotMetrics accessors = some out ∧
      (∀ i p, L.parent i = some p →
        p < i ∧ ∃ child par ri rp, order[i]? = some child ∧ order[p]? = some par ∧
          out[i]? = some ri ∧ out[p]? = some rp ∧
          ri.event = child.data ∧ rp.event = par.data) ∧
      (∀ k i a, ancestor L (k + 1) i = some a → a ≠ i) ∧
      ∀ i, i < order.length → ∃ d w x,
        depth L (2 * order.length + 2) i = some (DepthVal.finite d) ∧
        _width L (2 * order.length + 2) i = some w ∧
        xOffset L (2 * order.length + 2) i = some x := by
  obtain ⟨order, L, out, ho, _, hb, hL, hout, hlen, hrec⟩ :=
    record_of_proxy events minimumStartDifference slotMetrics accessors
  refine ⟨order, L, out, ho, hb, hout, ?_, ?_, ?_⟩
  · intro i p hp
    obtain ⟨hpi, hin⟩ := hL.parent_lt i p hp
    have hpn : p < order.length := by omega
    obtain ⟨_, _, _, _, hri⟩ := hrec i order[i] (List.getElem?_eq_getElem hin)
    obtain ⟨_, _, _, _, hrp⟩ := hrec p order[p] (List.getElem?_eq_getElem hpn)
    exact ⟨hpi, order[i], order[p], _, _, List.getElem?_eq_getElem hin,
      List.getElem?_eq_getElem hpn, hri, hrp, rfl, rfl⟩
  · intro k i a h
    exact Nat.ne_of_lt (ancestor_lt hL k i a h)
  · intro i hi
    obtain ⟨d, hd, _⟩ := depth_finite hL (2 * order.length + 2) i (by omega) (by omega)
    obtain ⟨w, x, hw, hx, _⟩ := getters_spec hL (2 * order.length + 2) i (by omega)
    exact ⟨d, w, x, hd, hw, hx⟩

/-! ## A child kept in two lists -/

/-- C12, the code at the failing input `(0,10)`, `(5,30)`, `(10,20)`,
`(15,25)` with `minimumStartDifference = 1`: the render order is `(0,10)`,
`(10,20)`, `(5,30)`, `(15,25)`; the last proxy has the third as its parent and
is listed as a child both by the third and, still, by the second. -/
theorem stale_child_listed_twice :
    (sortByRender ([((0 : Int), (10 : Int)), (5, 30), (10, 20), (15, 25)].map
        (fun event => Event.new event pairAccessors plainMetrics))).map
        (fun order => order.map (fun p => p.data))
      = some [(0, 10), (10, 20), (5, 30), (15, 25)] ∧
    ((sortByRender ([((0 : Int), (10 : Int)), (5, 30), (10, 20), (15, 25)].map
        (fun event => Event.new event pairAccessors plainMetrics))).bind (buildTree 1)).map
        (fun L => (L.parent 3, L.children 1, L.children 2))
      = some (some 2, some [3], some [3]) := by
  decide

/-! ## The tree builder reads slot positions only -/

theorem find?_sameSlots {δ : Type} (msd : Int) (e1 e2 : Nat × Event δ) (he : SameSlots e1 e2) :
    ∀ (P1 P2 : List (Nat × Event δ)), List.Forall₂ SameSlots P1 P2 →
      (P1.find? (fun c => canNest msd e1.2 c.2) = none ∧
        P2.find? (fun c => canNest msd e2.2 c.2) = none) ∨
      ∃ c1 c2, P1.find? (fun c => canNest msd e1.2 c.2) = some c1 ∧
        P2.find? (fun c => canNest msd e2.2 c.2) = some c2 ∧ SameSlots c1 c2
  | _, _, List.Forall₂.nil => Or.inl ⟨rfl, rfl⟩
  | _, _, @List.Forall₂.cons _ _ _ a b l1 l2 hab hrest => by
    have hcan : canNest msd e1.2 a.2 = canNest msd e2.2 b.2 := by
      unfold canNest
      rw [he.2.1, hab.2.1, hab.2.2]
    by_cases h : canNest msd e2.2 b.2 = true
    · right
      exact ⟨a, b, by simp [List.find?, hcan, h], by simp [List.find?, h], hab⟩
    · simp only [Bool.not_eq_true] at h
      rcases find?_sameSlots msd e1 e2 he l1 l2 hrest with ⟨h1, h2⟩ | ⟨c1, c2, h1, h2, hc⟩
      · left
        exact ⟨by simp [List.find?, hcan, h, h1], by simp [List.find?, h, h2]⟩
      · right
        exact ⟨c1, c2, by simp [List.find?, hcan, h, h1], by simp [List.find?, h, h2], hc⟩

theorem forLoop_sameSlots {δ : Type} (msd : Int) :
    ∀ (rest1 rest2 : List (Nat × Event δ)), List.Forall₂ SameSlots rest1 rest2 →
      ∀ (P1 P2 : List (Nat × Event δ)) (L : Links), List.Forall₂ SameSlots P1 P2 →
        (forLoop msd rest1 P1 L = none ∧ forLoop msd rest2 P2 L = none) ∨
        ∃ Q1 Q2 L', forLoop msd rest1 P1 L = some (Q1, L') ∧
          forLoop msd rest2 P2 L = some (Q2, L') ∧ List.Forall₂ SameSlots Q1 Q2
  | _, _, List.Forall₂.nil, P1, P2, L, hP => Or.inr ⟨P1, P2, L, rfl, rfl, hP⟩
  | _, _, @List.Forall₂.cons _ _ _ e1 e2 l1 l2 he hrest, P1, P2, L, hP => by
    rw [forLoop, forLoop]
    rcases find?_sameSlots msd e1 e2 he P1 P2 hP with ⟨h1, h2⟩ | ⟨c1, c2, h1, h2, hc⟩
    · rw [h1, h2]
      exact forLoop_sameSlots msd l1 l2 hrest _ _ L
        (List.rel_append hP (List.Forall₂.cons he List.Forall₂.nil))
    · rw [h1, h2]
      simp only
      rw [← he.1, ← hc.1]
      cases attach L e1.1 c1.1 with
      | none => exact Or.inl ⟨rfl, rfl⟩
      | some La => exact forLoop_sameSlots msd l1 l2 hrest P1 P2 La hP

theorem filter_sameSlots {δ : Type} (P1 P2 : List (Nat × Event δ))
    (hP : List.Forall₂ SameSlots P1 P2) :
    ∀ (E1 E2 : List (Nat × Event δ)), List.Forall₂ SameSlots E1 E2 →
      List.Forall₂ SameSlots (E1.filter (notSettled P1)) (E2.filter (notSettled P2))
  | _, _, List.Forall₂.nil => List.Forall₂.nil
  | _, _, @List.Forall₂.cons _ _ _ a b l1 l2 hab hrest => by
    have hns : notSettled P1 a = notSettled P2 b := by
      unfold notSettled
      rw [hab.1]
      congr 1
      clear hrest hab
      induction hP with
      | nil => rfl
      | cons hcd _ ih => simp only [List.any_cons, ih, hcd.1]
    have ih := filter_sameSlots P1 P2 hP l1 l2 hrest
    by_cases h : notSettled P2 b = true
    · rw [List.filter_cons_of_pos (by rw [hns]; exact h), List.filter_cons_of_pos h]
      exact List.Forall₂.cons hab ih
    · rw [List.filter_cons_of_neg (by rw [hns]; exact h), List.filter_cons_of_neg h]
      exact ih

theorem doWhile_sameSlots {δ : Type} (msd : Int) :
    ∀ (fuel : Nat) (E1 E2 P1 P2 : List (Nat × Event δ)) (L : Links),
      List.Forall₂ SameSlots E1 E2 → List.Forall₂ SameSlots P1 P2 →
      doWhile msd fuel E1 P1 L = doWhile msd fuel E2 P2 L
  | 0, _, _, _, _, _, _, _ => rfl
  | fuel + 1, E1, E2, P1, P2, L, hE, hP => by
    rw [doWhile, doWhile]
    have hF := filter_sameSlots P1 P2 hP E1 E2 hE
    rcases forLoop_sameSlots msd _ _ hF [] [] L List.Forall₂.nil with
      ⟨h1, h2⟩ | ⟨Q1, Q2, L', h1, h2, hQ⟩
    · rw [h1, h2]
    · rw [h1, h2]
      simp only
      rw [hQ.length_eq]
      split_ifs
      · exact doWhile_sameSlots msd fuel _ _ Q1 Q2 L' hF hQ
      · rfl

theorem enum_sameSlots {δ : Type} :
    ∀ (order1 order2 : List (Event δ)) (k : Nat),
      List.Forall₂ (fun a b => a.start = b.start ∧ a.end = b.end) order1 order2 →
      List.Forall₂ SameSlots (order1.enumFrom k) (order2.enumFrom k)
  | _, _, _, List.Forall₂.nil => List.Forall₂.nil
  | _, _, k, List.Forall₂.cons hab hrest =>
    List.Forall₂.cons ⟨rfl, hab.1, hab.2⟩ (enum_sameSlots _ _ (k + 1) hrest)

/-- C13, as the code has it: in every pass the parent chosen for a proxy is
the first root of the pass, in insertion order, with `c.end > e.start` or
`|e.start - c.start| < minimumStartDifference`, on the slot positions returned
by `getRange`; the proxy becomes a root of the pass when there is no such
root; and two render orders with the same slot positions, whatever their
`startMs` and `endMs`, get the same forest. -/
theorem parent_search_on_slots {δ : Type} (minimumStartDifference : Int) :
    (∀ (event : Nat × Event δ) (rest parentEvents : List (Nat × Event δ)) (L : Links),
      (∀ c ∈ parentEvents, ¬ (c.2.end > event.2.start ∨
        jsAbs (event.2.start - c.2.start) < minimumStartDifference)) →
      forLoop minimumStartDifference (event :: rest) parentEvents L
        = forLoop minimumStartDifference rest (parentEvents ++ [event]) L) ∧
    (∀ (event c : Nat × Event δ) (rest before after : List (Nat × Event δ)) (L : Links),
      (∀ x ∈ before, ¬ (x.2.end > event.2.start ∨
        jsAbs (event.2.start - x.2.start) < minimumStartDifference)) →
      (c.2.end > event.2.start ∨
        jsAbs (event.2.start - c.2.start) < minimumStartDifference) →
      forLoop minimumStartDifference (event :: rest) (before ++ c :: after) L
        = (attach L event.1 c.1).bind
            (fun L' => forLoop minimumStartDifference rest (before ++ c :: after) L')) ∧
    (∀ (order1 order2 : List (Event δ)),
      List.Forall₂ (fun a b => a.start = b.start ∧ a.end = b.end) order1 order2 →
      buildTree minimumStartDifference order1 = buildTree minimumStartDifference order2) := by
  refine ⟨?_, ?_, ?_⟩
  · intro event rest parentEvents L hno
    have hf : parentEvents.find? (fun c => canNest minimumStartDifference event.2 c.2) = none := by
      rw [List.find?_eq_none]
      intro c hc
      have := hno c hc
      simpa [canNest] using this
    rw [forLoop, hf]
  · intro event c rest before after L hno hc
    have hf : (before ++ c :: after).find?
        (fun c => canNest minimumStartDifference event.2 c.2) = some c := by
      rw [List.find?_append]
      have h1 : before.find? (fun c => canNest minimumStartDifference event.2 c.2) = none := by
        rw [List.find?_eq_none]
        intro x hx
        have := hno x hx
        simpa [canNest] using this
      have h2 : canNest minimumStartDifference event.2 c.2 = true := by
        simpa [canNest] using hc
      simp [h1, List.find?, h2]
    rw [forLoop, hf]
    simp only
    cases attach L event.1 c.1 <;> rfl
  · intro order1 order2 h
    unfold buildTree
    rw [h.length_eq]
    exact doWhile_sameSlots _ _ _ _ [] [] _ (enum_sameSlots _ _ 0 h) List.Forall₂.nil

/-- Counterexample to C13 as stated: two inputs with the same `startMs` and
`endMs` (0 to 10 and 5 to 15, so `c.endMs > e.startMs`) get different outputs.
With slot positions 0 to 10 and 100 to 110 both events are roots of width 100;
with slot positions equal to the timestamps the second is nested. -/
theorem slot_positions_decide_counterexample :
    geometry (getStyledEvents [(((0 : Int), (0 : Int)), ((10 : Int), (10 : Int))),
        ((100, 5), (110, 15))] 1 quadMetrics quadAccessors) = some [(100, 0), (100, 0)] ∧
    geometry (getStyledEvents [(((0 : Int), (0 : Int)), ((10 : Int), (10 : Int))),
        ((5, 5), (15, 15))] 1 quadMetrics quadAccessors) = some [(85, 0), (50, 50)] := by
  constructor
  · have ho : sortByRender ([(((0 : Int), (0 : Int)), ((10 : Int), (10 : Int))),
        ((100, 5), (110, 15))].map (fun event => Event.new event quadAccessors quadMetrics))
        = some [Event.new ((0, 0), (10, 10)) quadAccessors quadMetrics,
            Event.new ((100, 5), (110, 15)) quadAccessors quadMetrics] := by
      simp only [List.map, sortByRender_pair]
      rw [if_pos (by decide)]
    rw [getStyledEvents_of_order _ _ _ _ _ ho,
      getStyledEvents_pair_flat 1 _ _ _ rfl (by decide)]
    rfl
  · have ho : sortByRender ([(((0 : Int), (0 : Int)), ((10 : Int), (10 : Int))),
        ((5, 5), (15, 15))].map (fun event => Event.new event quadAccessors quadMetrics))
        = some [Event.new ((0, 0), (10, 10)) quadAccessors quadMetrics,
            Event.new ((5, 5), (15, 15)) quadAccessors quadMetrics] := by
      simp only [List.map, sortByRender_pair]
      rw [if_pos (by decide)]
    rw [getStyledEvents_of_order _ _ _ _ _ ho,
      getStyledEvents_pair_nested 1 _ _ _ rfl (by decide)]
    rfl

/-! ## The passes of the tree builder -/

theorem forLoop_roots_kept {δ : Type} (msd : Int) :
    ∀ (rest parentEvents : List (Nat × Event δ)) (L : Links) P' L',
      forLoop msd rest parentEvents L = some (P', L') → parentEvents <+: P'
  | [], parentEvents, L, P', L', h => by
    simp only [forLoop, Option.some.injEq, Prod.mk.injEq] at h
    exact h.1 ▸ List.prefix_refl _
  | event :: rest, parentEvents, L, P', L', h => by
    rw [forLoop] at h
    cases hf : parentEvents.find? (fun c => canNest msd event.2 c.2) with
    | none =>
      rw [hf] at h
      exact (List.prefix_append _ _).trans (forLoop_roots_kept msd rest _ L P' L' h)
    | some parent =>
      rw [hf] at h
      simp only at h
      cases ha : attach L event.1 parent.1 with
      | none => rw [ha] at h; cases h
      | some La =>
        rw [ha] at h
        exact forLoop_roots_kept msd rest _ La P' L' h

/-- A pass makes the first proxy of a non-empty remaining list a root. -/
theorem forLoop_head_root {δ : Type} (msd : Int) (hd : Nat × Event δ)
    (tl : List (Nat × Event δ)) (L : Links) P' L'
    (h : forLoop msd (hd :: tl) [] L = some (P', L')) : hd ∈ P' := by
  have hstep : forLoop msd (hd :: tl) [] L = forLoop msd tl [hd] L := by
    simp [forLoop]
  rw [hstep] at h
  exact (forLoop_roots_kept msd tl [hd] L P' L' h).subset (List.mem_singleton_self hd)

theorem passes_bounded {δ : Type} (msd : Int) (n : Nat) :
    ∀ (m : Nat) (eventsCopy parentEvents : List (Nat × Event δ)) (L : Links),
      L.WF n →
      eventsCopy.Pairwise (fun a b => a.1 < b.1) →
      (∀ e ∈ eventsCopy, e.1 < n) →
      (eventsCopy.filter (notSettled parentEvents)).length ≤ m →
      ∃ k L', k ≤ m + 1 ∧ ∀ fuel, m < fuel →
        passes msd fuel eventsCopy parentEvents L = some k ∧
        doWhile msd fuel eventsCopy parentEvents L = some L' := by
  intro m
  induction m with
  | zero =>
    intro eventsCopy parentEvents L hL hpw hn hm
    have hE : eventsCopy.filter (notSettled parentEvents) = [] :=
      List.length_eq_zero.1 (Nat.le_zero.1 hm)
    refine ⟨1, L, le_refl _, ?_⟩
    intro fuel hfuel
    obtain ⟨f, rfl⟩ : ∃ f, fuel = f + 1 := ⟨fuel - 1, by omega⟩
    simp [passes, doWhile, hE, forLoop]
  | succ m ih =>
    intro eventsCopy parentEvents L hL hpw hn hm
    generalize hE : eventsCopy.filter (notSettled parentEvents) = E at hm
    have hpwE : E.Pairwise (fun a b => a.1 < b.1) := by
      rw [← hE]; exact hpw.filter _
    have hnE : ∀ e ∈ E, e.1 < n := by
      intro e he
      rw [← hE] at he
      exact hn e (List.mem_of_mem_filter he)
    obtain ⟨P', L1, h1, h2, _, _⟩ := forLoop_wf msd n E [] L hL hpwE hnE (by simp)
    by_cases hlen : P'.length > 0
    · cases hEc : E with
      | nil =>
        rw [hEc] at h1
        simp only [forLoop, Option.some.injEq, Prod.mk.injEq] at h1
        rw [← h1.1] at hlen
        simp at hlen
      | cons hd tl =>
        rw [hEc] at h1 hpwE hnE hm
        have hhd : hd ∈ P' := forLoop_head_root msd hd tl L P' L1 h1
        have hdrop : notSettled P' hd = false := by
          simp only [notSettled, Bool.not_eq_false', List.any_eq_true]
          exact ⟨hd, hhd, by simp⟩
        have hshrink : ((hd :: tl).filter (notSettled P')).length ≤ m := by
          rw [List.filter_cons_of_neg (by simp [hdrop])]
          have := List.length_filter_le (notSettled P') tl
          simp only [List.length_cons] at hm
          omega
        obtain ⟨k, L', hk, hall⟩ := ih (hd :: tl) P' L1 h2 hpwE hnE hshrink
        refine ⟨k + 1, L', by omega, ?_⟩
        intro fuel hfuel
        obtain ⟨f, rfl⟩ : ∃ f, fuel = f + 1 := ⟨fuel - 1, by omega⟩
        obtain ⟨hp, hd'⟩ := hall f (by omega)
        rw [passes, doWhile]
        simp only [hE, hEc, h1, hlen, if_true, hp, hd', Option.map_some']
        exact ⟨trivial, trivial⟩
    · refine ⟨1, L1, by omega, ?_⟩
      intro fuel hfuel
      obtain ⟨f, rfl⟩ : ∃ f, fuel = f + 1 := ⟨fuel - 1, by omega⟩
      rw [passes, doWhile]
      simp only [hE, h1, hlen, if_false]
      exact ⟨trivial, trivial⟩

/-- C14: for `n` proxies the `do ... while` loop of `getStyledEvents` ends
after at most `n + 1` passes, whatever fuel beyond that it is given.  A pass
over a non-empty remaining list makes its first proxy a root, so the remaining
list of the next pass is shorter, and a pass produces no root exactly when its
remaining list is empty. -/
theorem tree_loop_terminates {δ : Type} (minimumStartDifference : Int)
    (eventsInRenderOrder : List (Event δ)) :
    (∃ k L, k ≤ eventsInRenderOrder.length + 1 ∧
      ∀ fuel, eventsInRenderOrder.length + 1 ≤ fuel →
        passes minimumStartDifference fuel eventsInRenderOrder.enum [] Links.empty = some k ∧
        doWhile minimumStartDifference fuel eventsInRenderOrder.enum [] Links.empty
          = some L) ∧
    (∀ (remaining : List (Nat × Event δ)) (L : Links) roots L',
      forLoop minimumStartDifference remaining [] L = some (roots, L') →
      (roots = [] ↔ remaining = []) ∧
      ∀ hd tl, remaining = hd :: tl →
        hd ∈ roots ∧ (remaining.filter (notSettled roots)).length < remaining.length) := by
  constructor
  · obtain ⟨k, L, hk, hall⟩ := passes_bounded minimumStartDifference eventsInRenderOrder.length
      eventsInRenderOrder.length eventsInRenderOrder.enum [] Links.empty (Links.empty_wf _)
      (by
        have h := List.pairwise_lt_range eventsInRenderOrder.length
        rw [← List.enum_map_fst eventsInRenderOrder, List.pairwise_map] at h
        exact h)
      (fun e he => List.fst_lt_of_mem_enum he)
      (by
        have := List.length_filter_le (notSettled ([] : List (Nat × Event δ)))
          eventsInRenderOrder.enum
        simpa using this)
    exact ⟨k, L, hk, fun fuel hf => hall fuel (by omega)⟩
  · intro remaining L roots L' h
    constructor
    · constructor
      · intro hr
        cases remaining with
        | nil => rfl
        | cons hd tl =>
          have := forLoop_head_root minimumStartDifference hd tl L roots L' h
          rw [hr] at this
          cases this
      · intro hr
        rw [hr] at h
        simp only [forLoop, Option.some.injEq, Prod.mk.injEq] at h
        exact h.1.symm
    · intro hd tl hr
      rw [hr] at h ⊢
      have hhd := forLoop_head_root minimumStartDifference hd tl L roots L' h
      refine ⟨hhd, ?_⟩
      have hdrop : notSettled roots hd = false := by
        simp only [notSettled, Bool.not_eq_false', List.any_eq_true]
        exact ⟨hd, hhd, by simp⟩
      rw [List.filter_cons_of_neg (by simp [hdrop])]
      have := List.length_filter_le (notSettled roots) tl
      simp only [List.length_cons]
      omega

/-! ## Children lists, and the first record -/

/-- C19: through tree building a children list is absent or non-empty.  The
links start without any children list; a run of the `for` loop over any
number of proxies of a pass, started on well-formed links, neither fails nor
leaves an empty children list, and keeps the links well formed for the next
run; and in the finished forest a proxy without a children list has depth 1
and a proxy with one has a finite depth of at least 2. -/
theorem children_lists_never_empty {δ : Type} (minimumStartDifference : Int)
    (eventsInRenderOrder : List (Event δ)) :
    (∀ i, Links.empty.children i = none) ∧
    Links.empty.WF eventsInRenderOrder.length ∧
    (∀ (L : Links) (eventsCopy : List (Nat × Event δ)) (m : Nat),
      L.WF eventsInRenderOrder.length →
      eventsCopy.Pairwise (fun a b => a.1 < b.1) →
      (∀ e ∈ eventsCopy, e.1 < eventsInRenderOrder.length) →
      ∃ roots L', forLoop minimumStartDifference (eventsCopy.take m) [] L = some (roots, L') ∧
        L'.WF eventsInRenderOrder.length ∧ ∀ i cs, L'.children i = some cs → cs ≠ []) ∧
    ∃ L, buildTree minimumStartDifference eventsInRenderOrder = some L ∧
      (∀ i cs, L.children i = some cs → cs ≠ []) ∧
      ∀ i, i < eventsInRenderOrder.length →
        (L.children i = none →
          depth L (2 * eventsInRenderOrder.length + 2) i = some (DepthVal.finite 1)) ∧
        ((L.children i).isSome →
          ∃ d, 2 ≤ d ∧
            depth L (2 * eventsInRenderOrder.length + 2) i = some (DepthVal.finite d)) := by
  refine ⟨fun _ => rfl, Links.empty_wf _, ?_, ?_⟩
  · intro L eventsCopy m hL hpw hn
    obtain ⟨roots, L', h1, h2, _, _⟩ := forLoop_wf minimumStartDifference
      eventsInRenderOrder.length (eventsCopy.take m) [] L hL
      (hpw.sublist (List.take_sublist m eventsCopy))
      (fun e he => hn e (List.mem_of_mem_take he)) (by simp)
    exact ⟨roots, L', h1, h2, h2.children_ne⟩
  · obtain ⟨L, hb, hL⟩ := buildTree_wf minimumStartDifference eventsInRenderOrder
    refine ⟨L, hb, hL.children_ne, ?_⟩
    intro i hi
    obtain ⟨d, hd, _, hd2⟩ :=
      depth_finite hL (2 * eventsInRenderOrder.length + 2) i (by omega) (by omega)
    constructor
    · intro hc
      rw [show 2 * eventsInRenderOrder.length + 2 = (2 * eventsInRenderOrder.length + 1) + 1
        from rfl, depth, hc]
    · intro hc
      exact ⟨d, hd2 hc, hd⟩

theorem whileLoop_sorted_kept {δ : Type} :
    ∀ (fuel : Nat) (sorted work out : List (Event δ)),
      whileLoop fuel sorted work = some out → sorted <+: out
  | fuel, sorted, [], out, h => by
    have : whileLoop fuel sorted [] = some sorted := by cases fuel <;> simp [whileLoop]
    rw [this] at h
    cases h
    exact List.prefix_refl _
  | 0, _, _ :: _, _, h => by simp [whileLoop] at h
  | fuel + 1, sorted, event :: rest, out, h => by
    unfold whileLoop at h
    rcases hr : relocate event [] rest with ⟨m, rest'⟩
    rw [hr] at h
    cases m with
    | none =>
      simp only at h
      exact (List.prefix_append _ _).trans (whileLoop_sorted_kept fuel _ _ out h)
    | some moved =>
      simp only at h
      rw [List.append_assoc] at h
      exact (List.prefix_append _ _).trans (whileLoop_sorted_kept fuel _ _ out h)

/-- The render order starts with the first proxy of the order by time. -/
theorem sortByRender_head {δ : Type} (events order : List (Event δ)) (first : Event δ)
    (rest : List (Event δ)) (hs : sortBy events = first :: rest)
    (ho : sortByRender events = some order) : order[0]? = some first := by
  unfold sortByRender at ho
  rw [hs] at ho
  have hlen : events.length = rest.length + 1 := by
    rw [← (sortBy_perm events).length_eq, hs]
    rfl
  rw [hlen] at ho
  unfold whileLoop at ho
  rcases hr : relocate first [] rest with ⟨m, rest'⟩
  rw [hr] at ho
  cases m with
  | none =>
    simp only [List.nil_append] at ho
    obtain ⟨t, ht⟩ := whileLoop_sorted_kept _ _ _ order ho
    rw [← ht]
    simp
  | some moved =>
    simp only [List.nil_append] at ho
    obtain ⟨t, ht⟩ := whileLoop_sorted_kept _ _ _ order ho
    rw [← ht]
    simp

/-- C20: for a non-empty input the first output record is that of the proxy
that the stable sort by (startMs ascending, endMs descending) puts first: it
comes before every proxy in that order and is the first of the input with its
time span.  That proxy has no parent, no run of the tree loop changes its
`parent` field, and the `xOffset` of its record is 0. -/
theorem first_record_is_least {δ τ : Type} (events : List δ) (minimumStartDifference : Int)
    (slotMetrics : SlotMetrics τ) (accessors : Accessors δ τ) (hne : events ≠ []) :
    ∃ first rest order L r out,
      sortBy (events.map (fun event => Event.new event accessors slotMetrics))
        = first :: rest ∧
      (∀ p ∈ events.map (fun event => Event.new event accessors slotMetrics),
        renderKeyLE first p) ∧
      ((events.map (fun event => Event.new event accessors slotMetrics)).filter
        (sameSpan first.startMs first.endMs)).head? = some first ∧
      sortByRender (events.map (fun event => Event.new event accessors slotMetrics))
        = some order ∧
      order[0]? = some first ∧
      buildTree minimumStartDifference order = some L ∧
      L.parent 0 = none ∧
      (∀ (fuel : Nat) (eventsCopy parentEvents : List (Nat × Event δ)) (L1 L2 : Links),
        eventsCopy.Pairwise (fun a b => a.1 < b.1) →
        (∀ e ∈ eventsCopy, e ∈ order.enum) →
        doWhile minimumStartDifference fuel eventsCopy parentEvents L1 = some L2 →
        L2.parent 0 = L1.parent 0) ∧
      getStyledEvents events minimumStartDifference slotMetrics accessors = some (r :: out) ∧
      r.event = first.data ∧ r.style.xOffset = 0 := by
  obtain ⟨order, L, out, ho, hperm, hb, hL, hout, hlen, hrec⟩ :=
    record_of_proxy events minimumStartDifference slotMetrics accessors
  have hsne : sortBy (events.map (fun event => Event.new event accessors slotMetrics)) ≠ [] := by
    intro h
    have := (sortBy_perm (events.map
      (fun event => Event.new event accessors slotMetrics))).length_eq
    rw [h] at this
    simp only [List.length_nil, List.length_map] at this
    exact hne (List.length_eq_zero.1 this.symm)
  obtain ⟨first, rest, hs⟩ := List.exists_cons_of_ne_nil hsne
  have hsorted := sortBy_sorted (events.map (fun event => Event.new event accessors slotMetrics))
  rw [hs, List.pairwise_cons] at hsorted
  have hleast : ∀ p ∈ events.map (fun event => Event.new event accessors slotMetrics),
      renderKeyLE first p := by
    intro p hp
    have hp' : p ∈ first :: rest := by
      rw [← hs]
      exact (sortBy_perm _).symm.subset hp
    rcases List.mem_cons.1 hp' with h | h
    · rw [h]
      exact Or.inr ⟨rfl, le_refl _⟩
    · exact hsorted.1 p h
  have hstable : ((events.map (fun event => Event.new event accessors slotMetrics)).filter
      (sameSpan first.startMs first.endMs)).head? = some first := by
    rw [← sortBy_filter, hs, List.filter_cons_of_pos (by simp [sameSpan])]
    rfl
  have hhead := sortByRender_head _ order first rest hs ho
  have hpar : L.parent 0 = none :=
    buildTree_parent_none minimumStartDifference order L 0 hb
      (fun j _ _ hj _ _ => absurd hj (Nat.not_lt_zero j))
  obtain ⟨w, x, _, hx, hr0⟩ := hrec 0 first hhead
  have hx0 : x = 0 := by
    have : xOffset L (2 * order.length + 2) 0 = some 0 := by
      simp [xOffset, hpar]
    rw [hx] at this
    cases this
    rfl
  cases out with
  | nil => simp at hr0
  | cons r out' =>
    simp only [List.getElem?_cons_zero, Option.some.injEq] at hr0
    refine ⟨first, rest, order, L, r, out', hs, hleast, hstable, ho, hhead, hb, hpar, ?_,
      hout, ?_, ?_⟩
    · intro fuel eventsCopy parentEvents L1 L2 hpw hE h
      exact doWhile_parent_keep minimumStartDifference 0 order.enum
        (fun _ _ c _ _ hc => absurd hc (Nat.not_lt_zero c.1)) fuel eventsCopy parentEvents
        L1 L2 hpw hE h
    · rw [hr0]
    · rw [hr0, hx0]

/-- Witness of C20: the events `(5,15)`, `(0,10)` and `(0,20)`; the record of
`(0,20)` comes first. -/
theorem first_record_is_least_witness :
    ([((5 : Int), (15 : Int)), (0, 10), (0, 20)] ≠ []) ∧
    ∃ first rest order L r out,
      sortBy ([((5 : Int), (15 : Int)), (0, 10), (0, 20)].map
        (fun event => Event.new event pairAccessors plainMetrics)) = first :: rest ∧
      (∀ p ∈ [((5 : Int), (15 : Int)), (0, 10), (0, 20)].map
          (fun event => Event.new event pairAccessors plainMetrics),
        renderKeyLE first p) ∧
      (([((5 : Int), (15 : Int)), (0, 10), (0, 20)].map
          (fun event => Event.new event pairAccessors plainMetrics)).filter
        (sameSpan first.startMs first.endMs)).head? = some first ∧
      sortByRender ([((5 : Int), (15 : Int)), (0, 10), (0, 20)].map
        (fun event => Event.new event pairAccessors plainMetrics)) = some order ∧
      order[0]? = some first ∧
      buildTree 1 order = some L ∧
      L.parent 0 = none ∧
      (∀ (fuel : Nat) (eventsCopy parentEvents : List (Nat × Event (Int × Int)))
          (L1 L2 : Links),
        eventsCopy.Pairwise (fun a b => a.1 < b.1) →
        (∀ e ∈ eventsCopy, e ∈ order.enum) →
        doWhile 1 fuel eventsCopy parentEvents L1 = some L2 →
        L2.parent 0 = L1.parent 0) ∧
      getStyledEvents [((5 : Int), (15 : Int)), (0, 10), (0, 20)] 1 plainMetrics pairAccessors
        = some (r :: out) ∧
      r.event = first.data ∧ r.style.xOffset = 0 :=
  ⟨by decide,
    first_record_is_least [((5 : Int), (15 : Int)), (0, 10), (0, 20)] 1 plainMetrics
      pairAccessors (by decide)⟩

/-! ## Events that all overlap each other -/

theorem attach_parent_self {L L' : Links} {event parent : Nat}
    (h : attach L event parent = some L') : L'.parent event = some parent := by
  unfold attach at h
  simp only [Option.bind_eq_some] at h
  obtain ⟨L2, h2, h3⟩ := h
  have e2 : L2.parent event = some parent := by
    cases hg : (L.setParent event parent).parent parent with
    | none =>
      rw [hg] at h2
      cases h2
      simp [Links.setParent]
    | some grand =>
      rw [hg] at h2
      simp only at h2
      cases hc : (L.setParent event parent).children grand with
      | none => rw [hc] at h2; cases h2
      | some cs =>
        rw [hc] at h2
        cases h2
        simp [Links.setParent, Links.setChildren]
  cases hc2 : L2.children parent with
  | none =>
    rw [hc2] at h3
    simp only [Links.setChildren, if_true, Option.some.injEq] at h3
    rw [← h3]
    exact e2
  | some cs =>
    rw [hc2] at h3
    simp only [hc2, Option.some.injEq] at h3
    rw [← h3]
    exact e2

/-- A run of the `for` loop in which the single root adopts every proxy. -/
theorem forLoop_all_nest {δ : Type} (msd : Int) (n : Nat) (r : Nat × Event δ) :
    ∀ (rest : List (Nat × Event δ)) (L : Links),
      L.WF n →
      rest.Pairwise (fun a b => a.1 < b.1) →
      (∀ e ∈ rest, e.1 < n) →
      (∀ e ∈ rest, r.1 < e.1) →
      (∀ e ∈ rest, canNest msd e.2 r.2 = true) →
      ∃ L', forLoop msd rest [r] L = some ([r], L') ∧ L'.WF n ∧
        (∀ e ∈ rest, L'.parent e.1 = some r.1) ∧
        ∀ i, (∀ e ∈ rest, e.1 ≠ i) → L'.parent i = L.parent i
  | [], L, hL, _, _, _, _ => ⟨L, rfl, hL, by simp, fun _ _ => rfl⟩
  | event :: rest, L, hL, hpw, hn, hlt, hcan => by
    rw [List.pairwise_cons] at hpw
    have hf : [r].find? (fun c => canNest msd event.2 c.2) = some r := by
      simp [List.find?, hcan event (List.mem_cons_self _ _)]
    obtain ⟨La, ha, hwa⟩ := attach_wf hL (hlt event (List.mem_cons_self _ _))
      (hn event (List.mem_cons_self _ _))
    obtain ⟨L', h1, h2, h3, h4⟩ := forLoop_all_nest msd n r rest La hwa hpw.2
      (fun e he => hn e (List.mem_cons_of_mem _ he))
      (fun e he => hlt e (List.mem_cons_of_mem _ he))
      (fun e he => hcan e (List.mem_cons_of_mem _ he))
    refine ⟨L', ?_, h2, ?_, ?_⟩
    · rw [forLoop, hf]
      simp only [ha]
      exact h1
    · intro e he
      rcases List.mem_cons.1 he with h | h
      · subst h
        rw [h4 e.1 (fun e' he' => Nat.ne_of_gt (hpw.1 e' he'))]
        exact attach_parent_self ha
      · exact h3 e h
    · intro i hi
      rw [h4 i (fun e he => hi e (List.mem_cons_of_mem _ he))]
      exact attach_parent_other ha i (hi event (List.mem_cons_self _ _)).symm

theorem filter_notSettled_head {δ : Type} (hd : Nat × Event δ) (tl : List (Nat × Event δ))
    (hpw : (hd :: tl).Pairwise (fun a b => a.1 < b.1)) :
    (hd :: tl).filter (notSettled [hd]) = tl := by
  rw [List.pairwise_cons] at hpw
  rw [List.filter_cons_of_neg (by simp [notSettled])]
  rw [List.filter_eq_self]
  intro e he
  have := hpw.1 e he
  simp only [notSettled, List.any_cons, List.any_nil, Bool.or_false, Bool.not_eq_true',
    beq_eq_false_iff_ne, ne_eq]
  omega

/-- When every proxy of the remaining list can nest under every other, the
tree loop makes the remaining list one chain. -/
theorem doWhile_chain {δ : Type} (msd : Int) (n : Nat) :
    ∀ (m : Nat) (eventsCopy parentEvents : List (Nat × Event δ)) (L : Links),
      L.WF n →
      eventsCopy.Pairwise (fun a b => a.1 < b.1) →
      (∀ e ∈ eventsCopy, e.1 < n) →
      (∀ a ∈ eventsCopy, ∀ b ∈ eventsCopy, canNest msd b.2 a.2 = true) →
      (eventsCopy.filter (notSettled parentEvents)).length ≤ m →
      ∃ L', doWhile msd (m + 1) eventsCopy parentEvents L = some L' ∧
        (∀ j a b, (eventsCopy.filter (notSettled parentEvents))[j]? = some a →
          (eventsCopy.filter (notSettled parentEvents))[j + 1]? = some b →
          L'.parent b.1 = some a.1) ∧
        ∀ i, (∀ e ∈ (eventsCopy.filter (notSettled parentEvents)).tail, e.1 ≠ i) →
          L'.parent i = L.parent i := by
  intro m
  induction m with
  | zero =>
    intro eventsCopy parentEvents L hL hpw hn hcan hm
    have hE : eventsCopy.filter (notSettled parentEvents) = [] :=
      List.length_eq_zero.1 (Nat.le_zero.1 hm)
    refine ⟨L, by simp [doWhile, hE, forLoop], by simp [hE], fun _ _ => rfl⟩
  | succ m ih =>
    intro eventsCopy parentEvents L hL hpw hn hcan hm
    generalize hE : eventsCopy.filter (notSettled parentEvents) = E at hm
    have hsub : ∀ e ∈ E, e ∈ eventsCopy := by
      intro e he
      rw [← hE] at he
      exact List.mem_of_mem_filter he
    have hpwE : E.Pairwise (fun a b => a.1 < b.1) := by
      rw [← hE]; exact hpw.filter _
    cases E with
    | nil =>
      refine ⟨L, ?_, by simp, fun _ _ => rfl⟩
      rw [doWhile]
      simp [hE, forLoop]
    | cons hd tl =>
      have hpwE' := List.pairwise_cons.1 hpwE
      obtain ⟨L1, h1, hw1, hp1, hk1⟩ := forLoop_all_nest msd n hd tl L hL hpwE'.2
        (fun e he => hn e (hsub e (List.mem_cons_of_mem _ he)))
        (fun e he => hpwE'.1 e he)
        (fun e he => hcan hd (hsub hd (List.mem_cons_self _ _)) e
          (hsub e (List.mem_cons_of_mem _ he)))
      have hstep : forLoop msd (hd :: tl) [] L = some ([hd], L1) := by
        rw [← h1]
        simp [forLoop]
      have hfil := filter_notSettled_head hd tl hpwE
      obtain ⟨L', h2, hch, hk2⟩ := ih (hd :: tl) [hd] L1 hw1 hpwE
        (fun e he => hn e (hsub e he))
        (fun a ha b hb => hcan a (hsub a ha) b (hsub b hb))
        (by rw [hfil]; simp only [List.length_cons] at hm; omega)
      rw [hfil] at hch hk2
      refine ⟨L', ?_, ?_, ?_⟩
      · rw [doWhile]
        simp only [hE, hstep, List.length_singleton, gt_iff_lt, Nat.lt_one_iff,
          Nat.pos_of_ne_zero, if_true]
        simpa using h2
      · intro j a b ha hb
        cases j with
        | zero =>
          simp only [List.getElem?_cons_zero, Option.some.injEq] at ha
          simp only [List.getElem?_cons_succ] at hb
          subst ha
          cases tl with
          | nil => simp at hb
          | cons t1 tl' =>
            simp only [List.getElem?_cons_zero, Option.some.injEq] at hb
            subst hb
            have hne : ∀ e ∈ (t1 :: tl').tail, e.1 ≠ t1.1 := by
              intro e he
              have := (List.pairwise_cons.1 hpwE'.2).1 e he
              omega
            rw [hk2 t1.1 hne]
            exact hp1 t1 (List.mem_cons_self _ _)
        | succ j =>
          simp only [List.getElem?_cons_succ] at ha hb
          exact hch j a b ha hb
      · intro i hi
        simp only [List.tail_cons] at hi
        rw [hk2 i (fun e he => hi e (List.mem_of_mem_tail he))]
        exact hk1 i hi

theorem buildTree_chain {δ : Type} (msd : Int) (order : List (Event δ))
    (hcan : ∀ a ∈ order, ∀ b ∈ order, canNest msd b a = true) :
    ∃ L, buildTree msd order = some L ∧ L.WF order.length ∧ L.parent 0 = none ∧
      ∀ i, i + 1 < order.length → L.parent (i + 1) = some i := by
  obtain ⟨L, hb, hL⟩ := buildTree_wf msd order
  have hpw : order.enum.Pairwise (fun a b => a.1 < b.1) := by
    have h := List.pairwise_lt_range order.length
    rw [← List.enum_map_fst order, List.pairwise_map] at h
    exact h
  have hfil : order.enum.filter (notSettled ([] : List (Nat × Event δ))) = order.enum := by
    rw [List.filter_eq_self]
    intro e _
    rfl
  obtain ⟨L', h1, hch, _⟩ := doWhile_chain msd order.length order.length order.enum []
    Links.empty (Links.empty_wf _) hpw (fun e he => List.fst_lt_of_mem_enum he)
    (fun a ha b hb => hcan a.2 (List.snd_mem_of_mem_enum ha) b.2 (List.snd_mem_of_mem_enum hb))
    (by rw [hfil]; simp)
  unfold buildTree at hb
  rw [hb] at h1
  cases h1
  rw [hfil] at hch
  refine ⟨L, by unfold buildTree; exact hb, hL,
    buildTree_parent_none msd order L 0 (by unfold buildTree; exact hb)
      (fun j _ _ hj _ _ => absurd hj (Nat.not_lt_zero j)), ?_⟩
  intro i hi
  have h0 : order.enum[i]? = some (i, order[i]) := by
    rw [List.getElem?_enum, List.getElem?_eq_getElem (by omega)]
    rfl
  have h1 : order.enum[i + 1]? = some (i + 1, order[i + 1]) := by
    rw [List.getElem?_enum, List.getElem?_eq_getElem hi]
    rfl
  exact hch i _ _ h0 h1

theorem mapM_eq_map {α β : Type} (f : α → Option β) (g : α → β) :
    ∀ (l : List α), (∀ a ∈ l, f a = some (g a)) → l.mapM f = some (l.map g)
  | [], _ => by rw [List.mapM_nil]; rfl
  | a :: l, h => by
    rw [List.mapM_cons, h a (List.mem_cons_self _ _),
      mapM_eq_map f g l (fun x hx => h x (List.mem_cons_of_mem _ hx))]
    rfl

theorem foldl_max_eq (M : Nat) :
    ∀ (ds : List DepthVal) (acc : DepthVal),
      (∀ d ∈ ds, ∃ k, d = DepthVal.finite k ∧ k ≤ M) →
      (acc = DepthVal.negInfinity ∨ ∃ a, acc = DepthVal.finite a ∧ a ≤ M) →
      (acc = DepthVal.finite M ∨ DepthVal.finite M ∈ ds) →
      ds.foldl DepthVal.max acc = DepthVal.finite M
  | [], acc, _, _, hM => by
    rcases hM with h | h
    · simpa using h
    · simp at h
  | d :: ds, acc, hds, hacc, hM => by
    obtain ⟨k, rfl, hk⟩ := hds d (List.mem_cons_self _ _)
    simp only [List.foldl_cons]
    apply foldl_max_eq M ds _ (fun x hx => hds x (List.mem_cons_of_mem _ hx))
    · right
      rcases hacc with rfl | ⟨a, rfl, ha⟩
      · exact ⟨k, rfl, hk⟩
      · exact ⟨Nat.max a k, rfl, Nat.max_le.2 ⟨ha, hk⟩⟩
    · rcases hM with h | h
      · left
        subst h
        simp only [DepthVal.max]
        congr 1
        exact Nat.max_eq_left hk
      · rcases List.mem_cons.1 h with h' | h'
        · left
          cases h'
          rcases hacc with rfl | ⟨a, rfl, ha⟩
          · rfl
          · simp only [DepthVal.max]
            congr 1
            exact Nat.max_eq_right ha
        · right
          exact h'

/-- On a chain of `n` proxies the proxy `i` has depth `n - i`. -/
theorem depth_chain {L : Links} {n : Nat} (hL : L.WF n)
    (hch : ∀ i, i + 1 < n → L.parent (i + 1) = some i) :
    ∀ (fuel i : Nat), i < n → n - i ≤ fuel →
      depth L fuel i = some (DepthVal.finite (n - i))
  | 0, i, hi, hf => by omega
  | fuel + 1, i, hi, hf => by
    rw [depth]
    cases hc : L.children i with
    | none =>
      have : i + 1 = n := by
        by_contra hne
        obtain ⟨cs, hcs, _⟩ := hL.parent_mem (i + 1) i (hch i (by omega))
        rw [hc] at hcs
        cases hcs
      simp only
      congr 2
      omega
    | some cs =>
      simp only
      obtain ⟨c0, hc0⟩ := List.exists_mem_of_ne_nil cs (hL.children_ne i cs hc)
      have hi1 : i + 1 < n := by
        have := hL.children_gt i cs hc c0 hc0
        omega
      obtain ⟨cs', hcs', hmem⟩ := hL.parent_mem (i + 1) i (hch i hi1)
      rw [hc] at hcs'
      cases hcs'
      rw [mapM_eq_map (depth L fuel) (fun c => DepthVal.finite (n - c)) cs (by
        intro c hcm
        have := hL.children_gt i cs hc c hcm
        exact depth_chain hL hch fuel c (by omega) (by omega))]
      simp only [Option.map_some']
      rw [foldl_max_eq (n - (i + 1)) _ _ (by
          intro d hd
          obtain ⟨c, hcm, rfl⟩ := List.mem_map.1 hd
          have := hL.children_gt i cs hc c hcm
          exact ⟨_, rfl, by omega⟩) (Or.inl rfl)
        (Or.inr (List.mem_map.2 ⟨i + 1, hmem, rfl⟩))]
      simp only [DepthVal.succ]
      congr 2
      omega

/-- On a chain of `n` proxies every proxy has `_width = 100 / n`, and the
proxy `i` has `xOffset = 100 * i / n`. -/
theorem getters_chain {L : Links} {n : Nat} (hL : L.WF n) (h0 : L.parent 0 = none)
    (hch : ∀ i, i + 1 < n → L.parent (i + 1) = some i) :
    ∀ i, i < n →
      _width L (2 * n + 2) i = some (100 / (n : ℚ)) ∧
      xOffset L (2 * n + 2) i = some (100 * (i : ℚ) / (n : ℚ)) ∧
      ((L.children i).isSome ↔ i + 1 < n) := by
  have hkids : ∀ i, i < n → ((L.children i).isSome ↔ i + 1 < n) := by
    intro i hi
    constructor
    · intro h
      obtain ⟨cs, hcs⟩ := Option.isSome_iff_exists.1 h
      obtain ⟨c0, hc0⟩ := List.exists_mem_of_ne_nil cs (hL.children_ne i cs hcs)
      have := hL.children_gt i cs hcs c0 hc0
      omega
    · intro h
      obtain ⟨cs, hcs, _⟩ := hL.parent_mem (i + 1) i (hch i h)
      simp [hcs]
  have hwidth : ∀ i, i < n → ∀ w x : ℚ, x = 100 * (i : ℚ) / (n : ℚ) →
      (L.children i = none → w = 100 - x) →
      ((L.children i).isSome → ∃ d : Nat, 2 ≤ d ∧
        depth L (2 * n + 2) i = some (DepthVal.finite d) ∧ w = (100 - x) / d) →
      w = 100 / (n : ℚ) := by
    intro i hi w x hx hleaf hint
    have hn0 : (n : ℚ) ≠ 0 := by
      have : 0 < n := by omega
      exact_mod_cast this.ne'
    cases hc : L.children i with
    | none =>
      have hlast : i + 1 = n := by
        by_contra hne
        have := (hkids i hi).2 (by omega)
        rw [hc] at this
        cases this
      rw [hleaf hc, hx]
      have : (i : ℚ) = (n : ℚ) - 1 := by
        rw [← hlast]
        push_cast
        ring
      rw [this]
      field_simp
      ring
    | some cs =>
      obtain ⟨d, _, hd, hw⟩ := hint (by simp [hc])
      rw [depth_chain hL hch (2 * n + 2) i hi (by omega)] at hd
      simp only [Option.some.injEq, DepthVal.finite.injEq] at hd
      have hi1 := (hkids i hi).1 (by simp [hc])
      have hdq : (d : ℚ) = (n : ℚ) - (i : ℚ) := by
        rw [← hd]
        push_cast [Nat.cast_sub (Nat.le_of_lt hi)]
        ring
      have hd0 : (n : ℚ) - (i : ℚ) ≠ 0 := by
        have : (i : ℚ) < (n : ℚ) := by exact_mod_cast hi
        linarith
      rw [hw, hx, hdq]
      field_simp
      ring
  intro i
  induction i with
  | zero =>
    intro hi
    obtain ⟨w, x, hw, hx, _, _, _, _, hroot, _, hleaf, hint⟩ :=
      getters_spec hL (2 * n + 2) 0 (by omega)
    have hx0 : x = 100 * ((0 : Nat) : ℚ) / (n : ℚ) := by
      rw [hroot h0]
      simp
    have hw0 := hwidth 0 hi w x hx0 hleaf hint
    exact ⟨by rw [hw, hw0], by rw [hx, hx0], hkids 0 hi⟩
  | succ i ih =>
    intro hi
    obtain ⟨hwi, hxi, _⟩ := ih (by omega)
    obtain ⟨w, x, hw, hx, _, _, _, _, _, hpar, hleaf, hint⟩ :=
      getters_spec hL (2 * n + 2) (i + 1) (by omega)
    obtain ⟨wp, xp, hwp, hxp, hsum, _⟩ := hpar i (hch i hi)
    rw [hwi] at hwp
    rw [hxi] at hxp
    cases hwp
    cases hxp
    have hx1 : x = 100 * ((i + 1 : Nat) : ℚ) / (n : ℚ) := by
      rw [hsum]
      push_cast
      ring
    have hw1 := hwidth (i + 1) hi w x hx1 hleaf hint
    exact ⟨by rw [hw, hw1], by rw [hx, hx1], hkids (i + 1) hi⟩

/-- C16, in exact rational arithmetic with `1.7 = 17/10`: for an input of `n`
events that all overlap each other (the end of every event is greater than the
start of every event, on the slot positions), the forest is a single chain in
render order, and the record at position `i`, counted from 0, has
`xOffset = 100 * i / n`, and `width = 100 / n` when it is the last one and
`min(100, 170 / n)` otherwise. -/
theorem all_overlap_chain {δ τ : Type} (events : List δ) (minimumStartDifference : Int)
    (slotMetrics : SlotMetrics τ) (accessors : Accessors δ τ)
    (hov : ∀ a ∈ events, ∀ b ∈ events,
      (Event.new a accessors slotMetrics).end > (Event.new b accessors slotMetrics).start) :
    ∃ L out,
      (sortByRender (events.map (fun event => Event.new event accessors slotMetrics))).bind
        (buildTree minimumStartDifference) = some L ∧
      getStyledEvents events minimumStartDifference slotMetrics accessors = some out ∧
      L.parent 0 = none ∧
      (∀ i, i + 1 < events.length → L.parent (i + 1) = some i) ∧
      ∀ i, i < events.length → ∃ r, out[i]? = some r ∧
        r.style.xOffset = 100 * (i : ℚ) / (events.length : ℚ) ∧
        r.style.width = if i + 1 = events.length then 100 / (events.length : ℚ)
          else min 100 (170 / (events.length : ℚ)) := by
  obtain ⟨order, L, out, ho, hperm, hb, hL, hout, hlen, hrec⟩ :=
    record_of_proxy events minimumStartDifference slotMetrics accessors
  have hn : order.length = events.length := by
    rw [hperm.length_eq, List.length_map]
  have hcan : ∀ a ∈ order, ∀ b ∈ order, canNest minimumStartDifference b a = true := by
    intro a ha b hb'
    obtain ⟨da, hda, rfl⟩ := List.mem_map.1 (hperm.subset ha)
    obtain ⟨db, hdb, rfl⟩ := List.mem_map.1 (hperm.subset hb')
    have := hov da hda db hdb
    simp [canNest, this]
  obtain ⟨L', hb', _, h0, hch⟩ := buildTree_chain minimumStartDifference order hcan
  rw [hb] at hb'
  cases hb'
  refine ⟨L, out, by rw [ho]; exact hb, hout, h0, fun i hi => hch i (hn ▸ hi), ?_⟩
  intro i hi
  have hi' : i < order.length := hn ▸ hi
  obtain ⟨hw, hx, hkids⟩ := getters_chain hL h0 hch i hi'
  obtain ⟨w, x, hw', hx', hr⟩ := hrec i order[i] (List.getElem?_eq_getElem hi')
  rw [hw] at hw'
  rw [hx] at hx'
  cases hw'
  cases hx'
  refine ⟨_, hr, by rw [hn], ?_⟩
  have hn0 : (events.length : ℚ) ≠ 0 := by
    have : 0 < events.length := by omega
    exact_mod_cast this.ne'
  show (if (L.children i).isSome then min 100 (100 / (order.length : ℚ) * (17 / 10))
    else 100 / (order.length : ℚ)) = _
  rw [hn]
  by_cases hlast : i + 1 = events.length
  · have : ¬ (L.children i).isSome = true := by
      rw [hkids]
      omega
    rw [if_neg this, if_pos hlast]
  · have : (L.children i).isSome = true := by
      rw [hkids]
      omega
    rw [if_pos this, if_neg hlast]
    congr 1
    field_simp
    ring

/-- Witness of C16: the events `(0,10)`, `(1,9)` and `(2,8)`. -/
theorem all_overlap_chain_witness :
    ((10 : Int) > 2 ∧ (9 : Int) > 2 ∧ (8 : Int) > 2) ∧
    ∃ L out,
      (sortByRender ([((0 : Int), (10 : Int)), (1, 9), (2, 8)].map
        (fun event => Event.new event pairAccessors plainMetrics))).bind (buildTree 1)
          = some L ∧
      getStyledEvents [((0 : Int), (10 : Int)), (1, 9), (2, 8)] 1 plainMetrics pairAccessors
        = some out ∧
      L.parent 0 = none ∧
      (∀ i, i + 1 < [((0 : Int), (10 : Int)), (1, 9), (2, 8)].length →
        L.parent (i + 1) = some i) ∧
      ∀ i, i < [((0 : Int), (10 : Int)), (1, 9), (2, 8)].length → ∃ r, out[i]? = some r ∧
        r.style.xOffset
          = 100 * (i : ℚ) / ([((0 : Int), (10 : Int)), (1, 9), (2, 8)].length : ℚ) ∧
        r.style.width = if i + 1 = [((0 : Int), (10 : Int)), (1, 9), (2, 8)].length
          then 100 / ([((0 : Int), (10 : Int)), (1, 9), (2, 8)].length : ℚ)
          else min 100 (170 / ([((0 : Int), (10 : Int)), (1, 9), (2, 8)].length : ℚ)) :=
  ⟨by decide,
    all_overlap_chain [((0 : Int), (10 : Int)), (1, 9), (2, 8)] 1 plainMetrics pairAccessors
      (by decide)⟩

/-! ## The chain in double arithmetic -/

/-- With no rounding the getters are the exact getters. -/
theorem gettersWith_id (L : Links) :
    ∀ fuel this, _widthWith id L fuel this = _width L fuel this ∧
      xOffsetWith id L fuel this = xOffset L fuel this
  | 0, _ => by simp [_widthWith, _width, xOffsetWith, xOffset]
  | fuel + 1, this => by
    constructor
    · rw [_widthWith, _width]
      cases hp : L.parent this with
      | none => rfl
      | some parent =>
        simp only [(gettersWith_id L fuel parent).1, (gettersWith_id L fuel parent).2, id]
    · rw [xOffsetWith, xOffset]
      cases hp : L.parent this with
      | none => rfl
      | some parent =>
        simp only [(gettersWith_id L fuel parent).1, (gettersWith_id L fuel parent).2, id]

theorem widthWith_id (L : Links) (fuel this : Nat) :
    widthWith id L fuel this = width L fuel this := by
  unfold widthWith width
  rw [(gettersWith_id L fuel this).1]
  rfl

/-- With no rounding `getStyledEventsWith` is `getStyledEvents`: the two differ
in the rounding only. -/
theorem getStyledEventsWith_id {δ τ : Type} (events : List δ) (minimumStartDifference : Int)
    (slotMetrics : SlotMetrics τ) (accessors : Accessors δ τ) :
    getStyledEventsWith id events minimumStartDifference slotMetrics accessors =
      getStyledEvents events minimumStartDifference slotMetrics accessors := by
  have hstyle : ∀ (L : Links) (fuel : Nat), @styleOfWith δ id L fuel = styleOf L fuel := by
    intro L fuel
    funext event
    unfold styleOfWith styleOf
    rw [widthWith_id, (gettersWith_id L fuel event.1).2]
  unfold getStyledEventsWith getStyledEvents
  simp only [hstyle]

/-- Counterexample to C16 as stated: the events `(0,10)`, `(1,9)` and `(2,8)`
all overlap, and in doubles the code returns the widths 56.66666666666667,
56.66666666666666 and 33.33333333333334 and the offsets 0, 33.333333333333336
and 66.66666666666666, given here as exact fractions.  The first two widths
differ from each other, neither is the double nearest to `170/3`, the third
offset is not the double nearest to `200/3`, the third width is not the double
nearest to `100/3`, and none of them is the exact value. -/
theorem double_chain_counterexample :
    (∀ a ∈ [((0 : Int), (10 : Int)), (1, 9), (2, 8)],
      ∀ b ∈ [((0 : Int), (10 : Int)), (1, 9), (2, 8)],
        (Event.new a pairAccessors plainMetrics).end >
          (Event.new b pairAccessors plainMetrics).start) ∧
    geometry (getStyledEventsWith roundDouble [((0 : Int), (10 : Int)), (1, 9), (2, 8)] 1
        plainMetrics pairAccessors) =
      some [(3987562170067627 / 70368744177664, 0),
            (1993781085033813 / 35184372088832, 4691249611844267 / 140737488355328),
            (1172812402961067 / 35184372088832, 2345624805922133 / 35184372088832)] ∧
    (3987562170067627 / 70368744177664 : ℚ) ≠ 1993781085033813 / 35184372088832 ∧
    (3987562170067627 / 70368744177664 : ℚ) ≠ roundDouble (170 / 3) ∧
    (1993781085033813 / 35184372088832 : ℚ) ≠ roundDouble (170 / 3) ∧
    (2345624805922133 / 35184372088832 : ℚ) ≠ roundDouble (200 / 3) ∧
    (1172812402961067 / 35184372088832 : ℚ) ≠ roundDouble (100 / 3) ∧
    (3987562170067627 / 70368744177664 : ℚ) ≠ 170 / 3 ∧
    (2345624805922133 / 35184372088832 : ℚ) ≠ 200 / 3 := by
  decide!

end Overlap
